import Mathlib

/-!
# GANNet: a verification development

A shallow embedding of the computational core of the GANNet library
(`gannet.go`, `neuron.go`, `activation.go`, `dataset.go`).

Modelling conventions.

* `float64` values are elements of an arbitrary field `α` (exact arithmetic);
  `math.Exp` is a parameter of the sigmoid.
* Neurons live in a heap (`Heap α`, a list of cells); a `*Neuron` is a `Ptr`,
  `none` being the nil pointer and `some a` the address of cell `a`.
* A `[]float64` owned by a neuron is a `List α` stored in the neuron's cell:
  no two neurons share a backing array (neither `NewNNet` nor `NNetLoad`
  creates such sharing).
* A run-time panic is the `.error` side of `Except Panic`.
* `sync.Mutex` is not modelled: every operation here is sequential, and
  `Lock`/`Unlock` are always paired around a single statement.
* `propagateErrors` reads `net.Layer[layer_num]` in its loop bound; the
  struct has no such field and the embedding reads `net.Layers[layer_num]`.
-/

namespace Gannet

/-! ## Data model -/

/-- Run-time panics of the Go program. -/
inductive Panic where
  | indexOutOfRange
  | nilDereference
  | makeNegativeLen
  deriving DecidableEq, Repr

/-- The interface `ActivationFunc` (activation.go): an implementation gives the
two methods; `TypeName` is what `reflect.TypeOf(fun).Name()` yields for it. -/
structure ActivationFunc (α : Type) where
  Activate : α → α
  Prime : α → α
  TypeName : String

/-- A `*Neuron`: `none` is nil, `some a` is the address of heap cell `a`. -/
abbrev Ptr := Option Nat

/-- The struct `Neuron` (neuron.go), without the mutex. -/
structure Neuron (α : Type) where
  Bias : α
  In : α
  Out : α
  Error : α
  ActivationName : String
  Activation : Option (ActivationFunc α)
  Weights : List α
  Inputs : List Ptr
  DeltaW : List α
  LearningRate : α
  Momentum : α

/-- The heap of neurons. -/
abbrev Heap (α : Type) := List (Neuron α)

/-- The struct `NNet` (gannet.go). -/
structure NNet where
  Layers : List (List Ptr)
  deriving DecidableEq, Repr

/-- The struct `Dataset` (dataset.go). -/
structure Dataset (α : Type) where
  Data : List α
  Label : List α

/-- The error value `ComputeOutput` returns; the message of the Go program
is built from these two numbers. -/
structure SizeError where
  layerSize : Nat
  inputSize : Nat
  deriving DecidableEq, Repr

variable {α : Type} [Field α]

/-! ## Memory access -/

/-- Slice indexing `xs[k]`. -/
def index {β : Type} (xs : List β) (k : Nat) : Except Panic β :=
  match xs[k]? with
  | some x => .ok x
  | none => .error .indexOutOfRange

/-- Reading through a `*Neuron`. -/
def deref (h : Heap α) (p : Ptr) : Except Panic (Neuron α) :=
  match p with
  | none => .error .nilDereference
  | some a =>
    match h[a]? with
    | some n => .ok n
    | none => .error .nilDereference

/-- Writing through a `*Neuron` that has been read before. -/
def store (h : Heap α) (p : Ptr) (n : Neuron α) : Heap α :=
  match p with
  | none => h
  | some a => h.set a n

/-- Calling a method of the interface value `neuron.Activation`. -/
def activation (n : Neuron α) : Except Panic (ActivationFunc α) :=
  match n.Activation with
  | some f => .ok f
  | none => .error .nilDereference

/-- The loop `for k = start; k < start + count; k++ { body }`. -/
def forRange {σ : Type} (body : Nat → σ → Except Panic σ) : Nat → Nat → σ → Except Panic σ
  | _, 0, s => .ok s
  | k, c + 1, s =>
    match body k s with
    | .ok s1 => forRange body (k + 1) c s1
    | .error e => .error e

/-! ## The forward phase (gannet.go, `feedForward`, `ComputeOutput`) -/

/-- The statement `neuron.In += neuron.Weights[k] * neuron.Inputs[k].Out`. -/
def feedForwardSynapse (p : Ptr) (k : Nat) (h : Heap α) : Except Panic (Heap α) := do
  let n ← deref h p
  let w ← index n.Weights k
  let q ← index n.Inputs k
  let m ← deref h q
  pure (store h p { n with In := n.In + w * m.Out })

/-- The body of the `j` loop of `feedForward` for `neuron = net.Layers[i][j]`. -/
def feedForwardNeuron (input : List α) (i j : Nat) (p : Ptr) (h : Heap α) :
    Except Panic (Heap α) := do
  let n ← deref h p
  let h1 := store h p { n with In := -n.Bias }
  let h2 ←
    if 0 < i then
      forRange (feedForwardSynapse p) 0 n.Weights.length h1
    else do
      let n1 ← deref h1 p
      let w ← index n1.Weights 0
      let x ← index input j
      pure (store h1 p { n1 with In := n1.In + w * x })
  let n2 ← deref h2 p
  let f ← activation n2
  pure (store h2 p { n2 with Out := f.Activate n2.In })

/-- The `j` loop of `feedForward` over the neurons of layer `i`, from index `j`. -/
def feedForwardLayer (input : List α) (i : Nat) : Nat → List Ptr → Heap α → Except Panic (Heap α)
  | _, [], h => .ok h
  | j, p :: ps, h =>
    match feedForwardNeuron input i j p h with
    | .ok h1 => feedForwardLayer input i (j + 1) ps h1
    | .error e => .error e

/-- The `i` loop of `feedForward` over the layers, from index `i`. -/
def feedForwardFrom (input : List α) : Nat → List (List Ptr) → Heap α → Except Panic (Heap α)
  | _, [], h => .ok h
  | i, l :: ls, h =>
    match feedForwardLayer input i 0 l h with
    | .ok h1 => feedForwardFrom input (i + 1) ls h1
    | .error e => .error e

/-- The method `feedForward`. -/
def NNet.feedForward (net : NNet) (input : List α) (h : Heap α) : Except Panic (Heap α) :=
  feedForwardFrom input 0 net.Layers h

/-- The copy loop `ret[i] = net.Layers[len(net.Layers)-1][i].Out`. -/
def copyOut (h : Heap α) : List Ptr → Except Panic (List α)
  | [] => .ok []
  | p :: ps =>
    match deref h p with
    | .ok n =>
      match copyOut h ps with
      | .ok rest => .ok (n.Out :: rest)
      | .error e => .error e
    | .error e => .error e

/-- The method `ComputeOutput`: the heap after the call and the pair
`(ret, err)` as `.ok ret` or `.error err`. -/
def NNet.ComputeOutput (net : NNet) (input : List α) (h : Heap α) :
    Except Panic (Heap α × Except SizeError (List α)) := do
  let l0 ← index net.Layers 0
  if l0.length ≠ input.length then
    pure (h, .error ⟨l0.length, input.length⟩)
  else
    let h1 ← net.feedForward input h
    let last ← index net.Layers (net.Layers.length - 1)
    let ret ← copyOut h1 last
    pure (h1, .ok ret)

/-! ## Attaching an activation function (gannet.go, `SetActivation`) -/

/-- A loop `for j ... { neuron := layer[j]; neuron.<field> = ... }` over one
layer, `g` being the assignment made to the neuron. -/
def forNeurons (g : Neuron α → Neuron α) : List Ptr → Heap α → Except Panic (Heap α)
  | [], h => .ok h
  | p :: ps, h =>
    match deref h p with
    | .ok n => forNeurons g ps (store h p (g n))
    | .error e => .error e

/-- The same loop nested in the loop `for i ...` over the layers. -/
def forLayers (g : Neuron α → Neuron α) : List (List Ptr) → Heap α → Except Panic (Heap α)
  | [], h => .ok h
  | l :: ls, h =>
    match forNeurons g l h with
    | .ok h1 => forLayers g ls h1
    | .error e => .error e

/-- The method `SetActivation`: `net.Layers[i][j].Activation = fun` for all `i`, `j`. -/
def NNet.SetActivation (net : NNet) (fn : Option (ActivationFunc α)) (h : Heap α) :
    Except Panic (Heap α) :=
  forLayers (fun n => { n with Activation := fn }) net.Layers h

/-! ## Construction (neuron.go, `NewNeuron`; gannet.go, `NewNNet`) -/

/-- The function `NewNeuron`: `reflect.TypeOf(fun).Name()` panics on a nil `fun`. -/
def NewNeuron (b : α) (fn : Option (ActivationFunc α)) : Except Panic (Neuron α) :=
  match fn with
  | some f =>
    .ok { Bias := b, In := 0, Out := 0, Error := 0, ActivationName := f.TypeName,
          Activation := some f, Weights := [], Inputs := [], DeltaW := [],
          LearningRate := 0, Momentum := 0.9 }
  | none => .error .nilDereference

/-- The values `Weights[k] = r.Float64()` for `k < n`, the random source `rnd`
having given `c` values before. -/
def drawWeights (rnd : Nat → α) (c n : Nat) : List α :=
  (List.range n).map (fun k => rnd (c + k))

/-- The body of the `j` loop of `NewNNet` in layer `i`, `prev` being the
finished layer `i - 1`: the new neuron is allocated at the end of the heap.
The state is the heap and the number of random values drawn so far. -/
def newNNetNeuron (fn : Option (ActivationFunc α)) (rnd : Nat → α) (i : Nat) (prev : List Ptr)
    (st : Heap α × Nat) : Except Panic ((Heap α × Nat) × Ptr) :=
  match NewNeuron 1 fn with
  | .ok neuron =>
    if 0 < i then
      .ok ((st.1 ++ [{ neuron with
              Weights := drawWeights rnd st.2 prev.length,
              Inputs := prev,
              DeltaW := List.replicate prev.length 0 }], st.2 + prev.length),
           some st.1.length)
    else
      .ok ((st.1 ++ [{ neuron with Weights := [1], DeltaW := [0] }], st.2), some st.1.length)
  | .error e => .error e

/-- The `j` loop of `NewNNet` for a layer of `count` neurons: the pointers
stored in `net.Layers[i]`. -/
def newNNetLayer (fn : Option (ActivationFunc α)) (rnd : Nat → α) (i : Nat) (prev : List Ptr) :
    Nat → Heap α × Nat → Except Panic ((Heap α × Nat) × List Ptr)
  | 0, st => .ok (st, [])
  | count + 1, st =>
    match newNNetNeuron fn rnd i prev st with
    | .ok r =>
      match newNNetLayer fn rnd i prev count r.1 with
      | .ok q => .ok (q.1, r.2 :: q.2)
      | .error e => .error e
    | .error e => .error e

/-- The second `i` loop of `NewNNet` from layer `i` on, over the sizes of the
layers still to fill. -/
def newNNetFrom (fn : Option (ActivationFunc α)) (rnd : Nat → α) :
    Nat → List Ptr → List Nat → Heap α × Nat → Except Panic ((Heap α × Nat) × List (List Ptr))
  | _, _, [], st => .ok (st, [])
  | i, prev, size :: sizes, st =>
    match newNNetLayer fn rnd i prev size st with
    | .ok r =>
      match newNNetFrom fn rnd (i + 1) r.2 sizes r.1 with
      | .ok q => .ok (q.1, r.2 :: q.2)
      | .error e => .error e
    | .error e => .error e

/-- The function `NewNNet`: the first loop allocates the layers and panics on
a negative size; the second fills them.  `rnd` is the sequence of values of
`r.Float64()`. -/
def NewNNet (layers : List Int) (fn : Option (ActivationFunc α)) (rnd : Nat → α) (h : Heap α) :
    Except Panic (Heap α × NNet) :=
  if layers.any (fun size => decide (size < 0)) then .error .makeNegativeLen
  else
    match newNNetFrom fn rnd 0 [] (layers.map Int.toNat) (h, 0) with
    | .ok r => .ok (r.1.1, { Layers := r.2 })
    | .error e => .error e

/-- The neuron `NewNNet` leaves in the input layer. -/
def freshInput (f : ActivationFunc α) : Neuron α :=
  { Bias := 1, In := 0, Out := 0, Error := 0, ActivationName := f.TypeName,
    Activation := some f, Weights := [1], Inputs := [], DeltaW := [0],
    LearningRate := 0, Momentum := 0.9 }

/-- The neuron `NewNNet` leaves in a later layer, `prev` being the layer
before and `c` the number of random values drawn before. -/
def freshLater (f : ActivationFunc α) (rnd : Nat → α) (c : Nat) (prev : List Ptr) : Neuron α :=
  { Bias := 1, In := 0, Out := 0, Error := 0, ActivationName := f.TypeName,
    Activation := some f, Weights := drawWeights rnd c prev.length, Inputs := prev,
    DeltaW := List.replicate prev.length 0, LearningRate := 0, Momentum := 0.9 }

/-- The neuron `n` is as `NewNNet` leaves a neuron of layer `i`. -/
def isFresh (f : ActivationFunc α) (rnd : Nat → α) (i : Nat) (prev : List Ptr) (n : Neuron α) :
    Prop :=
  if i = 0 then n = freshInput f else ∃ c, n = freshLater f rnd c prev

/-- Every neuron of the layers `ls`, the first of which is layer `i` and
follows `prev`, is as `NewNNet` leaves it. -/
def freshFrom (f : ActivationFunc α) (rnd : Nat → α) (h : Heap α) :
    Nat → List Ptr → List (List Ptr) → Prop
  | _, _, [] => True
  | i, prev, l :: ls =>
    (∀ p ∈ l, ∃ n, deref h p = .ok n ∧ isFresh f rnd i prev n) ∧ freshFrom f rnd h (i + 1) l ls

/-! ## Persistence (gannet.go, `Save`, `NNetLoad`) -/

/-- The fields of a neuron that `encoding/json` writes and reads: the
exported fields without the tag `json:"-"`. -/
structure NeuronRecord (α : Type) where
  Bias : α
  ActivationName : String
  Weights : List α
  DeltaW : List α
  LearningRate : α
  Momentum : α

/-- The JSON value of a network: the array `Layers` of arrays of neuron
objects, `none` being the JSON `null` of a nil pointer. -/
abbrev NetRecord (α : Type) := List (List (Option (NeuronRecord α)))

/-- The JSON object `json.Marshal` writes for a neuron. -/
def Neuron.toRecord (n : Neuron α) : NeuronRecord α :=
  { Bias := n.Bias, ActivationName := n.ActivationName, Weights := n.Weights,
    DeltaW := n.DeltaW, LearningRate := n.LearningRate, Momentum := n.Momentum }

/-- The neuron `json.Unmarshal` allocates for a neuron object: the fields it
does not read keep their zero value. -/
def NeuronRecord.toNeuron (r : NeuronRecord α) : Neuron α :=
  { Bias := r.Bias, In := 0, Out := 0, Error := 0, ActivationName := r.ActivationName,
    Activation := none, Weights := r.Weights, Inputs := [], DeltaW := r.DeltaW,
    LearningRate := r.LearningRate, Momentum := r.Momentum }

/-- The part of `json.Marshal(net)` for one layer. -/
def marshalLayer (h : Heap α) : List Ptr → Except Panic (List (Option (NeuronRecord α)))
  | [] => .ok []
  | none :: ps =>
    match marshalLayer h ps with
    | .ok rs => .ok (none :: rs)
    | .error e => .error e
  | some a :: ps =>
    match deref h (some a) with
    | .ok n =>
      match marshalLayer h ps with
      | .ok rs => .ok (some n.toRecord :: rs)
      | .error e => .error e
    | .error e => .error e

/-- The value `json.Marshal(net)` encodes. -/
def marshal (h : Heap α) : List (List Ptr) → Except Panic (NetRecord α)
  | [] => .ok []
  | l :: ls =>
    match marshalLayer h l with
    | .ok rs =>
      match marshal h ls with
      | .ok rss => .ok (rs :: rss)
      | .error e => .error e
    | .error e => .error e

/-- The method `Save`, as the content it writes to the file when the file
can be created and written. -/
def NNet.Save (net : NNet) (h : Heap α) : Except Panic (NetRecord α) :=
  marshal h net.Layers

/-- The part of `json.Unmarshal` for one layer: a fresh neuron per object. -/
def unmarshalLayer : List (Option (NeuronRecord α)) → Heap α → Heap α × List Ptr
  | [], h => (h, [])
  | none :: rs, h =>
    let r := unmarshalLayer rs h
    (r.1, none :: r.2)
  | some rec :: rs, h =>
    let r := unmarshalLayer rs (h ++ [rec.toNeuron])
    (r.1, some h.length :: r.2)

/-- The call `json.Unmarshal(json_net, &new_net)` on a document that parses. -/
def unmarshal : NetRecord α → Heap α → Heap α × List (List Ptr)
  | [], h => (h, [])
  | rs :: rss, h =>
    let r := unmarshalLayer rs h
    let q := unmarshal rss r.1
    (q.1, r.2 :: q.2)

/-- The relinking loop of `NNetLoad` from layer `i` on, `prev` being layer
`i - 1`: the `k` loop copies `prev` into the fresh slice `Inputs`. -/
def relinkFrom : List Ptr → List (List Ptr) → Heap α → Except Panic (Heap α)
  | _, [], h => .ok h
  | prev, l :: ls, h =>
    match forNeurons (fun n => { n with Inputs := prev }) l h with
    | .ok h1 => relinkFrom l ls h1
    | .error e => .error e

/-- The relinking loop `for i = 1; i < len(new_net.Layers); i++`. -/
def relink : List (List Ptr) → Heap α → Except Panic (Heap α)
  | [], h => .ok h
  | l0 :: ls, h => relinkFrom l0 ls h

/-- Modelled from the spec: the method `setSegments`, called by `NNetLoad`, is
not in the source.  The spec describes loading as deserialisation followed by
relinking and nothing else, so the call leaves the neurons as they are. -/
def NNet.setSegments (_net : NNet) (h : Heap α) : Heap α := h

/-- The function `NNetLoad` on a file that can be read and parses to `file`:
the heap after the call and the loaded network. -/
def NNetLoad (file : NetRecord α) (h : Heap α) : Except Panic (Heap α × NNet) :=
  let r := unmarshal file h
  match relink r.2 r.1 with
  | .ok h1 => .ok (NNet.setSegments { Layers := r.2 } h1, { Layers := r.2 })
  | .error e => .error e

/-! ## Backpropagation (neuron.go, `update`; gannet.go, the training methods) -/

/-- The statement `neuron.Inputs[k].Error += neuron.Activation.Prime(neuron.Inputs[k].In) *
neuron.Error * neuron.Weights[k]` of `update`. -/
def updateError (p : Ptr) (k : Nat) (h : Heap α) : Except Panic (Heap α) := do
  let n ← deref h p
  let q ← index n.Inputs k
  let m ← deref h q
  let f ← activation n
  let w ← index n.Weights k
  pure (store h q { m with Error := m.Error + f.Prime m.In * n.Error * w })

/-- The statement `neuron.DeltaW[k] = neuron.Error*neuron.Inputs[k].Out +
neuron.Momentum*neuron.DeltaW[k]` of `update`. -/
def updateDeltaW (p : Ptr) (k : Nat) (h : Heap α) : Except Panic (Heap α) := do
  let n ← deref h p
  let q ← index n.Inputs k
  let m ← deref h q
  let d ← index n.DeltaW k
  pure (store h p { n with DeltaW := n.DeltaW.set k (n.Error * m.Out + n.Momentum * d) })

/-- The statement `neuron.Weights[k] += neuron.DeltaW[k]` of `update`. -/
def updateWeight (p : Ptr) (k : Nat) (h : Heap α) : Except Panic (Heap α) := do
  let n ← deref h p
  let w ← index n.Weights k
  let d ← index n.DeltaW k
  pure (store h p { n with Weights := n.Weights.set k (w + d) })

/-- The body of the `k` loop of `update`: its three statements in turn. -/
def updateSynapse (p : Ptr) (k : Nat) (h : Heap α) : Except Panic (Heap α) := do
  let h1 ← updateError p k h
  let h2 ← updateDeltaW p k h1
  updateWeight p k h2

/-- The method `update`: the `k` loop runs to `len(neuron.Weights)`, which no
round changes. -/
def update (p : Ptr) (h : Heap α) : Except Panic (Heap α) :=
  match deref h p with
  | .ok n => forRange (updateSynapse p) 0 n.Weights.length h
  | .error e => .error e

/-- The method `zeroErrors`. -/
def NNet.zeroErrors (net : NNet) (h : Heap α) : Except Panic (Heap α) :=
  forLayers (fun n => { n with Error := 0 }) net.Layers h

/-- The loop of `computeOutputLayer` over the output layer from index `j`,
`err_sum` being the sum so far. -/
def computeOutputLoop (label : List α) : Nat → List Ptr → α → Heap α → Except Panic (Heap α × α)
  | _, [], err_sum, h => .ok (h, err_sum)
  | j, p :: ps, err_sum, h => do
    let y ← index label j
    let n ← deref h p
    let err_sum1 := err_sum + (y - n.Out) * (y - n.Out) / 2
    let f ← activation n
    let h1 := store h p { n with Error := f.Prime n.In * (y - n.Out) }
    let h2 ← update p h1
    computeOutputLoop label (j + 1) ps err_sum1 h2

/-- The method `computeOutputLayer`. -/
def NNet.computeOutputLayer (net : NNet) (label : List α) (h : Heap α) :
    Except Panic (Heap α × α) := do
  let layer ← index net.Layers (net.Layers.length - 1)
  computeOutputLoop label 0 layer 0 h

/-- The loop of `propagateErrors` over one layer. -/
def propagateLoop : List Ptr → Heap α → Except Panic (Heap α)
  | [], h => .ok h
  | p :: ps, h =>
    match update p h with
    | .ok h1 => propagateLoop ps h1
    | .error e => .error e

/-- The method `propagateErrors`. -/
def NNet.propagateErrors (net : NNet) (layer_num : Nat) (h : Heap α) : Except Panic (Heap α) := do
  let layer ← index net.Layers layer_num
  propagateLoop layer h

/-- The loop `for i = len(net.Layers) - 1; i >= 0; i--` of `trainIteration`:
`count` rounds remain and the round in hand has `i = count - 1`. -/
def backwardLoop (net : NNet) (label : List α) : Nat → α → Heap α → Except Panic (Heap α × α)
  | 0, output_error, h => .ok (h, output_error)
  | i + 1, output_error, h =>
    if i = net.Layers.length - 1 then do
      let r1 ← net.computeOutputLayer label h
      let r2 ← net.computeOutputLayer label r1.1
      backwardLoop net label i (output_error + r2.2) r2.1
    else do
      let h1 ← net.propagateErrors i h
      backwardLoop net label i output_error h1

/-- The body of the loop of `trainIteration` over the dataset, for one record. -/
def trainExample (net : NNet) (d : Dataset α) (output_error : α) (h : Heap α) :
    Except Panic (Heap α × α) := do
  let h1 ← net.feedForward d.Data h
  let h2 ← net.zeroErrors h1
  backwardLoop net d.Label net.Layers.length output_error h2

/-- The loop of `trainIteration` over the dataset. -/
def trainLoop (net : NNet) : List (Dataset α) → α → Heap α → Except Panic (Heap α × α)
  | [], output_error, h => .ok (h, output_error)
  | d :: ds, output_error, h =>
    match trainExample net d output_error h with
    | .ok r => trainLoop net ds r.2 r.1
    | .error e => .error e

/-- The method `trainIteration`: the heap after the epoch, the returned loss
and the returned error, which is always nil. -/
def NNet.trainIteration (net : NNet) (dataset : List (Dataset α)) (h : Heap α) :
    Except Panic (Heap α × α × Option SizeError) :=
  match trainLoop net dataset 0 h with
  | .ok r => .ok (r.1, r.2 / (dataset.length : α), none)
  | .error e => .error e

/-- What a run of `Train` leaves behind: the heap, the state of the callback,
the log of the callback invocations (argument and answer, oldest first) and
the returned error. -/
structure TrainResult (α σ : Type) where
  heap : Heap α
  cbState : σ
  calls : List (α × Bool)
  err : Option SizeError

/-- The method `Train`.  The callback is a function of its own state `σ` and
its argument; `fuel` bounds the number of rounds of the loop `for keep_going`,
and `none` is a loop that is still running when the fuel is spent. -/
def NNet.Train {σ : Type} (net : NNet) (dataset : List (Dataset α)) (cb : σ → α → Bool × σ) :
    Nat → σ → List (α × Bool) → Heap α → Except Panic (Option (TrainResult α σ))
  | 0, _, _, _ => .ok none
  | fuel + 1, s, calls, h =>
    match net.trainIteration dataset h with
    | .error e => .error e
    | .ok (h1, _, some err) =>
      .ok (some { heap := h1, cbState := s, calls := calls, err := some err })
    | .ok (h1, total_error, none) =>
      let r := cb s total_error
      if r.1 then
        net.Train dataset cb fuel r.2 (calls ++ [(total_error, r.1)]) h1
      else
        .ok (some { heap := h1, cbState := r.2, calls := calls ++ [(total_error, r.1)],
                    err := none })

/-- The first `n` epochs in a row: the heap after them and the losses they
return, oldest first. -/
def runEpochs (net : NNet) (dataset : List (Dataset α)) : Nat → Heap α → Except Panic (Heap α × List α)
  | 0, h => .ok (h, [])
  | n + 1, h =>
    match net.trainIteration dataset h with
    | .ok r =>
      match runEpochs net dataset n r.1 with
      | .ok q => .ok (q.1, r.2.1 :: q.2)
      | .error e => .error e
    | .error e => .error e

/-- The answers of the callback invoked in turn on the arguments `args`, and
its state after the last of them. -/
def cbAnswers {σ : Type} (cb : σ → α → Bool × σ) : σ → List α → List Bool × σ
  | s, [] => ([], s)
  | s, x :: xs => ((cb s x).1 :: (cbAnswers cb (cb s x).2 xs).1, (cbAnswers cb (cb s x).2 xs).2)

/-- Every neuron of the layers `ls`, the first of which follows `prev`, has
as `Inputs` the layer before it. -/
def linkedInputs (h : Heap α) : List Ptr → List (List Ptr) → Prop
  | _, [] => True
  | prev, l :: ls => (∀ p ∈ l, ∃ n, deref h p = .ok n ∧ n.Inputs = prev) ∧ linkedInputs h l ls

/-- The pointer `p` and the JSON value `r` stand for the same neuron: both
are null, or `r` holds the serialized fields of the neuron at `p`. -/
def recordAt (h : Heap α) (p : Ptr) (r : Option (NeuronRecord α)) : Prop :=
  match r with
  | none => p = none
  | some rec => ∃ a n, p = some a ∧ deref h p = .ok n ∧ n.toRecord = rec

/-- All fields but `Inputs`. -/
def Neuron.unlinked (n : Neuron α) : Neuron α := { n with Inputs := [] }

/-- All fields but `Activation`. -/
def Neuron.detached (n : Neuron α) : Neuron α := { n with Activation := none }

/-- Every neuron of a layer `i > 0` has as `Inputs` the layer `i - 1`. -/
def linkedLayers (h : Heap α) : List (List Ptr) → Prop
  | [] => True
  | l0 :: ls => linkedInputs h l0 ls

/-- The neurons at `p1` in `h1` and at `p` in `h` have the same serialized
fields and both have the activation function `f` attached. -/
def Twin (f : ActivationFunc α) (h1 h : Heap α) (p1 p : Ptr) : Prop :=
  ∃ n1 n, deref h1 p1 = .ok n1 ∧ deref h p = .ok n ∧ n1.toRecord = n.toRecord ∧
    n1.Activation = some f ∧ n.Activation = some f

/-! ## The sigmoid (activation.go) -/

/-- The method `Sigmoid.Activate`, `exp` being `math.Exp`. -/
def Sigmoid.Activate (exp : α → α) (x : α) : α :=
  1 / (1 + exp (-x))

/-- The method `Sigmoid.Prime`. -/
def Sigmoid.Prime (exp : α → α) (x : α) : α :=
  let fx := Sigmoid.Activate exp x
  fx * (1 - fx)

/-- The type `Sigmoid` as an `ActivationFunc`.  Its methods have pointer
receivers, so the interface value is a `*Sigmoid`, and `reflect.TypeOf(fun).Name()`
is the empty string for a pointer type. -/
def Sigmoid (exp : α → α) : ActivationFunc α :=
  { Activate := Sigmoid.Activate exp, Prime := Sigmoid.Prime exp, TypeName := "" }

/-! ## The forward recurrence, stated on the parameters of a network -/

/-- What the forward phase reads of a neuron and never writes. -/
structure Param (α : Type) where
  Bias : α
  Weights : List α
  Activate : α → α

/-- The parameters of the neuron at `p`. -/
def paramAt (h : Heap α) (p : Ptr) : Param α :=
  match deref h p with
  | .ok n =>
    { Bias := n.Bias, Weights := n.Weights,
      Activate := match n.Activation with
        | some f => f.Activate
        | none => id }
  | .error _ => { Bias := 0, Weights := [], Activate := id }

/-- The parameters of a network, layer by layer. -/
def NNet.params (net : NNet) (h : Heap α) : List (List (Param α)) :=
  net.Layers.map (fun l => l.map (paramAt h))

/-- The field `Out` of the neuron at `p`. -/
def outAt (h : Heap α) (p : Ptr) : α :=
  match deref h p with
  | .ok n => n.Out
  | .error _ => 0

/-- Input layer of the recurrence: `In_j = -Bias_j + Weights_j[0] * input[j]`,
`Out_j = Activate(In_j)`. -/
def inputLayerOut (input : List α) (l : List (Param α)) : List α :=
  List.zipWith (fun q x => q.Activate (-q.Bias + q.Weights.headD 0 * x)) l input

/-- A later layer of the recurrence: `In = -Bias + Σ_k Weights[k] * prev[k]`,
`Out = Activate(In)`, where `prev` lists the `Out` of the previous layer. -/
def laterLayerOut (prev : List α) (l : List (Param α)) : List α :=
  l.map (fun q => q.Activate (-q.Bias + (List.zipWith (fun w o => w * o) q.Weights prev).sum))

/-- The layer-by-layer recurrence: the `Out` values of the last layer. -/
def forwardSpec (input : List α) : List (List (Param α)) → List α
  | [] => []
  | l0 :: ls => ls.foldl laterLayerOut (inputLayerOut input l0)

/-! ## The mean loss of an epoch, stated on the outputs of the forward passes -/

/-- The `Out` values of the output layer in the heap `h`. -/
def NNet.outputOuts (net : NNet) (h : Heap α) : List α :=
  (net.Layers.getLastD []).map (outAt h)

/-- The loss of one example: the sum over the output neurons `j` of
`(label[j] - outs[j])^2 / 2`. -/
def exampleLoss (label outs : List α) : α :=
  (List.zipWith (fun y o => (y - o) ^ 2 / 2) label outs).sum

/-- The heaps right after the forward pass on each record of the dataset, in
dataset order, in an epoch started in the heap `h`. -/
def forwardHeaps (net : NNet) : List (Dataset α) → Heap α → Except Panic (List (Heap α))
  | [], _ => .ok []
  | d :: ds, h =>
    match net.feedForward d.Data h with
    | .ok h1 =>
      match trainExample net d 0 h with
      | .ok r =>
        match forwardHeaps net ds r.1 with
        | .ok hs => .ok (h1 :: hs)
        | .error e => .error e
      | .error e => .error e
    | .error e => .error e

/-- The mean loss of an epoch: `1 / len(dataset)` times the sum over the
examples, in dataset order, of the loss of the example on the outputs of its
forward pass, `hs` being the heaps after the forward passes. -/
def meanLoss (net : NNet) (dataset : List (Dataset α)) (hs : List (Heap α)) : α :=
  (1 / (dataset.length : α)) *
    (List.zipWith (fun d hd => exampleLoss d.Label (net.outputOuts hd)) dataset hs).sum

/-! ## Well-formed networks -/

/-- The pointer `p` is a live neuron with an activation function attached. -/
def attached (h : Heap α) (p : Ptr) : Bool :=
  match deref h p with
  | .ok n => n.Activation.isSome
  | .error _ => false

/-- The pointer `p` is a live neuron with at least one weight. -/
def hasWeight (h : Heap α) (p : Ptr) : Bool :=
  match deref h p with
  | .ok n => decide (0 < n.Weights.length)
  | .error _ => false

/-- The neuron at `p` has one predecessor link and one weight per neuron of
the layer `prev`, link `k` being neuron `k` of `prev`. -/
def linked (h : Heap α) (prev : List Ptr) (p : Ptr) : Bool :=
  match deref h p with
  | .ok n => decide (n.Inputs = prev) && decide (n.Weights.length = prev.length)
  | .error _ => false

/-- Every layer of `ls` is linked to the layer before it, the first to `prev`. -/
def linkedFrom (h : Heap α) : List Ptr → List (List Ptr) → Bool
  | _, [] => true
  | prev, l :: ls => l.all (linked h prev) && linkedFrom h l ls

/-- The input layer has its weight and the later layers are linked. -/
def layersLinked (h : Heap α) : List (List Ptr) → Bool
  | [] => true
  | l0 :: ls => l0.all (hasWeight h) && linkedFrom h l0 ls

/-- A well-formed network: its neurons are pairwise distinct live objects with
an activation function attached, every input neuron has a weight, and every
non-input neuron has one weight and one predecessor link per neuron of the
previous layer. -/
def WellFormed (h : Heap α) (net : NNet) : Prop :=
  net.Layers.flatten.Nodup ∧ net.Layers.flatten.all (attached h) = true ∧
    layersLinked h net.Layers = true

instance (h : Heap α) (net : NNet) : Decidable (WellFormed h net) := by
  unfold WellFormed; infer_instance

/-- The fields the forward phase leaves alone. -/
def Neuron.frozen (n : Neuron α) : Neuron α := { n with In := 0, Out := 0 }

/-- The `In` of a neuron of a later layer after the forward phase. -/
def laterIn (h : Heap α) (n : Neuron α) : α :=
  -n.Bias + (List.zipWith (fun w o => w * o) n.Weights (n.Inputs.map (outAt h))).sum

/-- The entries `p` of one network and `p1` of another agree on what is
persisted: both are nil, or both are neurons with the same `Bias`, `Weights`,
`DeltaW`, `LearningRate`, `Momentum` and `ActivationName`. -/
def sameRecord (h h1 : Heap α) (p p1 : Ptr) : Prop :=
  match p, p1 with
  | none, none => True
  | some a, some b =>
    ∃ n n1, h[a]? = some n ∧ h1[b]? = some n1 ∧ n.Bias = n1.Bias ∧ n.Weights = n1.Weights ∧
      n.DeltaW = n1.DeltaW ∧ n.LearningRate = n1.LearningRate ∧ n.Momentum = n1.Momentum ∧
      n.ActivationName = n1.ActivationName
  | _, _ => False

/-- A view `f` of a neuron that no assignment of the forward or the backward
pass changes: it ignores `In`, `Out`, `Error` and the values (not the
lengths) of `DeltaW` and `Weights`. -/
structure Stable {β : Type} (f : Neuron α → β) : Prop where
  setIn : ∀ (n : Neuron α) (x : α), f { n with In := x } = f n
  setOut : ∀ (n : Neuron α) (x : α), f { n with Out := x } = f n
  setError : ∀ (n : Neuron α) (x : α), f { n with Error := x } = f n
  setDeltaW : ∀ (n : Neuron α) (k : Nat) (x : α), f { n with DeltaW := n.DeltaW.set k x } = f n
  setWeights : ∀ (n : Neuron α) (k : Nat) (x : α), f { n with Weights := n.Weights.set k x } = f n

/-- The lengths of the three slices of a neuron. -/
def Neuron.shape (n : Neuron α) : Nat × Nat × Nat :=
  (n.Weights.length, n.DeltaW.length, n.Inputs.length)

/-- What training never changes of a neuron: all fields but `In`, `Out`,
`Error`, and of `Weights` and `DeltaW` the lengths only. -/
def Neuron.rigid (n : Neuron α) : Neuron α :=
  { n with In := 0, Out := 0, Error := 0, Weights := List.replicate n.Weights.length 0, DeltaW := List.replicate n.DeltaW.length 0 }

/-- The neuron at `p` has one weight, one delta-weight and one predecessor
link per neuron of the layer `prev`. -/
def shaped (h : Heap α) (prev : List Ptr) (p : Ptr) : Bool :=
  match deref h p with
  | .ok n =>
    decide (n.Weights.length = prev.length) && decide (n.DeltaW.length = prev.length) &&
      decide (n.Inputs.length = prev.length)
  | .error _ => false

/-- Every layer of `ls` is shaped on the layer before it, the first on `prev`. -/
def shapedFrom (h : Heap α) : List Ptr → List (List Ptr) → Bool
  | _, [] => true
  | prev, l :: ls => l.all (shaped h prev) && shapedFrom h l ls

/-- The shape invariant on the layers of a network. -/
def shapeOK (h : Heap α) : List (List Ptr) → Bool
  | [] => true
  | l0 :: ls => shapedFrom h l0 ls

/-- The shape invariant: for every neuron in a layer `i > 0`,
`len(Weights) = len(DeltaW) = len(Inputs) = ` size of layer `i - 1`. -/
def Shape (h : Heap α) (net : NNet) : Prop :=
  shapeOK h net.Layers = true

instance (h : Heap α) (net : NNet) : Decidable (Shape h net) := by
  unfold Shape; infer_instance

/-! ## The postcondition of `update` -/

/-- The neuron `m` after `m.Error += f.Prime(m.In) * e * w`. -/
def bumpedBy (f : ActivationFunc α) (e w : α) (m : Neuron α) : Neuron α :=
  { m with Error := m.Error + f.Prime m.In * e * w }

/-- The slice `DeltaW` of `n` once the rounds `k >= s` of `update` have run:
`DeltaW[k] = n.Error * Inputs[k].Out + n.Momentum * DeltaW[k]`. -/
def deltaFrom (h : Heap α) (n : Neuron α) (s : Nat) : List α :=
  n.DeltaW.take s ++
    List.zipWith (fun q d => n.Error * outAt h q + n.Momentum * d) (n.Inputs.drop s) (n.DeltaW.drop s)

/-- The slice `Weights` of `n` once the rounds `k >= s` of `update` have run:
`Weights[k] = Weights[k] + (new DeltaW[k])`. -/
def weightsFrom (h : Heap α) (n : Neuron α) (s : Nat) : List α :=
  n.Weights.take s ++
    List.zipWith (fun w d => w + d) (n.Weights.drop s)
      (List.zipWith (fun q d => n.Error * outAt h q + n.Momentum * d) (n.Inputs.drop s) (n.DeltaW.drop s))

/-- The neuron `n` after its own `update`, run in the heap `h`. -/
def updatedNeuron (h : Heap α) (n : Neuron α) : Neuron α :=
  { n with DeltaW := deltaFrom h n 0, Weights := weightsFrom h n 0 }

/-! ## One backward step over a layer -/

/-- The layer `l` is ready for a backward step over the layer `prev` before
it: the neurons of both layers are pairwise distinct live objects, and every
neuron of `l` has an activation function attached, the neurons of `prev` as
its predecessors, and one weight and one delta-weight per predecessor. -/
def LayerReady (h : Heap α) (prev l : List Ptr) : Prop :=
  prev.Nodup ∧ l.Nodup ∧ (∀ p ∈ l, p ∉ prev) ∧ (∀ q ∈ prev, ∃ m, deref h q = .ok m) ∧
    ∀ p ∈ l, ∃ n, deref h p = .ok n ∧ n.Activation.isSome = true ∧ n.Inputs = prev ∧
      n.Weights.length = prev.length ∧ n.DeltaW.length = prev.length

/-- The field `Error` of the neuron at `p`. -/
def errorAt (h : Heap α) (p : Ptr) : α :=
  match deref h p with
  | .ok n => n.Error
  | .error _ => 0

/-- The weight `k` of the neuron at `p`. -/
def weightAt (h : Heap α) (p : Ptr) (k : Nat) : α :=
  match deref h p with
  | .ok n => n.Weights.getD k 0
  | .error _ => 0

/-- The sum over the neurons `j` of the layer `l` of `Error_j * w_jk`. -/
def backSum (h : Heap α) (l : List Ptr) (k : Nat) : α :=
  (l.map (fun p => errorAt h p * weightAt h p k)).sum

/-! ## The stored learning rate -/

/-- The neuron `n` with its `LearningRate` blanked. -/
def Neuron.noLR (n : Neuron α) : Neuron α := { n with LearningRate := 0 }

/-- The heap `h` with every `LearningRate` blanked. -/
def eraseLR (h : Heap α) : Heap α := h.map Neuron.noLR

/-- Two runs of an operation end alike: both panic, with the same panic, or
both return, with the same returned value and with heaps that agree on every
field of every neuron but `LearningRate`. -/
def sameOutcome {β : Type} (x y : Except Panic (Heap α × β)) : Prop :=
  match x, y with
  | .ok a, .ok b => a.2 = b.2 ∧ eraseLR a.1 = eraseLR b.1
  | .error e, .error e1 => e = e1
  | _, _ => False

/-- A run that returns leaves every `LearningRate` of the heap `h` it started
in as it was. -/
def keepsLR {β : Type} (h : Heap α) (x : Except Panic (Heap α × β)) : Prop :=
  match x with
  | .ok a => a.1.map Neuron.LearningRate = h.map Neuron.LearningRate
  | .error _ => True

/-- The result of an operation that returns only a heap, paired with `()`. -/
def withUnit (x : Except Panic (Heap α)) : Except Panic (Heap α × Unit) :=
  match x with
  | .ok s => .ok (s, ())
  | .error e => .error e

/-! ## A small concrete network, used to instantiate the theorems -/

/-- The identity as an activation function. -/
def linearAct : ActivationFunc ℚ := { Activate := fun x => x, Prime := fun _ => 1, TypeName := "Linear" }

/-- A heap with a 1-2 network in cells 0, 1, 2. -/
def exHeap : Heap ℚ :=
  [ { Bias := 1, In := 0, Out := 0, Error := 0, ActivationName := "Linear",
      Activation := some linearAct, Weights := [1], Inputs := [], DeltaW := [0],
      LearningRate := 0, Momentum := 9 / 10 },
    { Bias := 1, In := 0, Out := 0, Error := 0, ActivationName := "Linear",
      Activation := some linearAct, Weights := [1 / 2], Inputs := [some 0], DeltaW := [0],
      LearningRate := 0, Momentum := 9 / 10 },
    { Bias := 1, In := 0, Out := 0, Error := 0, ActivationName := "Linear",
      Activation := some linearAct, Weights := [1 / 3], Inputs := [some 0], DeltaW := [0],
      LearningRate := 0, Momentum := 9 / 10 } ]

/-- The heap `exHeap` with other values in `In`, `Out`, `Error` and `DeltaW`. -/
def exHeapUsed : Heap ℚ :=
  [ { Bias := 1, In := 3, Out := 4, Error := 5, ActivationName := "Linear",
      Activation := some linearAct, Weights := [1], Inputs := [], DeltaW := [7],
      LearningRate := 0, Momentum := 9 / 10 },
    { Bias := 1, In := 1, Out := 2, Error := 1, ActivationName := "Linear",
      Activation := some linearAct, Weights := [1 / 2], Inputs := [some 0], DeltaW := [1 / 5],
      LearningRate := 0, Momentum := 9 / 10 },
    { Bias := 1, In := 6, Out := 6, Error := 6, ActivationName := "Linear",
      Activation := some linearAct, Weights := [1 / 3], Inputs := [some 0], DeltaW := [2],
      LearningRate := 0, Momentum := 9 / 10 } ]

/-- The 1-2 network of `exHeap`. -/
def exNet : NNet := { Layers := [[some 0], [some 1, some 2]] }

/-- A heap with the network of layer sizes 0 and 1 in cell 0. -/
def exHeap0 : Heap ℚ :=
  [ { Bias := 1, In := 0, Out := 0, Error := 0, ActivationName := "Linear",
      Activation := some linearAct, Weights := [], Inputs := [], DeltaW := [],
      LearningRate := 0, Momentum := 9 / 10 } ]

/-- The network of layer sizes 0 and 1. -/
def exNet0 : NNet := { Layers := [[], [some 0]] }

/-- A dataset of one record for `exNet0`. -/
def exData0 : List (Dataset ℚ) := [{ Data := [], Label := [1] }]

/-- A callback that counts its invocations and stops at the second. -/
def exCallback (s : Nat) (_loss : ℚ) : Bool × Nat := (decide (s + 1 < 2), s + 1)

/-- The result of a run that does not panic. -/
def okValue {β : Type} (d : β) : Except Panic β → β
  | .ok b => b
  | .error _ => d

/-- The panic of a run, if it panics. -/
def panicOf {β : Type} : Except Panic β → Option Panic
  | .ok _ => none
  | .error e => some e

/-- A rational stand-in for `math.Exp`: no branch of the program depends on
the values of the activation function. -/
def expQ (x : ℚ) : ℚ := 1 + x + x * x / 2

/-- The two tests `TestNewNNet_181` and `TestTrain_181` in a row: `NewNNet`
on an empty heap, then `Train` on the network it returns. -/
def newAndTrain {σ : Type} (layers : List Int) (fn : Option (ActivationFunc α)) (rnd : Nat → α)
    (dataset : List (Dataset α)) (cb : σ → α → Bool × σ) (fuel : Nat) (s : σ) :
    Except Panic (Option (TrainResult α σ)) :=
  match NewNNet layers fn rnd [] with
  | .ok r => r.2.Train dataset cb fuel s [] r.1
  | .error e => .error e

/-- A neuron object of a JSON document. -/
def exRecord : NeuronRecord ℚ :=
  { Bias := 1, ActivationName := "Sigmoid", Weights := [1 / 2], DeltaW := [0],
    LearningRate := 0, Momentum := 9 / 10 }

/-- A JSON document of two layers of one neuron object each. -/
def exFile : NetRecord ℚ := [[some exRecord], [some exRecord]]

/-- A JSON document whose second layer holds `null` for a neuron. -/
def exFileNull : NetRecord ℚ := [[some exRecord], [none]]

/-- A heap whose neurons have the persisted fields of `exHeap`, in other
cells, with other values of `In`, `Out`, `Error`, `Inputs` and `Activation`. -/
def exHeapOther : Heap ℚ :=
  [ { Bias := 1, In := 6, Out := 6, Error := 6, ActivationName := "Linear",
      Activation := none, Weights := [1 / 3], Inputs := [none], DeltaW := [0],
      LearningRate := 0, Momentum := 9 / 10 },
    { Bias := 1, In := 1, Out := 2, Error := 1, ActivationName := "Linear",
      Activation := none, Weights := [1 / 2], Inputs := [], DeltaW := [0],
      LearningRate := 0, Momentum := 9 / 10 },
    { Bias := 1, In := 3, Out := 4, Error := 5, ActivationName := "Linear",
      Activation := some (Sigmoid expQ), Weights := [1], Inputs := [some 1, some 2],
      DeltaW := [0], LearningRate := 0, Momentum := 9 / 10 } ]

/-- The 1-2 network of `exHeapOther`. -/
def exNetOther : NNet := { Layers := [[some 2], [some 1, some 0]] }

/-- A heap with one neuron that is its own predecessor. -/
def exHeapLoop : Heap ℚ :=
  [ { Bias := 1, In := 0, Out := 0, Error := 1, ActivationName := "Linear",
      Activation := some linearAct, Weights := [1], Inputs := [some 0], DeltaW := [0],
      LearningRate := 0, Momentum := 9 / 10 } ]

/-- The heap `exHeap` after the forward pass on the input `[2]` and
`zeroErrors`. -/
def exHeapForward : Heap ℚ :=
  okValue [] (exNet.zeroErrors (okValue [] (exNet.feedForward [2] exHeap)))

/-- The heap `exHeapForward` after one `computeOutputLayer` with the label
`[1, 1]`. -/
def exHeapOnce : Heap ℚ := (okValue ([], 0) (exNet.computeOutputLayer [1, 1] exHeapForward)).1

/-- The heap `exHeapForward` after two `computeOutputLayer` in a row with the
label `[1, 1]`. -/
def exHeapTwice : Heap ℚ := (okValue ([], 0) (exNet.computeOutputLayer [1, 1] exHeapOnce)).1

/-- The heap `exHeap` with the errors 2 and 3 on the two output neurons. -/
def exHeapBack : Heap ℚ :=
  [ { Bias := 1, In := 1, Out := 1, Error := 0, ActivationName := "Linear",
      Activation := some linearAct, Weights := [1], Inputs := [], DeltaW := [0],
      LearningRate := 0, Momentum := 9 / 10 },
    { Bias := 1, In := 1, Out := 1, Error := 2, ActivationName := "Linear",
      Activation := some linearAct, Weights := [1 / 2], Inputs := [some 0], DeltaW := [0],
      LearningRate := 0, Momentum := 9 / 10 },
    { Bias := 1, In := 1, Out := 1, Error := 3, ActivationName := "Linear",
      Activation := some linearAct, Weights := [1 / 3], Inputs := [some 0], DeltaW := [0],
      LearningRate := 0, Momentum := 9 / 10 } ]

/-- The heap `exHeap0` with another learning rate. -/
def exHeap0Rate : Heap ℚ :=
  [ { Bias := 1, In := 0, Out := 0, Error := 0, ActivationName := "Linear",
      Activation := some linearAct, Weights := [], Inputs := [], DeltaW := [],
      LearningRate := 7, Momentum := 9 / 10 } ]

/-! ## Theorems -/

set_option linter.unusedSectionVars false

/-! ### Heap access -/

theorem deref_ok_iff {h : Heap α} {p : Ptr} {n : Neuron α} :
    deref h p = .ok n ↔ ∃ a, p = some a ∧ h[a]? = some n := by
  cases p with
  | none => simp [deref]
  | some a =>
    cases hc : h[a]? with
    | none => simp [deref, hc]
    | some m => simp [deref, hc]

theorem deref_store_self {h : Heap α} {p : Ptr} {n n1 : Neuron α}
    (hd : deref h p = .ok n) : deref (store h p n1) p = .ok n1 := by
  obtain ⟨a, rfl, ha⟩ := deref_ok_iff.mp hd
  have hlt : a < h.length := (List.getElem?_eq_some.mp ha).1
  simp [deref, store, List.getElem?_set_self hlt]

theorem deref_store_ne {h : Heap α} {p q : Ptr} (n1 : Neuron α) (hne : q ≠ p) :
    deref (store h p n1) q = deref h q := by
  cases p with
  | none => rfl
  | some a =>
    cases q with
    | none => rfl
    | some b =>
      have hab : a ≠ b := fun e => hne (by rw [e])
      simp [deref, store, List.getElem?_set_ne hab]

theorem store_store {h : Heap α} {p : Ptr} (n1 n2 : Neuron α) :
    store (store h p n1) p n2 = store h p n2 := by
  cases p with
  | none => rfl
  | some a => simp [store]

theorem store_same {h : Heap α} {p : Ptr} {n : Neuron α} (hd : deref h p = .ok n) :
    store h p n = h := by
  obtain ⟨a, rfl, ha⟩ := deref_ok_iff.mp hd
  apply List.ext_getElem?
  intro b
  by_cases hab : a = b
  · subst hab
    have hlt : a < h.length := (List.getElem?_eq_some.mp ha).1
    simp [store, List.getElem?_set_self hlt, ha]
  · simp [store, List.getElem?_set_ne hab]

theorem map_store {β : Type} (f : Neuron α → β) {h : Heap α} {p : Ptr} {n n1 : Neuron α}
    (hd : deref h p = .ok n) (hf : f n1 = f n) : (store h p n1).map f = h.map f := by
  obtain ⟨a, rfl, ha⟩ := deref_ok_iff.mp hd
  apply List.ext_getElem?
  intro b
  by_cases hab : a = b
  · subst hab
    have hlt : a < h.length := (List.getElem?_eq_some.mp ha).1
    have hlt1 : a < (h.set a n1).length := by simpa using hlt
    simp only [store, List.getElem?_map, List.getElem?_set_self hlt, ha, Option.map_some', hf]
  · simp [store, List.getElem?_set_ne hab]

theorem outAt_store_ne {h : Heap α} {p q : Ptr} (n1 : Neuron α) (hne : q ≠ p) :
    outAt (store h p n1) q = outAt h q := by
  simp [outAt, deref_store_ne n1 hne]

/-- What `deref` gives is determined, up to `f`, by the image of the heap under `f`. -/
theorem deref_map_congr {β : Type} (f : Neuron α → β) {h h1 : Heap α}
    (hm : h1.map f = h.map f) (p : Ptr) :
    (∃ n n1, deref h p = .ok n ∧ deref h1 p = .ok n1 ∧ f n1 = f n) ∨
      (∃ e, deref h p = .error e ∧ deref h1 p = .error e) := by
  cases p with
  | none => right; exact ⟨_, rfl, rfl⟩
  | some a =>
    have ha : (h1.map f)[a]? = (h.map f)[a]? := by rw [hm]
    simp only [List.getElem?_map] at ha
    cases hc : h[a]? with
    | none =>
      rw [hc] at ha
      cases hc1 : h1[a]? with
      | none => right; exact ⟨.nilDereference, by simp [deref, hc], by simp [deref, hc1]⟩
      | some m => rw [hc1] at ha; simp at ha
    | some n =>
      rw [hc] at ha
      cases hc1 : h1[a]? with
      | none => rw [hc1] at ha; simp at ha
      | some m =>
        rw [hc1] at ha
        left
        refine ⟨n, m, by simp [deref, hc], by simp [deref, hc1], ?_⟩
        simpa using ha

/-! ### The forward phase on one neuron -/

theorem index_ok_of_lt {β : Type} {xs : List β} {k : Nat} (hk : k < xs.length) :
    index xs k = .ok xs[k] := by
  simp [index, List.getElem?_eq_getElem hk]

/-- The `k` loop of `feedForward` adds the weighted outputs of the predecessors. -/
theorem forRange_synapse {p : Ptr} : ∀ (c s : Nat) (h : Heap α) (n : Neuron α),
    deref h p = .ok n → s + c = n.Weights.length → n.Inputs.length = n.Weights.length →
    (∀ q ∈ n.Inputs, q ≠ p ∧ ∃ m, deref h q = .ok m) →
    forRange (feedForwardSynapse p) s c h =
      .ok (store h p { n with In := n.In +
        (List.zipWith (fun w o => w * o) (n.Weights.drop s)
          ((n.Inputs.drop s).map (outAt h))).sum }) := by
  intro c
  induction c with
  | zero =>
    intro s h n hd hs _ _
    have hs1 : n.Weights.length ≤ s := by omega
    simp [forRange, List.drop_eq_nil_of_le hs1, store_same hd]
  | succ c ih =>
    intro s h n hd hs hlen hin
    have hsW : s < n.Weights.length := by omega
    have hsI : s < n.Inputs.length := by omega
    have hq := hin (n.Inputs[s]) (List.getElem_mem hsI)
    obtain ⟨hqp, m, hm⟩ := hq
    have hbody : feedForwardSynapse p s h =
        .ok (store h p { n with In := n.In + n.Weights[s] * m.Out }) := by
      simp [feedForwardSynapse, bind, Except.bind, hd, index_ok_of_lt hsW, index_ok_of_lt hsI,
        hm, pure, Except.pure]
    have hd1 : deref (store h p { n with In := n.In + n.Weights[s] * m.Out }) p =
        .ok { n with In := n.In + n.Weights[s] * m.Out } := deref_store_self hd
    have hin1 : ∀ q ∈ n.Inputs, q ≠ p ∧
        ∃ m1, deref (store h p { n with In := n.In + n.Weights[s] * m.Out }) q = .ok m1 := by
      intro q hq
      obtain ⟨hne, m1, hm1⟩ := hin q hq
      exact ⟨hne, m1, by rw [deref_store_ne _ hne]; exact hm1⟩
    have hrec := ih (s + 1) _ _ hd1 (by simpa using (by omega : s + 1 + c = n.Weights.length))
      hlen hin1
    simp only [forRange, hbody]
    rw [hrec, store_store]
    have hout : (n.Inputs.drop (s + 1)).map
        (outAt (store h p { n with In := n.In + n.Weights[s] * m.Out })) =
        (n.Inputs.drop (s + 1)).map (outAt h) := by
      apply List.map_congr_left
      intro q hq
      exact outAt_store_ne _ (hin q (List.mem_of_mem_drop hq)).1
    have hms : outAt h n.Inputs[s] = m.Out := by simp [outAt, hm]
    simp only [hout]
    rw [List.drop_eq_getElem_cons hsW, List.drop_eq_getElem_cons hsI]
    simp only [List.map_cons, List.zipWith_cons_cons, List.sum_cons, hms, add_assoc]

theorem feedForwardNeuron_later {input : List α} {i j : Nat} {p : Ptr} {h : Heap α}
    {n : Neuron α} {f : ActivationFunc α} (hi : 0 < i) (hd : deref h p = .ok n)
    (hf : n.Activation = some f) (hlen : n.Inputs.length = n.Weights.length)
    (hin : ∀ q ∈ n.Inputs, q ≠ p ∧ ∃ m, deref h q = .ok m) :
    feedForwardNeuron input i j p h =
      .ok (store h p { n with In := laterIn h n, Out := f.Activate (laterIn h n) }) := by
  have hd1 : deref (store h p { n with In := -n.Bias }) p = .ok { n with In := -n.Bias } :=
    deref_store_self hd
  have hin1 : ∀ q ∈ n.Inputs, q ≠ p ∧
      ∃ m1, deref (store h p { n with In := -n.Bias }) q = .ok m1 := by
    intro q hq
    obtain ⟨hne, m1, hm1⟩ := hin q hq
    exact ⟨hne, m1, by rw [deref_store_ne _ hne]; exact hm1⟩
  have hloop := forRange_synapse (p := p) n.Weights.length 0 _ _ hd1 (by simp) hlen hin1
  have hout : n.Inputs.map (outAt (store h p { n with In := -n.Bias })) =
      n.Inputs.map (outAt h) := by
    apply List.map_congr_left
    intro q hq
    exact outAt_store_ne _ (hin q hq).1
  simp only [List.drop_zero, hout, store_store] at hloop
  simp only [feedForwardNeuron, bind, Except.bind, hd, hi, if_true, hloop]
  rw [deref_store_self hd]
  simp [activation, hf, pure, Except.pure, store_store, laterIn]

theorem feedForwardNeuron_input {input : List α} {j : Nat} {p : Ptr} {h : Heap α}
    {n : Neuron α} {f : ActivationFunc α} (hd : deref h p = .ok n)
    (hf : n.Activation = some f) (hw : 0 < n.Weights.length) (hj : j < input.length) :
    feedForwardNeuron input 0 j p h =
      .ok (store h p { n with In := -n.Bias + n.Weights[0] * input[j],
                              Out := f.Activate (-n.Bias + n.Weights[0] * input[j]) }) := by
  have hd1 : deref (store h p { n with In := -n.Bias }) p = .ok { n with In := -n.Bias } :=
    deref_store_self hd
  simp only [feedForwardNeuron, bind, Except.bind, hd, lt_irrefl, if_false, hd1]
  have hw0 : index n.Weights 0 = .ok n.Weights[0] := index_ok_of_lt hw
  simp only [hw0, index_ok_of_lt hj, pure, Except.pure, store_store]
  rw [deref_store_self hd]
  simp [activation, hf, store_store]

/-! ### Heaps that agree on the frozen fields -/

theorem frozen_fields {n n1 : Neuron α} (hf : n1.frozen = n.frozen) :
    n1.Bias = n.Bias ∧ n1.Weights = n.Weights ∧ n1.Inputs = n.Inputs ∧
      n1.Activation = n.Activation := by
  refine ⟨?_, ?_, ?_, ?_⟩
  · exact (congrArg Neuron.Bias hf : n1.frozen.Bias = n.frozen.Bias)
  · exact (congrArg Neuron.Weights hf : n1.frozen.Weights = n.frozen.Weights)
  · exact (congrArg Neuron.Inputs hf : n1.frozen.Inputs = n.frozen.Inputs)
  · exact (congrArg Neuron.Activation hf : n1.frozen.Activation = n.frozen.Activation)

theorem attached_congr {h h1 : Heap α} (hm : h1.map Neuron.frozen = h.map Neuron.frozen)
    (p : Ptr) : attached h1 p = attached h p := by
  rcases deref_map_congr Neuron.frozen hm p with ⟨n, n1, hn, hn1, hf⟩ | ⟨e, he, he1⟩
  · simp [attached, hn, hn1, (frozen_fields hf).2.2.2]
  · simp [attached, he, he1]

theorem hasWeight_congr {h h1 : Heap α} (hm : h1.map Neuron.frozen = h.map Neuron.frozen)
    (p : Ptr) : hasWeight h1 p = hasWeight h p := by
  rcases deref_map_congr Neuron.frozen hm p with ⟨n, n1, hn, hn1, hf⟩ | ⟨e, he, he1⟩
  · simp [hasWeight, hn, hn1, (frozen_fields hf).2.1]
  · simp [hasWeight, he, he1]

theorem linked_congr {h h1 : Heap α} (hm : h1.map Neuron.frozen = h.map Neuron.frozen)
    (prev : List Ptr) (p : Ptr) : linked h1 prev p = linked h prev p := by
  rcases deref_map_congr Neuron.frozen hm p with ⟨n, n1, hn, hn1, hf⟩ | ⟨e, he, he1⟩
  · simp [linked, hn, hn1, (frozen_fields hf).2.1, (frozen_fields hf).2.2.1]
  · simp [linked, he, he1]

theorem paramAt_congr {h h1 : Heap α} (hm : h1.map Neuron.frozen = h.map Neuron.frozen)
    (p : Ptr) : paramAt h1 p = paramAt h p := by
  rcases deref_map_congr Neuron.frozen hm p with ⟨n, n1, hn, hn1, hf⟩ | ⟨e, he, he1⟩
  · simp [paramAt, hn, hn1, (frozen_fields hf).1, (frozen_fields hf).2.1,
      (frozen_fields hf).2.2.2]
  · simp [paramAt, he, he1]

theorem linkedFrom_congr {h h1 : Heap α} (hm : h1.map Neuron.frozen = h.map Neuron.frozen) :
    ∀ (ls : List (List Ptr)) (prev : List Ptr), linkedFrom h1 prev ls = linkedFrom h prev ls := by
  intro ls
  induction ls with
  | nil => intro prev; rfl
  | cons l ls ih =>
    intro prev
    have hfun : linked h1 prev = linked h prev := funext (linked_congr hm prev)
    simp only [linkedFrom, ih l, hfun]

theorem attached_ok {h : Heap α} {p : Ptr} (ha : attached h p = true) :
    ∃ n f, deref h p = .ok n ∧ n.Activation = some f := by
  unfold attached at ha
  cases hd : deref h p with
  | error e => rw [hd] at ha; simp at ha
  | ok n =>
    rw [hd] at ha
    obtain ⟨f, hf⟩ := Option.isSome_iff_exists.mp ha
    exact ⟨n, f, rfl, hf⟩

theorem linked_ok {h : Heap α} {prev : List Ptr} {p : Ptr} {n : Neuron α}
    (hl : linked h prev p = true) (hd : deref h p = .ok n) :
    n.Inputs = prev ∧ n.Weights.length = prev.length := by
  simpa [linked, hd] using hl

theorem hasWeight_ok {h : Heap α} {p : Ptr} {n : Neuron α}
    (hl : hasWeight h p = true) (hd : deref h p = .ok n) : 0 < n.Weights.length := by
  simpa [hasWeight, hd] using hl

/-! ### The forward phase on one layer -/

theorem outAt_of_deref {h h1 : Heap α} {q : Ptr} (hq : deref h1 q = deref h q) :
    outAt h1 q = outAt h q := by
  simp [outAt, hq]

theorem paramAt_of_deref {h : Heap α} {p : Ptr} {n : Neuron α} {f : ActivationFunc α}
    (hd : deref h p = .ok n) (hf : n.Activation = some f) :
    paramAt h p = { Bias := n.Bias, Weights := n.Weights, Activate := f.Activate } := by
  simp [paramAt, hd, hf]

theorem feedForwardNeuron_later_ex (input : List α) {i : Nat} (j : Nat) {p : Ptr} {h : Heap α}
    {n : Neuron α} {f : ActivationFunc α} (hi : 0 < i) (hd : deref h p = .ok n)
    (hf : n.Activation = some f) (hlen : n.Inputs.length = n.Weights.length)
    (hin : ∀ q ∈ n.Inputs, q ≠ p ∧ ∃ m, deref h q = .ok m) :
    ∃ n1, feedForwardNeuron input i j p h = .ok (store h p n1) ∧
      n1.frozen = n.frozen ∧ n1.Out = f.Activate (laterIn h n) :=
  ⟨_, feedForwardNeuron_later hi hd hf hlen hin, rfl, rfl⟩

theorem feedForwardNeuron_input_ex {input : List α} {j : Nat} {p : Ptr} {h : Heap α}
    {n : Neuron α} {f : ActivationFunc α} (hd : deref h p = .ok n)
    (hf : n.Activation = some f) (hw : 0 < n.Weights.length) (hj : j < input.length) :
    ∃ n1, feedForwardNeuron input 0 j p h = .ok (store h p n1) ∧
      n1.frozen = n.frozen ∧ n1.Out = f.Activate (-n.Bias + n.Weights[0] * input[j]) :=
  ⟨_, feedForwardNeuron_input hd hf hw hj, rfl, rfl⟩

theorem feedForwardLayer_later (input : List α) {i : Nat} (hi : 0 < i) (prev : List Ptr) :
    ∀ (l : List Ptr) (j : Nat) (h : Heap α),
    (∀ p ∈ l, attached h p = true ∧ linked h prev p = true) →
    (∀ q ∈ prev, q ∉ l ∧ ∃ m, deref h q = .ok m) →
    ∃ h1, feedForwardLayer input i j l h = .ok h1 ∧
      h1.map Neuron.frozen = h.map Neuron.frozen ∧
      (∀ q, q ∉ l → deref h1 q = deref h q) ∧
      (∀ p ∈ l, outAt h1 p = (paramAt h p).Activate (-(paramAt h p).Bias +
        (List.zipWith (fun w o => w * o) (paramAt h p).Weights (prev.map (outAt h))).sum)) := by
  intro l
  induction l with
  | nil =>
    intro j h _ _
    exact ⟨h, rfl, rfl, fun _ _ => rfl, fun p hp => absurd hp (List.not_mem_nil p)⟩
  | cons p ps ih =>
    intro j h hl hprev
    obtain ⟨hatt, hlink⟩ := hl p (List.mem_cons_self p ps)
    obtain ⟨n, f, hd, hf⟩ := attached_ok hatt
    obtain ⟨hInputs, hWlen⟩ := linked_ok hlink hd
    have hin : ∀ q ∈ n.Inputs, q ≠ p ∧ ∃ m, deref h q = .ok m := by
      intro q hq
      rw [hInputs] at hq
      obtain ⟨hnot, hm⟩ := hprev q hq
      exact ⟨fun e => hnot (by rw [e]; exact List.mem_cons_self p ps), hm⟩
    obtain ⟨n1, hstep, hn1, hn1out⟩ := feedForwardNeuron_later_ex input j
      hi hd hf (by rw [hInputs, hWlen]) hin
    have hfro : (store h p n1).map Neuron.frozen = h.map Neuron.frozen :=
      map_store Neuron.frozen hd hn1
    have hl1 : ∀ p1 ∈ ps, attached (store h p n1) p1 = true ∧
        linked (store h p n1) prev p1 = true := by
      intro p1 hp1
      rw [attached_congr hfro, linked_congr hfro]
      exact hl p1 (List.mem_cons_of_mem p hp1)
    have hprev1 : ∀ q ∈ prev, q ∉ ps ∧ ∃ m, deref (store h p n1) q = .ok m := by
      intro q hq
      obtain ⟨hnot, m, hm⟩ := hprev q hq
      have hne : q ≠ p := fun e => hnot (by rw [e]; exact List.mem_cons_self p ps)
      exact ⟨fun hmem => hnot (List.mem_cons_of_mem p hmem), m,
        by rw [deref_store_ne _ hne]; exact hm⟩
    obtain ⟨h2, hrun, hfro2, hframe, hout⟩ := ih (j + 1) _ hl1 hprev1
    have hprevOut : prev.map (outAt (store h p n1)) = prev.map (outAt h) := by
      apply List.map_congr_left
      intro q hq
      obtain ⟨hnot, _⟩ := hprev q hq
      exact outAt_store_ne _ (fun e => hnot (by rw [e]; exact List.mem_cons_self p ps))
    refine ⟨h2, ?_, hfro2.trans hfro, ?_, ?_⟩
    · simp only [feedForwardLayer, hstep, hrun]
    · intro q hq
      have hqp : q ≠ p := fun e => hq (by rw [e]; exact List.mem_cons_self p ps)
      have hqps : q ∉ ps := fun hmem => hq (List.mem_cons_of_mem p hmem)
      rw [hframe q hqps, deref_store_ne _ hqp]
    · intro p1 hp1
      by_cases hmem : p1 ∈ ps
      · rw [hout p1 hmem, paramAt_congr hfro, hprevOut]
      · have hp1p : p1 = p := by
          rcases List.mem_cons.mp hp1 with e | e
          · exact e
          · exact absurd e hmem
        subst hp1p
        have hd2 : deref h2 p1 = .ok n1 := by
          rw [hframe p1 hmem]; exact deref_store_self hd
        rw [paramAt_of_deref hd hf]
        simp [outAt, hd2, hn1out, laterIn, hInputs]

theorem headD_eq_getElem {β : Type} {xs : List β} (d : β) (hx : 0 < xs.length) :
    xs.headD d = xs[0] := by
  cases xs with
  | nil => simp at hx
  | cons x xs => rfl

theorem inputLayerOut_cons {input : List α} {j : Nat} (hj : j < input.length)
    (q : Param α) (qs : List (Param α)) :
    inputLayerOut (input.drop j) (q :: qs) =
      q.Activate (-q.Bias + q.Weights.headD 0 * input[j]) ::
        inputLayerOut (input.drop (j + 1)) qs := by
  rw [List.drop_eq_getElem_cons hj]
  rfl

theorem feedForwardLayer_input (input : List α) :
    ∀ (l : List Ptr) (j : Nat) (h : Heap α), l.Nodup →
    (∀ p ∈ l, attached h p = true ∧ hasWeight h p = true) →
    j + l.length ≤ input.length →
    ∃ h1, feedForwardLayer input 0 j l h = .ok h1 ∧
      h1.map Neuron.frozen = h.map Neuron.frozen ∧
      (∀ q, q ∉ l → deref h1 q = deref h q) ∧
      l.map (outAt h1) = inputLayerOut (input.drop j) (l.map (paramAt h)) := by
  intro l
  induction l with
  | nil =>
    intro j h _ _ _
    exact ⟨h, rfl, rfl, fun _ _ => rfl, by simp [inputLayerOut]⟩
  | cons p ps ih =>
    intro j h hnd hl hlen
    obtain ⟨hpps, hndps⟩ := List.nodup_cons.mp hnd
    obtain ⟨hatt, hhw⟩ := hl p (List.mem_cons_self p ps)
    obtain ⟨n, f, hd, hf⟩ := attached_ok hatt
    have hw : 0 < n.Weights.length := hasWeight_ok hhw hd
    have hj : j < input.length := by simp at hlen; omega
    obtain ⟨n1, hstep, hn1, hn1out⟩ := feedForwardNeuron_input_ex hd hf hw hj
    have hfro : (store h p n1).map Neuron.frozen = h.map Neuron.frozen :=
      map_store Neuron.frozen hd hn1
    have hl1 : ∀ p1 ∈ ps, attached (store h p n1) p1 = true ∧
        hasWeight (store h p n1) p1 = true := by
      intro p1 hp1
      rw [attached_congr hfro, hasWeight_congr hfro]
      exact hl p1 (List.mem_cons_of_mem p hp1)
    obtain ⟨h2, hrun, hfro2, hframe, hout⟩ := ih (j + 1) _ hndps hl1
      (by simp at hlen; omega)
    refine ⟨h2, ?_, hfro2.trans hfro, ?_, ?_⟩
    · simp only [feedForwardLayer, hstep, hrun]
    · intro q hq
      have hqp : q ≠ p := fun e => hq (by rw [e]; exact List.mem_cons_self p ps)
      have hqps : q ∉ ps := fun hmem => hq (List.mem_cons_of_mem p hmem)
      rw [hframe q hqps, deref_store_ne _ hqp]
    · have hd2 : deref h2 p = .ok n1 := by
        rw [hframe p hpps]; exact deref_store_self hd
      have hps : ps.map (paramAt (store h p n1)) = ps.map (paramAt h) :=
        List.map_congr_left (fun q _ => paramAt_congr hfro q)
      rw [List.map_cons, hout, hps, List.map_cons, paramAt_of_deref hd hf,
        inputLayerOut_cons hj]
      rw [headD_eq_getElem 0 hw]
      simp [outAt, hd2, hn1out]

/-! ### The forward phase on the whole network -/

theorem getLastD_cons {β : Type} (ls : List β) (l d : β) :
    (l :: ls).getLastD d = ls.getLastD l := by
  cases ls with
  | nil => rfl
  | cons x xs => rfl

theorem index_last {β : Type} : ∀ (ls : List β) (l0 : β),
    index (l0 :: ls) ((l0 :: ls).length - 1) = .ok (ls.getLastD l0) := by
  intro ls
  induction ls with
  | nil => intro l0; rfl
  | cons l ls ih =>
    intro l0
    have h1 := ih l
    rw [getLastD_cons]
    simp only [List.length_cons, Nat.add_sub_cancel] at h1 ⊢
    simpa [index] using h1

theorem feedForwardFrom_later (input : List α) :
    ∀ (ls : List (List Ptr)) (prev : List Ptr) (i : Nat) (h : Heap α), 0 < i →
    (prev ++ ls.flatten).Nodup →
    (∀ q ∈ prev, ∃ m, deref h q = .ok m) →
    (∀ p ∈ ls.flatten, attached h p = true) →
    linkedFrom h prev ls = true →
    ∃ h1, feedForwardFrom input i ls h = .ok h1 ∧
      h1.map Neuron.frozen = h.map Neuron.frozen ∧
      (∀ q, q ∉ ls.flatten → deref h1 q = deref h q) ∧
      (ls.getLastD prev).map (outAt h1) =
        ls.foldl (fun o l => laterLayerOut o (l.map (paramAt h))) (prev.map (outAt h)) := by
  intro ls
  induction ls with
  | nil =>
    intro prev i h _ _ _ _ _
    exact ⟨h, rfl, rfl, fun _ _ => rfl, rfl⟩
  | cons l ls ih =>
    intro prev i h hi hnd hprev hatt hlink
    rw [List.flatten_cons] at hnd hatt
    obtain ⟨_, hnd1, hdisj⟩ := List.nodup_append.mp hnd
    simp only [linkedFrom, Bool.and_eq_true, List.all_eq_true] at hlink
    obtain ⟨hlinkl, hlinkls⟩ := hlink
    have hl : ∀ p ∈ l, attached h p = true ∧ linked h prev p = true :=
      fun p hp => ⟨hatt p (List.mem_append_left _ hp), hlinkl p hp⟩
    have hprev1 : ∀ q ∈ prev, q ∉ l ∧ ∃ m, deref h q = .ok m :=
      fun q hq => ⟨fun hql => hdisj hq (List.mem_append_left _ hql), hprev q hq⟩
    obtain ⟨h1, hrun1, hfro1, hframe1, hout1⟩ :=
      feedForwardLayer_later input hi prev l 0 h hl hprev1
    have hl1 : ∀ q ∈ l, ∃ m, deref h1 q = .ok m := by
      intro q hq
      have hq1 : attached h1 q = true := by
        rw [attached_congr hfro1]; exact hatt q (List.mem_append_left _ hq)
      obtain ⟨m, _, hm, _⟩ := attached_ok hq1
      exact ⟨m, hm⟩
    have hatt1 : ∀ p ∈ ls.flatten, attached h1 p = true := by
      intro p hp
      rw [attached_congr hfro1]; exact hatt p (List.mem_append_right _ hp)
    have hlink1 : linkedFrom h1 l ls = true := by
      rw [linkedFrom_congr hfro1]; exact hlinkls
    obtain ⟨h2, hrun2, hfro2, hframe2, hout2⟩ :=
      ih l (i + 1) h1 (Nat.succ_pos i) hnd1 hl1 hatt1 hlink1
    refine ⟨h2, ?_, hfro2.trans hfro1, ?_, ?_⟩
    · simp only [feedForwardFrom, hrun1, hrun2]
    · intro q hq
      rw [List.flatten_cons] at hq
      rw [hframe2 q (fun hm => hq (List.mem_append_right _ hm)),
        hframe1 q (fun hm => hq (List.mem_append_left _ hm))]
    · have hpar : (fun (o : List α) (l : List Ptr) => laterLayerOut o (l.map (paramAt h1))) =
          (fun o l => laterLayerOut o (l.map (paramAt h))) := by
        funext o l
        rw [List.map_congr_left (fun q _ => paramAt_congr hfro1 q)]
      have hl0 : l.map (outAt h1) = laterLayerOut (prev.map (outAt h)) (l.map (paramAt h)) := by
        rw [laterLayerOut, List.map_map]
        exact List.map_congr_left hout1
      rw [getLastD_cons, List.foldl_cons, hout2, hpar, hl0]

/-- On a well-formed network the forward phase runs to the end, changes no
frozen field and leaves in the last layer the values of the recurrence. -/
theorem feedForward_spec {input : List α} {net : NNet} {h : Heap α} {l0 : List Ptr}
    {ls : List (List Ptr)} (hwf : WellFormed h net) (hnet : net.Layers = l0 :: ls)
    (hlen : input.length = l0.length) :
    ∃ h1, net.feedForward input h = .ok h1 ∧
      h1.map Neuron.frozen = h.map Neuron.frozen ∧
      (∀ q, q ∉ net.Layers.flatten → deref h1 q = deref h q) ∧
      (ls.getLastD l0).map (outAt h1) = forwardSpec input (net.params h) := by
  obtain ⟨hnd, hatt, hlink⟩ := hwf
  rw [hnet] at hnd hatt hlink
  rw [List.flatten_cons] at hnd hatt
  simp only [List.all_eq_true] at hatt
  simp only [layersLinked, Bool.and_eq_true, List.all_eq_true] at hlink
  obtain ⟨hw0, hlinkls⟩ := hlink
  obtain ⟨hnd0, _, _⟩ := List.nodup_append.mp hnd
  have hl0 : ∀ p ∈ l0, attached h p = true ∧ hasWeight h p = true :=
    fun p hp => ⟨hatt p (List.mem_append_left _ hp), hw0 p hp⟩
  obtain ⟨h1, hrun1, hfro1, hframe1, hout1⟩ :=
    feedForwardLayer_input input l0 0 h hnd0 hl0 (by omega)
  have hprev1 : ∀ q ∈ l0, ∃ m, deref h1 q = .ok m := by
    intro q hq
    have hq1 : attached h1 q = true := by
      rw [attached_congr hfro1]; exact hatt q (List.mem_append_left _ hq)
    obtain ⟨m, _, hm, _⟩ := attached_ok hq1
    exact ⟨m, hm⟩
  have hatt1 : ∀ p ∈ ls.flatten, attached h1 p = true := by
    intro p hp
    rw [attached_congr hfro1]; exact hatt p (List.mem_append_right _ hp)
  have hlink1 : linkedFrom h1 l0 ls = true := by
    rw [linkedFrom_congr hfro1]; exact hlinkls
  obtain ⟨h2, hrun2, hfro2, hframe2, hout2⟩ :=
    feedForwardFrom_later input ls l0 1 h1 Nat.one_pos hnd hprev1 hatt1 hlink1
  refine ⟨h2, ?_, hfro2.trans hfro1, ?_, ?_⟩
  · simp only [NNet.feedForward, hnet, feedForwardFrom, hrun1, hrun2]
  · intro q hq
    rw [hnet, List.flatten_cons] at hq
    rw [hframe2 q (fun hm => hq (List.mem_append_right _ hm)),
      hframe1 q (fun hm => hq (List.mem_append_left _ hm))]
  · have hpar : (fun (o : List α) (l : List Ptr) => laterLayerOut o (l.map (paramAt h1))) =
        (fun o l => laterLayerOut o (l.map (paramAt h))) := by
      funext o l
      rw [List.map_congr_left (fun q _ => paramAt_congr hfro1 q)]
    rw [hout2, hpar, hout1, List.drop_zero]
    simp only [NNet.params, hnet, List.map_cons, forwardSpec, List.foldl_map]

theorem getLastD_mem {β : Type} : ∀ (ls : List β) (l0 : β), ls.getLastD l0 ∈ l0 :: ls := by
  intro ls
  induction ls with
  | nil => intro l0; exact List.mem_cons_self l0 []
  | cons l ls ih =>
    intro l0
    rw [getLastD_cons]
    exact List.mem_cons_of_mem l0 (ih l)

theorem copyOut_ok {h : Heap α} : ∀ (l : List Ptr), (∀ p ∈ l, ∃ m, deref h p = .ok m) →
    copyOut h l = .ok (l.map (outAt h)) := by
  intro l
  induction l with
  | nil => intro _; rfl
  | cons p ps ih =>
    intro hv
    obtain ⟨m, hm⟩ := hv p (List.mem_cons_self p ps)
    have hps := ih (fun q hq => hv q (List.mem_cons_of_mem p hq))
    simp [copyOut, hm, hps, outAt]

theorem WellFormed_congr {h h1 : Heap α} (hm : h1.map Neuron.frozen = h.map Neuron.frozen)
    {net : NNet} (hwf : WellFormed h net) : WellFormed h1 net := by
  obtain ⟨hnd, hatt, hlink⟩ := hwf
  refine ⟨hnd, ?_, ?_⟩
  · rw [funext (attached_congr hm)]; exact hatt
  · cases hL : net.Layers with
    | nil => rfl
    | cons l0 ls =>
      rw [hL] at hlink
      simp only [layersLinked] at hlink ⊢
      rw [funext (hasWeight_congr hm), linkedFrom_congr hm]
      exact hlink

theorem params_congr {h h1 : Heap α} (hm : h1.map Neuron.frozen = h.map Neuron.frozen)
    (net : NNet) : net.params h1 = net.params h := by
  simp only [NNet.params, funext (paramAt_congr hm)]

theorem forwardSpec_length {input : List α} {l0 : List (Param α)} :
    ∀ (ls : List (List (Param α))), input.length = l0.length →
    (forwardSpec input (l0 :: ls)).length = (ls.getLastD l0).length := by
  intro ls hlen
  simp only [forwardSpec]
  have hgen : ∀ (ls : List (List (Param α))) (l : List (Param α)) (o : List α),
      o.length = l.length → (ls.foldl laterLayerOut o).length = (ls.getLastD l).length := by
    intro ls
    induction ls with
    | nil => intro l o ho; simpa using ho
    | cons x xs ih =>
      intro l o _
      rw [List.foldl_cons, getLastD_cons]
      exact ih x _ (by simp [laterLayerOut])
  exact hgen ls l0 _ (by simp [inputLayerOut, hlen])

/-- The full statement behind `ComputeOutput` on a well-formed network. -/
theorem ComputeOutput_ok {input : List α} {net : NNet} {h : Heap α} {l0 : List Ptr}
    {ls : List (List Ptr)} (hwf : WellFormed h net) (hnet : net.Layers = l0 :: ls)
    (hlen : input.length = l0.length) :
    ∃ h1, net.ComputeOutput input h = .ok (h1, .ok (forwardSpec input (net.params h))) ∧
      h1.map Neuron.frozen = h.map Neuron.frozen ∧
      (ls.getLastD l0).map (outAt h1) = forwardSpec input (net.params h) := by
  obtain ⟨h1, hrun, hfro, _, hout⟩ := feedForward_spec hwf hnet hlen
  have hwf1 : WellFormed h1 net := WellFormed_congr hfro hwf
  have hvalid : ∀ p ∈ ls.getLastD l0, ∃ m, deref h1 p = .ok m := by
    intro p hp
    have hmem : p ∈ net.Layers.flatten := by
      rw [hnet]
      exact List.mem_flatten.mpr ⟨_, getLastD_mem ls l0, hp⟩
    have hatt := List.all_eq_true.mp hwf1.2.1 p hmem
    obtain ⟨m, _, hm, _⟩ := attached_ok hatt
    exact ⟨m, hm⟩
  refine ⟨h1, ?_, hfro, hout⟩
  have hidx0 : index net.Layers 0 = .ok l0 := by rw [hnet]; simp [index]
  have hidxl : index net.Layers (net.Layers.length - 1) = .ok (ls.getLastD l0) := by
    rw [hnet]; exact index_last ls l0
  have hne : ¬ l0.length ≠ input.length := fun e => e hlen.symm
  simp only [NNet.ComputeOutput, bind, Except.bind, hidx0, hne, if_false, hrun, hidxl,
    copyOut_ok _ hvalid, hout, pure, Except.pure]

/-! ### Construction -/

theorem deref_append {h : Heap α} {p : Ptr} {n : Neuron α} (x : Heap α)
    (hd : deref h p = .ok n) : deref (h ++ x) p = .ok n := by
  obtain ⟨a, rfl, ha⟩ := deref_ok_iff.mp hd
  have hlt : a < h.length := (List.getElem?_eq_some.mp ha).1
  apply deref_ok_iff.mpr
  exact ⟨a, rfl, by rw [List.getElem?_append_left hlt]; exact ha⟩

theorem deref_append_new (h : Heap α) (n : Neuron α) :
    deref (h ++ [n]) (some h.length) = .ok n := by
  apply deref_ok_iff.mpr
  exact ⟨h.length, rfl, by simp⟩

theorem newNNetNeuron_ok (f : ActivationFunc α) (rnd : Nat → α) (i : Nat) (prev : List Ptr)
    (h : Heap α) (c : Nat) :
    ∃ n c1, newNNetNeuron (some f) rnd i prev (h, c) = .ok ((h ++ [n], c1), some h.length) ∧
      isFresh f rnd i prev n := by
  by_cases hi : 0 < i
  · refine ⟨freshLater f rnd c prev, c + prev.length, ?_, ?_⟩
    · simp [newNNetNeuron, NewNeuron, hi, freshLater]
    · have hne : ¬ i = 0 := by omega
      simp only [isFresh, hne, if_false]
      exact ⟨c, rfl⟩
  · refine ⟨freshInput f, c, ?_, ?_⟩
    · simp [newNNetNeuron, NewNeuron, hi, freshInput]
    · have he : i = 0 := by omega
      simp [isFresh, he]

theorem newNNetLayer_ok (f : ActivationFunc α) (rnd : Nat → α) (i : Nat) (prev : List Ptr) :
    ∀ (count : Nat) (h : Heap α) (c : Nat),
    ∃ x c1 ps, newNNetLayer (some f) rnd i prev count (h, c) = .ok ((h ++ x, c1), ps) ∧
      ps.length = count ∧ ∀ p ∈ ps, ∃ n, deref (h ++ x) p = .ok n ∧ isFresh f rnd i prev n := by
  intro count
  induction count with
  | zero =>
    intro h c
    exact ⟨[], c, [], by simp [newNNetLayer], rfl, fun p hp => absurd hp (List.not_mem_nil p)⟩
  | succ count ih =>
    intro h c
    obtain ⟨n, c1, hstep, hfresh⟩ := newNNetNeuron_ok f rnd i prev h c
    obtain ⟨x, c2, ps, hrest, hlen, hps⟩ := ih (h ++ [n]) c1
    refine ⟨[n] ++ x, c2, some h.length :: ps, ?_, by simp [hlen], ?_⟩
    · simp only [newNNetLayer, hstep, hrest, List.append_assoc]
    · intro p hp
      rcases List.mem_cons.mp hp with rfl | hmem
      · refine ⟨n, ?_, hfresh⟩
        rw [← List.append_assoc]
        exact deref_append x (deref_append_new h n)
      · rw [← List.append_assoc]
        exact hps p hmem

theorem freshFrom_append (f : ActivationFunc α) (rnd : Nat → α) {h : Heap α} (x : Heap α) :
    ∀ (ls : List (List Ptr)) (i : Nat) (prev : List Ptr),
    freshFrom f rnd h i prev ls → freshFrom f rnd (h ++ x) i prev ls := by
  intro ls
  induction ls with
  | nil => intro i prev _; trivial
  | cons l ls ih =>
    intro i prev hfr
    refine ⟨?_, ih _ _ hfr.2⟩
    intro p hp
    obtain ⟨n, hn, hfresh⟩ := hfr.1 p hp
    exact ⟨n, deref_append x hn, hfresh⟩

theorem newNNetFrom_ok (f : ActivationFunc α) (rnd : Nat → α) :
    ∀ (sizes : List Nat) (i : Nat) (prev : List Ptr) (h : Heap α) (c : Nat),
    ∃ x c1 ls, newNNetFrom (some f) rnd i prev sizes (h, c) = .ok ((h ++ x, c1), ls) ∧
      ls.map List.length = sizes ∧ freshFrom f rnd (h ++ x) i prev ls := by
  intro sizes
  induction sizes with
  | nil =>
    intro i prev h c
    exact ⟨[], c, [], by simp [newNNetFrom], rfl, trivial⟩
  | cons size sizes ih =>
    intro i prev h c
    obtain ⟨x, c1, l, hlayer, hlen, hl⟩ := newNNetLayer_ok f rnd i prev size h c
    obtain ⟨y, c2, ls, hrest, hlens, hls⟩ := ih (i + 1) l (h ++ x) c1
    refine ⟨x ++ y, c2, l :: ls, ?_, by simp [hlen, hlens], ?_⟩
    · simp only [newNNetFrom, hlayer, hrest, List.append_assoc]
    · rw [← List.append_assoc]
      refine ⟨?_, hls⟩
      intro p hp
      obtain ⟨n, hn, hfresh⟩ := hl p hp
      exact ⟨n, deref_append y hn, hfresh⟩

theorem NewNNet_ok (layers : List Int) (f : ActivationFunc α) (rnd : Nat → α) (h0 : Heap α)
    (hpos : ∀ size ∈ layers, 0 ≤ size) :
    ∃ x net, NewNNet layers (some f) rnd h0 = .ok (h0 ++ x, net) ∧
      net.Layers.map List.length = layers.map Int.toNat ∧
      freshFrom f rnd (h0 ++ x) 0 [] net.Layers := by
  obtain ⟨x, c1, ls, hrun, hlen, hfr⟩ := newNNetFrom_ok f rnd (layers.map Int.toNat) 0 [] h0 0
  refine ⟨x, { Layers := ls }, ?_, hlen, hfr⟩
  have hany : layers.any (fun size => decide (size < 0)) = false := by
    rw [List.any_eq_false]
    intro size hs
    have := hpos size hs
    simp only [decide_eq_true_eq]
    omega
  simp [NewNNet, hany, hrun]

/-- In a run of consecutive fresh layers, every layer after the first is
linked to the layer just before it. -/
theorem freshFrom_index (f : ActivationFunc α) (rnd : Nat → α) (h : Heap α) :
    ∀ (ls : List (List Ptr)) (i : Nat) (pre : List Ptr) (k : Nat) (prev l : List Ptr),
    freshFrom f rnd h i pre ls → ls[k]? = some prev → ls[k + 1]? = some l →
    ∀ p ∈ l, ∃ n, deref h p = .ok n ∧ ∃ c, n = freshLater f rnd c prev := by
  intro ls
  induction ls with
  | nil => intro i pre k prev l _ hk; simp at hk
  | cons l0 ls ih =>
    intro i pre k prev l hfr hk hk1
    cases k with
    | zero =>
      simp only [List.getElem?_cons_zero, Option.some.injEq] at hk
      subst hk
      cases ls with
      | nil => simp at hk1
      | cons l1 ls1 =>
        simp only [List.getElem?_cons_succ, List.getElem?_cons_zero, Option.some.injEq] at hk1
        subst hk1
        intro p hp
        obtain ⟨n, hn, hfresh⟩ := hfr.2.1 p hp
        refine ⟨n, hn, ?_⟩
        simpa [isFresh] using hfresh
    | succ k =>
      simp only [List.getElem?_cons_succ] at hk hk1
      exact ih (i + 1) l0 k prev l hfr.2 hk hk1

/-! ### The backward pass never writes `Out` -/

theorem forRange_preserves {σ : Type} {body : Nat → σ → Except Panic σ} (P : σ → Prop)
    (hbody : ∀ k s s1, body k s = .ok s1 → P s → P s1) :
    ∀ (c k : Nat) (s s1 : σ), forRange body k c s = .ok s1 → P s → P s1 := by
  intro c
  induction c with
  | zero =>
    intro k s s1 hr hP
    simp only [forRange, Except.ok.injEq] at hr
    exact hr ▸ hP
  | succ c ih =>
    intro k s s1 hr hP
    simp only [forRange] at hr
    cases hb : body k s with
    | error e => rw [hb] at hr; cases hr
    | ok s2 =>
      rw [hb] at hr
      exact ih (k + 1) s2 s1 hr (hbody k s s2 hb hP)

theorem map_store_eq {β : Type} (f : Neuron α → β) {h h0 : Heap α} {p : Ptr} {n n1 : Neuron α}
    (hd : deref h p = .ok n) (hf : f n1 = f n) (h0eq : h.map f = h0.map f) :
    (store h p n1).map f = h0.map f := by
  rw [map_store f hd hf]; exact h0eq

theorem updateError_out {p : Ptr} {k : Nat} {h h1 : Heap α}
    (hr : updateError p k h = .ok h1) : h1.map Neuron.Out = h.map Neuron.Out := by
  unfold updateError at hr
  simp only [bind, Except.bind, pure, Except.pure] at hr
  cases hn : deref h p with
  | error e => simp [hn] at hr
  | ok n =>
    simp only [hn] at hr
    cases hq : index n.Inputs k with
    | error e => simp [hq] at hr
    | ok q =>
      simp only [hq] at hr
      cases hm : deref h q with
      | error e => simp [hm] at hr
      | ok m =>
        simp only [hm] at hr
        cases hf : activation n with
        | error e => simp [hf] at hr
        | ok f =>
          simp only [hf] at hr
          cases hw : index n.Weights k with
          | error e => simp [hw] at hr
          | ok w =>
            simp only [hw, Except.ok.injEq] at hr
            rw [← hr]
            exact map_store Neuron.Out hm rfl

theorem updateDeltaW_out {p : Ptr} {k : Nat} {h h1 : Heap α}
    (hr : updateDeltaW p k h = .ok h1) : h1.map Neuron.Out = h.map Neuron.Out := by
  unfold updateDeltaW at hr
  simp only [bind, Except.bind, pure, Except.pure] at hr
  cases hn : deref h p with
  | error e => simp [hn] at hr
  | ok n =>
    simp only [hn] at hr
    cases hq : index n.Inputs k with
    | error e => simp [hq] at hr
    | ok q =>
      simp only [hq] at hr
      cases hm : deref h q with
      | error e => simp [hm] at hr
      | ok m =>
        simp only [hm] at hr
        cases hd : index n.DeltaW k with
        | error e => simp [hd] at hr
        | ok d =>
          simp only [hd, Except.ok.injEq] at hr
          rw [← hr]
          exact map_store Neuron.Out hn rfl

theorem updateWeight_out {p : Ptr} {k : Nat} {h h1 : Heap α}
    (hr : updateWeight p k h = .ok h1) : h1.map Neuron.Out = h.map Neuron.Out := by
  unfold updateWeight at hr
  simp only [bind, Except.bind, pure, Except.pure] at hr
  cases hn : deref h p with
  | error e => simp [hn] at hr
  | ok n =>
    simp only [hn] at hr
    cases hw : index n.Weights k with
    | error e => simp [hw] at hr
    | ok w =>
      simp only [hw] at hr
      cases hd : index n.DeltaW k with
      | error e => simp [hd] at hr
      | ok d =>
        simp only [hd, Except.ok.injEq] at hr
        rw [← hr]
        exact map_store Neuron.Out hn rfl

theorem updateSynapse_out {p : Ptr} {k : Nat} {h h1 : Heap α}
    (hr : updateSynapse p k h = .ok h1) : h1.map Neuron.Out = h.map Neuron.Out := by
  unfold updateSynapse at hr
  simp only [bind, Except.bind] at hr
  cases h1e : updateError p k h with
  | error e => simp [h1e] at hr
  | ok ha =>
    simp only [h1e] at hr
    cases h2e : updateDeltaW p k ha with
    | error e => simp [h2e] at hr
    | ok hb =>
      simp only [h2e] at hr
      rw [updateWeight_out hr, updateDeltaW_out h2e, updateError_out h1e]

theorem update_out {p : Ptr} {h h1 : Heap α} (hr : update p h = .ok h1) :
    h1.map Neuron.Out = h.map Neuron.Out := by
  unfold update at hr
  cases hn : deref h p with
  | error e => simp [hn] at hr
  | ok n =>
    simp only [hn] at hr
    exact forRange_preserves (fun s => s.map Neuron.Out = h.map Neuron.Out)
      (fun k s s1 hb hP => (updateSynapse_out hb).trans hP) _ _ _ _ hr rfl

theorem outAt_of_map_out {h h1 : Heap α} (hm : h1.map Neuron.Out = h.map Neuron.Out)
    (q : Ptr) : outAt h1 q = outAt h q := by
  rcases deref_map_congr Neuron.Out hm q with ⟨n, n1, hn, hn1, hf⟩ | ⟨e, he, he1⟩
  · simp [outAt, hn, hn1, hf]
  · simp [outAt, he, he1]

theorem forNeurons_map {β : Type} (f : Neuron α → β) {g : Neuron α → Neuron α}
    (hg : ∀ n, f (g n) = f n) : ∀ (l : List Ptr) (h h1 : Heap α),
    forNeurons g l h = .ok h1 → h1.map f = h.map f := by
  intro l
  induction l with
  | nil =>
    intro h h1 hr
    simp only [forNeurons, Except.ok.injEq] at hr
    rw [hr]
  | cons p ps ih =>
    intro h h1 hr
    simp only [forNeurons] at hr
    cases hn : deref h p with
    | error e => rw [hn] at hr; cases hr
    | ok n =>
      rw [hn] at hr
      rw [ih _ _ hr]
      exact map_store f hn (hg n)

theorem forLayers_map {β : Type} (f : Neuron α → β) {g : Neuron α → Neuron α}
    (hg : ∀ n, f (g n) = f n) : ∀ (ls : List (List Ptr)) (h h1 : Heap α),
    forLayers g ls h = .ok h1 → h1.map f = h.map f := by
  intro ls
  induction ls with
  | nil =>
    intro h h1 hr
    simp only [forLayers, Except.ok.injEq] at hr
    rw [hr]
  | cons l ls ih =>
    intro h h1 hr
    simp only [forLayers] at hr
    cases hl : forNeurons g l h with
    | error e => rw [hl] at hr; cases hr
    | ok h2 =>
      rw [hl] at hr
      rw [ih _ _ hr]
      exact forNeurons_map f hg l h h2 hl

theorem propagateLoop_out : ∀ (l : List Ptr) (h h1 : Heap α),
    propagateLoop l h = .ok h1 → h1.map Neuron.Out = h.map Neuron.Out := by
  intro l
  induction l with
  | nil =>
    intro h h1 hr
    simp only [propagateLoop, Except.ok.injEq] at hr
    rw [hr]
  | cons p ps ih =>
    intro h h1 hr
    simp only [propagateLoop] at hr
    cases hu : update p h with
    | error e => rw [hu] at hr; cases hr
    | ok h2 =>
      rw [hu] at hr
      rw [ih _ _ hr, update_out hu]

/-- The loop of `computeOutputLayer` adds to `err_sum` the squared errors of
the neurons it visits, on the `Out` values of the heap it starts in. -/
theorem computeOutputLoop_loss {label : List α} : ∀ (l : List Ptr) (j : Nat) (acc : α)
    (h : Heap α) (r : Heap α × α), computeOutputLoop label j l acc h = .ok r →
    r.1.map Neuron.Out = h.map Neuron.Out ∧
      r.2 = acc + exampleLoss (label.drop j) (l.map (outAt h)) := by
  intro l
  induction l with
  | nil =>
    intro j acc h r hr
    simp only [computeOutputLoop, Except.ok.injEq] at hr
    rw [← hr]
    simp [exampleLoss]
  | cons p ps ih =>
    intro j acc h r hr
    simp only [computeOutputLoop, bind, Except.bind] at hr
    cases hy : index label j with
    | error e => simp [hy] at hr
    | ok y =>
      simp only [hy] at hr
      cases hn : deref h p with
      | error e => simp [hn] at hr
      | ok n =>
        simp only [hn] at hr
        cases hf : activation n with
        | error e => simp [hf] at hr
        | ok f =>
          simp only [hf] at hr
          cases hu : update p (store h p { n with Error := f.Prime n.In * (y - n.Out) }) with
          | error e => simp [hu] at hr
          | ok h2 =>
            simp only [hu] at hr
            obtain ⟨hout, hloss⟩ := ih _ _ _ _ hr
            have hstore : (store h p { n with Error := f.Prime n.In * (y - n.Out) }).map
                Neuron.Out = h.map Neuron.Out := map_store Neuron.Out hn rfl
            have h2out : h2.map Neuron.Out = h.map Neuron.Out := (update_out hu).trans hstore
            have hjlt : j < label.length := by
              unfold index at hy
              cases hc : label[j]? with
              | none => rw [hc] at hy; cases hy
              | some v => exact (List.getElem?_eq_some.mp hc).1
            have hyv : label[j] = y := by
              rw [index_ok_of_lt hjlt] at hy
              injection hy
            refine ⟨hout.trans h2out, ?_⟩
            rw [hloss, List.drop_eq_getElem_cons hjlt, List.map_cons,
              List.map_congr_left (fun q _ => outAt_of_map_out h2out q)]
            simp only [exampleLoss, List.zipWith_cons_cons, List.sum_cons, outAt, hn, hyv]
            ring

theorem computeOutputLayer_loss {net : NNet} {label : List α} {h : Heap α} {r : Heap α × α}
    (hr : net.computeOutputLayer label h = .ok r) :
    r.1.map Neuron.Out = h.map Neuron.Out ∧ r.2 = exampleLoss label (net.outputOuts h) := by
  unfold NNet.computeOutputLayer at hr
  simp only [bind, Except.bind] at hr
  cases hL : net.Layers with
  | nil => simp [hL, index] at hr
  | cons l0 ls =>
    have hidx : index net.Layers (net.Layers.length - 1) = .ok (ls.getLastD l0) := by
      rw [hL]; exact index_last ls l0
    simp only [hidx] at hr
    obtain ⟨hout, hloss⟩ := computeOutputLoop_loss _ _ _ _ _ hr
    refine ⟨hout, ?_⟩
    rw [hloss, NNet.outputOuts, hL, getLastD_cons]
    simp

/-- The rounds of the backward loop below the output layer leave the loss alone. -/
theorem backwardLoop_below {net : NNet} {label : List α} : ∀ (n : Nat) (acc : α) (h : Heap α)
    (r : Heap α × α), n ≤ net.Layers.length - 1 → backwardLoop net label n acc h = .ok r →
    r.1.map Neuron.Out = h.map Neuron.Out ∧ r.2 = acc := by
  intro n
  induction n with
  | zero =>
    intro acc h r _ hr
    simp only [backwardLoop, Except.ok.injEq] at hr
    rw [← hr]
    exact ⟨rfl, rfl⟩
  | succ i ih =>
    intro acc h r hle hr
    have hne : ¬ i = net.Layers.length - 1 := by omega
    simp only [backwardLoop, hne, if_false, bind, Except.bind] at hr
    cases hp : net.propagateErrors i h with
    | error e => simp [hp] at hr
    | ok h1 =>
      simp only [hp] at hr
      obtain ⟨hout, hacc⟩ := ih _ _ _ (by omega) hr
      refine ⟨hout.trans ?_, hacc⟩
      unfold NNet.propagateErrors at hp
      simp only [bind, Except.bind] at hp
      cases hl : index net.Layers i with
      | error e => simp [hl] at hp
      | ok layer =>
        simp only [hl] at hp
        exact propagateLoop_out _ _ _ hp

/-- The backward loop of one example adds to the loss the loss of the example
on the outputs of the heap it starts in. -/
theorem backwardLoop_loss {net : NNet} {label : List α} {acc : α} {h : Heap α}
    {r : Heap α × α} (hr : backwardLoop net label net.Layers.length acc h = .ok r) :
    r.1.map Neuron.Out = h.map Neuron.Out ∧
      r.2 = acc + exampleLoss label (net.outputOuts h) := by
  cases hlen : net.Layers.length with
  | zero =>
    rw [hlen] at hr
    simp only [backwardLoop, Except.ok.injEq] at hr
    have hL : net.Layers = [] := List.length_eq_zero.mp hlen
    rw [← hr]
    simp [NNet.outputOuts, hL, exampleLoss]
  | succ m =>
    rw [hlen] at hr
    have hm : m = net.Layers.length - 1 := by omega
    rw [backwardLoop] at hr
    simp only [← hm, if_true, bind, Except.bind] at hr
    cases h1e : net.computeOutputLayer label h with
    | error e => simp [h1e] at hr
    | ok r1 =>
      simp only [h1e] at hr
      cases h2e : net.computeOutputLayer label r1.1 with
      | error e => simp [h2e] at hr
      | ok r2 =>
        simp only [h2e] at hr
        obtain ⟨hout1, _⟩ := computeOutputLayer_loss h1e
        obtain ⟨hout2, hloss2⟩ := computeOutputLayer_loss h2e
        obtain ⟨hout3, hacc⟩ := backwardLoop_below m _ _ _ (by omega) hr
        refine ⟨hout3.trans (hout2.trans hout1), ?_⟩
        rw [hacc, hloss2]
        simp only [NNet.outputOuts, List.map_congr_left (fun q _ => outAt_of_map_out hout1 q)]

/-- The heap the backward loop leaves does not depend on the loss so far. -/
theorem backwardLoop_acc {net : NNet} {label : List α} : ∀ (n : Nat) (acc acc1 : α)
    (h : Heap α) (r : Heap α × α), backwardLoop net label n acc h = .ok r →
    backwardLoop net label n acc1 h = .ok (r.1, acc1 + (r.2 - acc)) := by
  intro n
  induction n with
  | zero =>
    intro acc acc1 h r hr
    simp only [backwardLoop, Except.ok.injEq] at hr ⊢
    rw [← hr]
    simp
  | succ i ih =>
    intro acc acc1 h r hr
    rw [backwardLoop] at hr ⊢
    by_cases hi : i = net.Layers.length - 1
    · simp only [if_pos hi, bind, Except.bind] at hr ⊢
      cases h1e : net.computeOutputLayer label h with
      | error e => simp [h1e] at hr
      | ok r1 =>
        simp only [h1e] at hr ⊢
        cases h2e : net.computeOutputLayer label r1.1 with
        | error e => simp [h2e] at hr
        | ok r2 =>
          simp only [h2e] at hr ⊢
          rw [ih _ (acc1 + r2.2) _ _ hr]
          congr 2
          ring
    · simp only [if_neg hi, bind, Except.bind] at hr ⊢
      cases hp : net.propagateErrors i h with
      | error e => simp [hp] at hr
      | ok h1 =>
        simp only [hp] at hr ⊢
        exact ih _ _ _ _ hr

theorem trainExample_loss {net : NNet} {d : Dataset α} {acc : α} {h : Heap α}
    {r : Heap α × α} (hr : trainExample net d acc h = .ok r) :
    ∃ h1 x, net.feedForward d.Data h = .ok h1 ∧ trainExample net d 0 h = .ok (r.1, x) ∧
      r.2 = acc + exampleLoss d.Label (net.outputOuts h1) := by
  unfold trainExample at hr ⊢
  simp only [bind, Except.bind] at hr ⊢
  cases hf : net.feedForward d.Data h with
  | error e => simp [hf] at hr
  | ok h1 =>
    simp only [hf] at hr ⊢
    cases hz : net.zeroErrors h1 with
    | error e => simp [hz] at hr
    | ok h2 =>
      simp only [hz] at hr ⊢
      obtain ⟨_, hloss⟩ := backwardLoop_loss hr
      have hz1 : forLayers (fun n : Neuron α => { n with Error := 0 }) net.Layers h1 =
          .ok h2 := hz
      have hzout : h2.map Neuron.Out = h1.map Neuron.Out :=
        forLayers_map Neuron.Out (g := fun n : Neuron α => { n with Error := 0 })
          (fun _ => rfl) _ _ _ hz1
      refine ⟨h1, _, rfl, backwardLoop_acc _ _ 0 _ _ hr, ?_⟩
      rw [hloss]
      simp only [NNet.outputOuts, List.map_congr_left (fun q _ => outAt_of_map_out hzout q)]

theorem trainLoop_loss {net : NNet} : ∀ (ds : List (Dataset α)) (acc : α) (h : Heap α)
    (r : Heap α × α), trainLoop net ds acc h = .ok r →
    ∃ hs, forwardHeaps net ds h = .ok hs ∧ hs.length = ds.length ∧
      r.2 = acc + (List.zipWith (fun d hd => exampleLoss d.Label (net.outputOuts hd))
        ds hs).sum := by
  intro ds
  induction ds with
  | nil =>
    intro acc h r hr
    simp only [trainLoop, Except.ok.injEq] at hr
    rw [← hr]
    exact ⟨[], rfl, rfl, by simp⟩
  | cons d ds ih =>
    intro acc h r hr
    simp only [trainLoop] at hr
    cases he : trainExample net d acc h with
    | error e => rw [he] at hr; cases hr
    | ok r1 =>
      rw [he] at hr
      obtain ⟨h1, x, hf, he0, hloss1⟩ := trainExample_loss he
      obtain ⟨hs, hfh, hlen, hloss⟩ := ih _ _ _ hr
      refine ⟨h1 :: hs, ?_, by simp [hlen], ?_⟩
      · simp only [forwardHeaps, hf, he0, hfh]
      · rw [hloss, hloss1]
        simp only [List.zipWith_cons_cons, List.sum_cons, add_assoc]

/-! ### Loops that assign a field of every neuron -/

theorem forNeurons_ok (g : Neuron α → Neuron α) (hg : ∀ n, g (g n) = g n) :
    ∀ (l : List Ptr) (h : Heap α), (∀ p ∈ l, ∃ n, deref h p = .ok n) →
    ∃ h1, forNeurons g l h = .ok h1 ∧
      (∀ p n, p ∈ l → deref h p = .ok n → deref h1 p = .ok (g n)) ∧
      (∀ q, q ∉ l → deref h1 q = deref h q) := by
  intro l
  induction l with
  | nil =>
    intro h _
    exact ⟨h, rfl, fun p n hp _ => absurd hp (List.not_mem_nil p), fun _ _ => rfl⟩
  | cons p ps ih =>
    intro h hv
    obtain ⟨n0, hn0⟩ := hv p (List.mem_cons_self p ps)
    have hv1 : ∀ q ∈ ps, ∃ n, deref (store h p (g n0)) q = .ok n := by
      intro q hq
      by_cases hqp : q = p
      · exact ⟨g n0, by rw [hqp]; exact deref_store_self hn0⟩
      · rw [deref_store_ne _ hqp]; exact hv q (List.mem_cons_of_mem p hq)
    obtain ⟨h1, hrun, hin, hout⟩ := ih _ hv1
    refine ⟨h1, by simp only [forNeurons, hn0, hrun], ?_, ?_⟩
    · intro q n hq hn
      by_cases hmem : q ∈ ps
      · by_cases hqp : q = p
        · subst hqp
          rw [hn0] at hn
          injection hn with hn
          subst hn
          rw [hin q (g n0) hmem (deref_store_self hn0), hg]
        · exact hin q n hmem (by rw [deref_store_ne _ hqp]; exact hn)
      · have hqp : q = p := by
          rcases List.mem_cons.mp hq with e | e
          · exact e
          · exact absurd e hmem
        subst hqp
        rw [hn0] at hn
        injection hn with hn
        subst hn
        rw [hout q hmem]
        exact deref_store_self hn0
    · intro q hq
      have hqp : q ≠ p := fun e => hq (by rw [e]; exact List.mem_cons_self p ps)
      rw [hout q (fun hm => hq (List.mem_cons_of_mem p hm)), deref_store_ne _ hqp]

theorem forLayers_ok (g : Neuron α → Neuron α) (hg : ∀ n, g (g n) = g n) :
    ∀ (ls : List (List Ptr)) (h : Heap α), (∀ p ∈ ls.flatten, ∃ n, deref h p = .ok n) →
    ∃ h1, forLayers g ls h = .ok h1 ∧
      (∀ p n, p ∈ ls.flatten → deref h p = .ok n → deref h1 p = .ok (g n)) ∧
      (∀ q, q ∉ ls.flatten → deref h1 q = deref h q) := by
  intro ls
  induction ls with
  | nil =>
    intro h _
    exact ⟨h, rfl, fun p n hp _ => absurd hp (by simp), fun _ _ => rfl⟩
  | cons l ls ih =>
    intro h hv
    rw [List.flatten_cons] at hv
    obtain ⟨h1, hrun1, hin1, hout1⟩ :=
      forNeurons_ok g hg l h (fun p hp => hv p (List.mem_append_left _ hp))
    have hv1 : ∀ q ∈ ls.flatten, ∃ n, deref h1 q = .ok n := by
      intro q hq
      obtain ⟨n, hn⟩ := hv q (List.mem_append_right _ hq)
      by_cases hql : q ∈ l
      · exact ⟨g n, hin1 q n hql hn⟩
      · exact ⟨n, by rw [hout1 q hql]; exact hn⟩
    obtain ⟨h2, hrun2, hin2, hout2⟩ := ih h1 hv1
    refine ⟨h2, by simp only [forLayers, hrun1, hrun2], ?_, ?_⟩
    · intro q n hq hn
      rw [List.flatten_cons] at hq
      by_cases hmem : q ∈ ls.flatten
      · by_cases hql : q ∈ l
        · rw [hin2 q (g n) hmem (hin1 q n hql hn), hg]
        · exact hin2 q n hmem (by rw [hout1 q hql]; exact hn)
      · have hql : q ∈ l := by
          rcases List.mem_append.mp hq with e | e
          · exact e
          · exact absurd e hmem
        rw [hout2 q hmem]
        exact hin1 q n hql hn
    · intro q hq
      rw [List.flatten_cons] at hq
      rw [hout2 q (fun hm => hq (List.mem_append_right _ hm)),
        hout1 q (fun hm => hq (List.mem_append_left _ hm))]

/-! ### Relinking -/

theorem relinkFrom_ok : ∀ (ls : List (List Ptr)) (prev : List Ptr) (h : Heap α),
    ls.flatten.Nodup → (∀ p ∈ ls.flatten, ∃ n, deref h p = .ok n) →
    ∃ h1, relinkFrom prev ls h = .ok h1 ∧
      h1.map Neuron.unlinked = h.map Neuron.unlinked ∧
      linkedInputs h1 prev ls ∧
      (∀ q, q ∉ ls.flatten → deref h1 q = deref h q) := by
  intro ls
  induction ls with
  | nil =>
    intro prev h _ _
    exact ⟨h, rfl, rfl, trivial, fun _ _ => rfl⟩
  | cons l ls ih =>
    intro prev h hnd hv
    rw [List.flatten_cons] at hnd hv
    obtain ⟨_, hnd1, hdisj⟩ := List.nodup_append.mp hnd
    obtain ⟨h1, hrun1, hin1, hout1⟩ :=
      forNeurons_ok (fun m : Neuron α => { m with Inputs := prev }) (fun _ => rfl) l h
        (fun p hp => hv p (List.mem_append_left _ hp))
    have hmap1 : h1.map Neuron.unlinked = h.map Neuron.unlinked :=
      forNeurons_map Neuron.unlinked (g := fun m : Neuron α => { m with Inputs := prev })
        (fun _ => rfl) l h h1 hrun1
    have hv1 : ∀ q ∈ ls.flatten, ∃ n, deref h1 q = .ok n := by
      intro q hq
      have hql : q ∉ l := fun hm => hdisj hm hq
      rw [hout1 q hql]
      exact hv q (List.mem_append_right _ hq)
    obtain ⟨h2, hrun2, hmap2, hlink2, hout2⟩ := ih l h1 hnd1 hv1
    refine ⟨h2, by simp only [relinkFrom, hrun1, hrun2], hmap2.trans hmap1, ⟨?_, hlink2⟩, ?_⟩
    · intro p hp
      obtain ⟨n, hn⟩ := hv p (List.mem_append_left _ hp)
      have hp2 : deref h2 p = .ok { n with Inputs := prev } := by
        rw [hout2 p (fun hm => hdisj hp hm)]
        exact hin1 p n hp hn
      exact ⟨_, hp2, rfl⟩
    · intro q hq
      rw [List.flatten_cons] at hq
      rw [hout2 q (fun hm => hq (List.mem_append_right _ hm)),
        hout1 q (fun hm => hq (List.mem_append_left _ hm))]

theorem linkedInputs_index (h : Heap α) : ∀ (ls : List (List Ptr)) (l0 : List Ptr) (k : Nat)
    (prev l : List Ptr), linkedInputs h l0 ls → (l0 :: ls)[k]? = some prev →
    (l0 :: ls)[k + 1]? = some l → ∀ p ∈ l, ∃ n, deref h p = .ok n ∧ n.Inputs = prev := by
  intro ls
  induction ls with
  | nil => intro l0 k prev l _ _ hk1; simp at hk1
  | cons l1 ls ih =>
    intro l0 k prev l hli hk hk1
    cases k with
    | zero =>
      simp only [List.getElem?_cons_zero, Option.some.injEq] at hk
      simp only [List.getElem?_cons_succ, List.getElem?_cons_zero, Option.some.injEq] at hk1
      subst hk hk1
      exact hli.1
    | succ k =>
      simp only [List.getElem?_cons_succ] at hk hk1
      exact ih l1 k prev l hli.2 hk (by simpa using hk1)

/-! ### Deserialisation -/

theorem recordAt_append {h : Heap α} (x : Heap α) {p : Ptr} {r : Option (NeuronRecord α)}
    (hr : recordAt h p r) : recordAt (h ++ x) p r := by
  cases r with
  | none => exact hr
  | some rec =>
    obtain ⟨a, n, hp, hn, hrec⟩ := hr
    exact ⟨a, n, hp, deref_append x hn, hrec⟩

theorem recordAt_of_map {f : Neuron α → Neuron α} (hf : ∀ n n1, f n1 = f n → n1.toRecord = n.toRecord)
    {h h1 : Heap α} (hm : h1.map f = h.map f) {p : Ptr} {r : Option (NeuronRecord α)}
    (hr : recordAt h p r) : recordAt h1 p r := by
  cases r with
  | none => exact hr
  | some rec =>
    obtain ⟨a, n, hp, hn, hrec⟩ := hr
    rcases deref_map_congr f hm p with ⟨m, m1, hm0, hm1, hfe⟩ | ⟨e, he, _⟩
    · rw [hn] at hm0
      injection hm0 with hm0
      subst hm0
      exact ⟨a, m1, hp, hm1, by rw [hf n m1 hfe]; exact hrec⟩
    · rw [hn] at he; cases he

theorem unlinked_toRecord (n n1 : Neuron α) (hf : n1.unlinked = n.unlinked) :
    n1.toRecord = n.toRecord := by
  have e1 : n1.unlinked.toRecord = n.unlinked.toRecord := by rw [hf]
  exact e1

theorem detached_toRecord (n n1 : Neuron α) (hf : n1.detached = n.detached) :
    n1.toRecord = n.toRecord := by
  have e1 : n1.detached.toRecord = n.detached.toRecord := by rw [hf]
  exact e1

theorem unmarshalLayer_records : ∀ (rs : List (Option (NeuronRecord α))) (h : Heap α),
    ∃ x, (unmarshalLayer rs h).1 = h ++ x ∧
      List.Forall₂ (recordAt (h ++ x)) (unmarshalLayer rs h).2 rs := by
  intro rs
  induction rs with
  | nil => intro h; exact ⟨[], by simp [unmarshalLayer], by simp [unmarshalLayer]⟩
  | cons r rs ih =>
    intro h
    cases r with
    | none =>
      obtain ⟨x, hx, hall⟩ := ih h
      exact ⟨x, hx, List.Forall₂.cons rfl hall⟩
    | some rec =>
      obtain ⟨x, hx, hall⟩ := ih (h ++ [rec.toNeuron])
      refine ⟨[rec.toNeuron] ++ x, ?_, ?_⟩
      · simp only [unmarshalLayer, hx, List.append_assoc]
      · rw [← List.append_assoc]
        refine List.Forall₂.cons ?_ hall
        exact ⟨h.length, rec.toNeuron, rfl, deref_append x (deref_append_new h _), rfl⟩

theorem unmarshal_records : ∀ (file : NetRecord α) (h : Heap α),
    ∃ x, (unmarshal file h).1 = h ++ x ∧
      List.Forall₂ (List.Forall₂ (recordAt (h ++ x))) (unmarshal file h).2 file := by
  intro file
  induction file with
  | nil => intro h; exact ⟨[], by simp [unmarshal], by simp [unmarshal]⟩
  | cons rs rss ih =>
    intro h
    obtain ⟨x, hx, hl⟩ := unmarshalLayer_records rs h
    obtain ⟨y, hy, hls⟩ := ih (unmarshalLayer rs h).1
    refine ⟨x ++ y, ?_, ?_⟩
    · show (unmarshal rss (unmarshalLayer rs h).1).1 = h ++ (x ++ y)
      rw [hy, hx, List.append_assoc]
    · rw [← List.append_assoc]
      refine List.Forall₂.cons ?_ ?_
      · exact hl.imp (fun p r hpr => recordAt_append y hpr)
      · rw [← hx]
        exact hls

theorem unmarshalLayer_ptrs : ∀ (rs : List (Option (NeuronRecord α))) (h : Heap α),
    (∀ r ∈ rs, r.isSome = true) →
    (unmarshalLayer rs h).2 = (List.range' h.length rs.length).map some ∧
      (unmarshalLayer rs h).1.length = h.length + rs.length := by
  intro rs
  induction rs with
  | nil => intro h _; simp [unmarshalLayer]
  | cons r rs ih =>
    intro h hall
    cases r with
    | none => have := hall none (List.mem_cons_self _ _); simp at this
    | some rec =>
      obtain ⟨hp, hl⟩ := ih (h ++ [rec.toNeuron]) (fun r hr => hall r (List.mem_cons_of_mem _ hr))
      have hlen1 : (h ++ [rec.toNeuron]).length = h.length + 1 := by simp
      rw [hlen1] at hp hl
      refine ⟨?_, ?_⟩
      · show some h.length :: (unmarshalLayer rs (h ++ [rec.toNeuron])).2 = _
        rw [hp, List.length_cons, List.range'_succ, List.map_cons]
      · show (unmarshalLayer rs (h ++ [rec.toNeuron])).1.length = _
        rw [hl, List.length_cons]
        omega

theorem unmarshal_ptrs : ∀ (file : NetRecord α) (h : Heap α),
    (∀ rs ∈ file, ∀ r ∈ rs, r.isSome = true) →
    (unmarshal file h).2.flatten = (List.range' h.length file.flatten.length).map some ∧
      (unmarshal file h).1.length = h.length + file.flatten.length := by
  intro file
  induction file with
  | nil => intro h _; simp [unmarshal]
  | cons rs rss ih =>
    intro h hall
    obtain ⟨hp, hl⟩ := unmarshalLayer_ptrs rs h (hall rs (List.mem_cons_self _ _))
    obtain ⟨hps, hls⟩ := ih (unmarshalLayer rs h).1
      (fun rs1 hrs1 => hall rs1 (List.mem_cons_of_mem _ hrs1))
    rw [hl] at hps hls
    refine ⟨?_, ?_⟩
    · show (unmarshalLayer rs h).2 ++ (unmarshal rss (unmarshalLayer rs h).1).2.flatten = _
      rw [hp, hps, ← List.map_append, List.range'_append_1, List.flatten_cons,
        List.length_append, Nat.add_comm rss.flatten.length]
    · show (unmarshal rss (unmarshalLayer rs h).1).1.length = _
      rw [hls, List.flatten_cons, List.length_append]
      omega

theorem deref_of_lt {h : Heap α} {a : Nat} (ha : a < h.length) :
    ∃ n, deref h (some a) = .ok n :=
  ⟨h[a], deref_ok_iff.mpr ⟨a, rfl, List.getElem?_eq_getElem ha⟩⟩

theorem marshalLayer_of_records {h : Heap α} : ∀ (ps : List Ptr)
    (rs : List (Option (NeuronRecord α))), List.Forall₂ (recordAt h) ps rs →
    marshalLayer h ps = .ok rs := by
  intro ps rs hall
  induction hall with
  | nil => rfl
  | @cons p r ps rs hpr _ ih =>
    cases r with
    | none =>
      have hp : p = none := hpr
      subst hp
      simp only [marshalLayer, ih]
    | some rec =>
      obtain ⟨a, n, hp, hn, hrec⟩ := hpr
      subst hp
      simp only [marshalLayer, hn, ih, hrec]

theorem marshal_of_records {h : Heap α} : ∀ (ls : List (List Ptr)) (file : NetRecord α),
    List.Forall₂ (List.Forall₂ (recordAt h)) ls file → marshal h ls = .ok file := by
  intro ls file hall
  induction hall with
  | nil => rfl
  | @cons l rs ls rss hl _ ih =>
    simp only [marshal, marshalLayer_of_records l rs hl, ih]

theorem NNetLoad_ok (file : NetRecord α) (h0 : Heap α)
    (hsome : ∀ rs ∈ file.tail, ∀ r ∈ rs, r.isSome = true) :
    ∃ h1, NNetLoad file h0 = .ok (h1, { Layers := (unmarshal file h0).2 }) ∧
      h1.map Neuron.unlinked = (unmarshal file h0).1.map Neuron.unlinked ∧
      linkedLayers h1 (unmarshal file h0).2 := by
  cases file with
  | nil => exact ⟨h0, rfl, rfl, trivial⟩
  | cons rs rss =>
    obtain ⟨hp, hl⟩ := unmarshal_ptrs rss (unmarshalLayer rs h0).1 hsome
    have hnd : (unmarshal rss (unmarshalLayer rs h0).1).2.flatten.Nodup := by
      rw [hp]
      exact (List.nodup_range' _ _).map (Option.some_injective _)
    have hv : ∀ p ∈ (unmarshal rss (unmarshalLayer rs h0).1).2.flatten,
        ∃ n, deref (unmarshal rss (unmarshalLayer rs h0).1).1 p = .ok n := by
      intro p hpm
      rw [hp] at hpm
      obtain ⟨a, ha, rfl⟩ := List.mem_map.mp hpm
      have ha1 := List.mem_range'_1.mp ha
      exact deref_of_lt (by rw [hl]; exact ha1.2)
    obtain ⟨h1, hrun, hmap, hlink, _⟩ :=
      relinkFrom_ok _ (unmarshalLayer rs h0).2 _ hnd hv
    refine ⟨h1, ?_, hmap, hlink⟩
    simp only [NNetLoad, unmarshal, relink, hrun, NNet.setSegments]

theorem NNetLoad_records (file : NetRecord α) (h0 h1 : Heap α)
    (hmap : h1.map Neuron.unlinked = (unmarshal file h0).1.map Neuron.unlinked) :
    List.Forall₂ (List.Forall₂ (recordAt h1)) (unmarshal file h0).2 file := by
  obtain ⟨x, hx, hall⟩ := unmarshal_records file h0
  rw [← hx] at hall
  exact hall.imp (fun l rs hl => hl.imp (fun p r hpr =>
    recordAt_of_map unlinked_toRecord hmap hpr))

/-! ### The round trip through `Save` and `NNetLoad` -/

theorem forall₂_exists_right {β γ : Type} {R : β → γ → Prop} {l1 : List β} {l2 : List γ}
    (hall : List.Forall₂ R l1 l2) : ∀ a ∈ l1, ∃ b ∈ l2, R a b := by
  induction hall with
  | nil => intro a ha; exact absurd ha (List.not_mem_nil a)
  | @cons x y xs ys hxy _ ih =>
    intro a ha
    rcases List.mem_cons.mp ha with rfl | hmem
    · exact ⟨y, List.mem_cons_self _ _, hxy⟩
    · obtain ⟨b, hb, hab⟩ := ih a hmem
      exact ⟨b, List.mem_cons_of_mem _ hb, hab⟩

theorem forall₂_imp_mem {β γ : Type} {R S : β → γ → Prop} {l1 : List β} {l2 : List γ}
    (hall : List.Forall₂ R l1 l2) : (∀ a b, a ∈ l1 → b ∈ l2 → R a b → S a b) →
    List.Forall₂ S l1 l2 := by
  induction hall with
  | nil => intro _; exact List.Forall₂.nil
  | @cons x y xs ys hxy _ ih =>
    intro himp
    exact List.Forall₂.cons (himp x y (List.mem_cons_self _ _) (List.mem_cons_self _ _) hxy)
      (ih (fun a b ha hb => himp a b (List.mem_cons_of_mem _ ha) (List.mem_cons_of_mem _ hb)))

theorem forall₂_join {β γ δ : Type} {R : β → δ → Prop} {S : γ → δ → Prop} :
    ∀ {l1 : List β} {l2 : List γ} {l3 : List δ}, List.Forall₂ R l1 l3 → List.Forall₂ S l2 l3 →
    List.Forall₂ (fun a b => ∃ c, R a c ∧ S b c) l1 l2 := by
  intro l1 l2 l3 h1
  induction h1 generalizing l2 with
  | nil =>
    intro h2
    cases h2
    exact List.Forall₂.nil
  | @cons x z xs zs hxz _ ih =>
    intro h2
    cases h2 with
    | cons hyz hrest => exact List.Forall₂.cons ⟨z, hxz, hyz⟩ (ih hrest)

theorem forall₂_map_eq {β γ δ : Type} {f : β → δ} {g : γ → δ} {l1 : List β} {l2 : List γ}
    (hall : List.Forall₂ (fun a b => f a = g b) l1 l2) : l1.map f = l2.map g := by
  induction hall with
  | nil => rfl
  | cons hxy _ ih => simp only [List.map_cons, hxy, ih]

/-- The document `Save` writes for a network whose neurons are all live. -/
theorem records_exist {h : Heap α} (P : Neuron α → Prop) : ∀ (ls : List (List Ptr)),
    (∀ p ∈ ls.flatten, ∃ n, deref h p = .ok n ∧ P n) →
    ∃ file : NetRecord α, List.Forall₂ (List.Forall₂
      (fun p r => ∃ n, deref h p = .ok n ∧ r = some n.toRecord ∧ P n)) ls file := by
  have hlayer : ∀ (l : List Ptr), (∀ p ∈ l, ∃ n, deref h p = .ok n ∧ P n) →
      ∃ rs : List (Option (NeuronRecord α)), List.Forall₂
        (fun p r => ∃ n, deref h p = .ok n ∧ r = some n.toRecord ∧ P n) l rs := by
    intro l
    induction l with
    | nil => intro _; exact ⟨[], List.Forall₂.nil⟩
    | cons p ps ih =>
      intro hv
      obtain ⟨n, hn, hP⟩ := hv p (List.mem_cons_self _ _)
      obtain ⟨rs, hrs⟩ := ih (fun q hq => hv q (List.mem_cons_of_mem _ hq))
      exact ⟨some n.toRecord :: rs, List.Forall₂.cons ⟨n, hn, rfl, hP⟩ hrs⟩
  intro ls
  induction ls with
  | nil => intro _; exact ⟨[], List.Forall₂.nil⟩
  | cons l ls ih =>
    intro hv
    rw [List.flatten_cons] at hv
    obtain ⟨rs, hrs⟩ := hlayer l (fun p hp => hv p (List.mem_append_left _ hp))
    obtain ⟨file, hfile⟩ := ih (fun p hp => hv p (List.mem_append_right _ hp))
    exact ⟨rs :: file, List.Forall₂.cons hrs hfile⟩

theorem linkedInputs_congr {h h1 : Heap α}
    (hm : h1.map Neuron.detached = h.map Neuron.detached) :
    ∀ (ls : List (List Ptr)) (prev : List Ptr), linkedInputs h prev ls →
    linkedInputs h1 prev ls := by
  intro ls
  induction ls with
  | nil => intro prev _; trivial
  | cons l ls ih =>
    intro prev hli
    refine ⟨?_, ih l hli.2⟩
    intro p hp
    obtain ⟨n, hn, hin⟩ := hli.1 p hp
    rcases deref_map_congr Neuron.detached hm p with ⟨m, m1, hm0, hm1, hfe⟩ | ⟨e, he, _⟩
    · rw [hn] at hm0
      injection hm0 with hm0
      subst hm0
      refine ⟨m1, hm1, ?_⟩
      have e1 : m1.detached.Inputs = n.detached.Inputs := by rw [hfe]
      exact e1.trans hin
    · rw [hn] at he; cases he

theorem Twin_paramAt {f : ActivationFunc α} {h1 h : Heap α} {p1 p : Ptr}
    (ht : Twin f h1 h p1 p) : paramAt h1 p1 = paramAt h p := by
  obtain ⟨n1, n, hn1, hn, hrec, hf1, hf⟩ := ht
  rw [paramAt_of_deref hn1 hf1, paramAt_of_deref hn hf]
  have hb : n1.toRecord.Bias = n.toRecord.Bias := by rw [hrec]
  have hw : n1.toRecord.Weights = n.toRecord.Weights := by rw [hrec]
  have hb1 : n1.Bias = n.Bias := hb
  have hw1 : n1.Weights = n.Weights := hw
  rw [hb1, hw1]

theorem Twin_weights {f : ActivationFunc α} {h1 h : Heap α} {p1 p : Ptr} {n1 n : Neuron α}
    (ht : Twin f h1 h p1 p) (hn1 : deref h1 p1 = .ok n1) (hn : deref h p = .ok n) :
    n1.Weights = n.Weights := by
  obtain ⟨m1, m, hm1, hm, hrec, _, _⟩ := ht
  rw [hn1] at hm1
  rw [hn] at hm
  injection hm1 with hm1
  injection hm with hm
  subst hm1 hm
  have hw : n1.toRecord.Weights = n.toRecord.Weights := by rw [hrec]
  exact hw

theorem linkedFrom_transfer {f : ActivationFunc α} {h1 h : Heap α} :
    ∀ (ks ls : List (List Ptr)), List.Forall₂ (List.Forall₂ (Twin f h1 h)) ks ls →
    ∀ (k0 l0 : List Ptr), k0.length = l0.length → linkedFrom h l0 ls = true →
    linkedInputs h1 k0 ks → linkedFrom h1 k0 ks = true := by
  intro ks ls hall
  induction hall with
  | nil => intro _ _ _ _ _; rfl
  | @cons k l ks ls hkl _ ih =>
    intro k0 l0 hlen hlf hli
    simp only [linkedFrom, Bool.and_eq_true, List.all_eq_true] at hlf ⊢
    refine ⟨?_, ih k l hkl.length_eq hlf.2 hli.2⟩
    intro p1 hp1
    obtain ⟨p, hp, ht⟩ := forall₂_exists_right hkl p1 hp1
    obtain ⟨n1, hn1, hin⟩ := hli.1 p1 hp1
    obtain ⟨m1, n, _, hn, _, _, _⟩ := id ht
    have hw := Twin_weights ht hn1 hn
    have hl := linked_ok (hlf.1 p hp) hn
    simp [linked, hn1, hin, hw, hl.2, hlen]

theorem forall₂_exists_left {β γ : Type} {R : β → γ → Prop} {l1 : List β} {l2 : List γ}
    (hall : List.Forall₂ R l1 l2) : ∀ b ∈ l2, ∃ a ∈ l1, R a b := by
  induction hall with
  | nil => intro b hb; exact absurd hb (List.not_mem_nil b)
  | @cons x y xs ys hxy _ ih =>
    intro b hb
    rcases List.mem_cons.mp hb with rfl | hmem
    · exact ⟨x, List.mem_cons_self _ _, hxy⟩
    · obtain ⟨a, ha, hab⟩ := ih b hmem
      exact ⟨a, List.mem_cons_of_mem _ ha, hab⟩

theorem layersLinked_transfer {f : ActivationFunc α} {h1 h : Heap α} :
    ∀ (ks ls : List (List Ptr)), List.Forall₂ (List.Forall₂ (Twin f h1 h)) ks ls →
    layersLinked h ls = true → linkedLayers h1 ks → layersLinked h1 ks = true := by
  intro ks ls htwin hlinked hli
  cases htwin with
  | nil => rfl
  | @cons k0 l0 ks ls hk0 hks =>
    simp only [layersLinked, Bool.and_eq_true, List.all_eq_true] at hlinked ⊢
    refine ⟨?_, linkedFrom_transfer ks ls hks k0 l0 hk0.length_eq hlinked.2 hli⟩
    intro p1 hp1
    obtain ⟨p, hp, ht⟩ := forall₂_exists_right hk0 p1 hp1
    obtain ⟨n1, n, hn1, hn, _, _, _⟩ := id ht
    have hw := Twin_weights ht hn1 hn
    have hpos := hasWeight_ok (hlinked.1 p hp) hn
    simp [hasWeight, hn1, hw, hpos]

/-- Saving a well-formed network with `f` attached, loading the document and
attaching `f` again gives a well-formed network with the same parameters. -/
theorem roundtrip_core (net : NNet) (h h0 : Heap α) (f : ActivationFunc α)
    (hwf : WellFormed h net)
    (hact : ∀ p ∈ net.Layers.flatten, ∃ n, deref h p = .ok n ∧ n.Activation = some f) :
    ∃ file h1 net1 h2, net.Save h = .ok file ∧ NNetLoad file h0 = .ok (h1, net1) ∧
      net1.SetActivation (some f) h1 = .ok h2 ∧ WellFormed h2 net1 ∧
      net1.params h2 = net.params h := by
  obtain ⟨file, hR0⟩ := records_exist (fun n => n.Activation = some f) net.Layers hact
  have hR0a : List.Forall₂ (List.Forall₂ (recordAt h)) net.Layers file :=
    hR0.imp (fun l rs hl => hl.imp (fun p r hpr => by
      obtain ⟨n, hn, hr, _⟩ := hpr
      obtain ⟨a, hp, _⟩ := deref_ok_iff.mp hn
      rw [hr]
      exact ⟨a, n, hp, hn, rfl⟩))
  have hsave : net.Save h = .ok file := marshal_of_records _ _ hR0a
  have hall : ∀ rs ∈ file, ∀ r ∈ rs, r.isSome = true := by
    intro rs hrs r hr
    obtain ⟨l, _, hl⟩ := forall₂_exists_left hR0 rs hrs
    obtain ⟨p, _, n, _, hrn, _⟩ := forall₂_exists_left hl r hr
    rw [hrn]; rfl
  obtain ⟨h1, hload, hmap, hlink⟩ :=
    NNetLoad_ok file h0 (fun rs hrs => hall rs (List.mem_of_mem_tail hrs))
  have hR1 := NNetLoad_records file h0 h1 hmap
  obtain ⟨hptrs, hlen⟩ := unmarshal_ptrs file h0 hall
  have hlen1 : h1.length = h0.length + file.flatten.length := by
    have e1 := congrArg List.length hmap
    simp only [List.length_map] at e1
    rw [e1]; exact hlen
  have hnd : (unmarshal file h0).2.flatten.Nodup := by
    rw [hptrs]
    exact (List.nodup_range' _ _).map (Option.some_injective _)
  have hv : ∀ p ∈ (unmarshal file h0).2.flatten, ∃ n, deref h1 p = .ok n := by
    intro p hpm
    rw [hptrs] at hpm
    obtain ⟨a, ha, rfl⟩ := List.mem_map.mp hpm
    have ha1 := List.mem_range'_1.mp ha
    exact deref_of_lt (by rw [hlen1]; exact ha1.2)
  obtain ⟨h2, hset, hin, _⟩ := forLayers_ok (fun n : Neuron α => { n with Activation := some f })
    (fun _ => rfl) (unmarshal file h0).2 h1 hv
  have hdet : h2.map Neuron.detached = h1.map Neuron.detached :=
    forLayers_map Neuron.detached (g := fun n : Neuron α => { n with Activation := some f })
      (fun _ => rfl) _ _ _ hset
  have htwin : List.Forall₂ (List.Forall₂ (Twin f h2 h)) (unmarshal file h0).2 net.Layers := by
    refine forall₂_imp_mem (forall₂_join hR1 hR0) ?_
    intro k l hk _ hkl
    obtain ⟨rs, hk1, hl0⟩ := hkl
    refine forall₂_imp_mem (forall₂_join hk1 hl0) ?_
    intro p1 p hp1 _ hpp
    obtain ⟨r, hr1, n, hn, hrn, hfn⟩ := hpp
    rw [hrn] at hr1
    obtain ⟨a, n1, _, hn1, hrec⟩ := hr1
    have hmem : p1 ∈ (unmarshal file h0).2.flatten := List.mem_flatten.mpr ⟨k, hk, hp1⟩
    exact ⟨_, n, hin p1 n1 hmem hn1, hn, hrec, rfl, hfn⟩
  refine ⟨file, h1, _, h2, hsave, hload, hset, ⟨hnd, ?_, ?_⟩, ?_⟩
  · rw [List.all_eq_true]
    intro p hp
    obtain ⟨n, hn⟩ := hv p hp
    simp [attached, hin p n hp hn]
  · have hli2 : linkedLayers h2 (unmarshal file h0).2 := by
      cases hU : (unmarshal file h0).2 with
      | nil => trivial
      | cons k0 ks =>
        rw [hU] at hlink
        exact linkedInputs_congr hdet ks k0 hlink
    exact layersLinked_transfer _ _ htwin hwf.2.2 hli2
  · simp only [NNet.params]
    refine forall₂_map_eq (htwin.imp ?_)
    intro k l hkl
    exact forall₂_map_eq (hkl.imp (fun p1 p ht => Twin_paramAt ht))

/-! ### The training loop -/

theorem trainIteration_ok {net : NNet} {dataset : List (Dataset α)} {h : Heap α}
    {r : Heap α × α × Option SizeError} (hr : net.trainIteration dataset h = .ok r) :
    ∃ q, trainLoop net dataset 0 h = .ok q ∧ r = (q.1, q.2 / (dataset.length : α), none) := by
  unfold NNet.trainIteration at hr
  cases hq : trainLoop net dataset 0 h with
  | error e => rw [hq] at hr; cases hr
  | ok q =>
    rw [hq] at hr
    injection hr with hr
    exact ⟨q, rfl, hr.symm⟩

theorem Train_run {σ : Type} (net : NNet) (dataset : List (Dataset α)) (cb : σ → α → Bool × σ) :
    ∀ (m : Nat) (s : σ) (h hn : Heap α) (losses : List α) (fuel : Nat) (calls : List (α × Bool)),
    m + 1 ≤ fuel → runEpochs net dataset (m + 1) h = .ok (hn, losses) →
    (cbAnswers cb s losses).1 = List.replicate m true ++ [false] →
    net.Train dataset cb fuel s calls h =
      .ok (some { heap := hn, cbState := (cbAnswers cb s losses).2,
                  calls := calls ++ losses.zip (List.replicate m true ++ [false]),
                  err := none }) := by
  intro m
  induction m with
  | zero =>
    intro s h hn losses fuel calls hfuel hep hcb
    obtain ⟨fuel, rfl⟩ : ∃ f, fuel = f + 1 := ⟨fuel - 1, by omega⟩
    simp only [runEpochs] at hep
    cases hr : net.trainIteration dataset h with
    | error e => rw [hr] at hep; cases hep
    | ok r =>
      rw [hr] at hep
      obtain ⟨q, _, rfl⟩ := trainIteration_ok hr
      simp only [Except.ok.injEq, Prod.mk.injEq] at hep
      obtain ⟨rfl, rfl⟩ := hep
      simp only [cbAnswers, List.replicate_zero, List.nil_append, List.cons.injEq,
        and_true] at hcb
      simp [NNet.Train, hr, hcb, cbAnswers]
  | succ m ih =>
    intro s h hn losses fuel calls hfuel hep hcb
    obtain ⟨fuel, rfl⟩ : ∃ f, fuel = f + 1 := ⟨fuel - 1, by omega⟩
    rw [runEpochs] at hep
    cases hr : net.trainIteration dataset h with
    | error e => rw [hr] at hep; cases hep
    | ok r =>
      rw [hr] at hep
      obtain ⟨q, _, rfl⟩ := trainIteration_ok hr
      cases hrest : runEpochs net dataset (m + 1) q.1 with
      | error e => simp [hrest] at hep
      | ok rest =>
        simp only [hrest, Except.ok.injEq, Prod.mk.injEq] at hep
        obtain ⟨rfl, rfl⟩ := hep
        simp only [cbAnswers, List.replicate_succ, List.cons_append, List.cons.injEq] at hcb
        obtain ⟨hfirst, hcb1⟩ := hcb
        have hstep := ih (cb s (q.2 / (dataset.length : α))).2 q.1 rest.1 rest.2 fuel
          (calls ++ [(q.2 / (dataset.length : α), true)]) (by omega)
          (by rw [hrest]) hcb1
        simp only [NNet.Train, hr, hfirst, if_true]
        rw [hstep]
        simp [cbAnswers, List.replicate_succ]

/-! ### Values at construction, liveness -/

theorem freshFrom_all (f : ActivationFunc α) (rnd : Nat → α) (h : Heap α) :
    ∀ (ls : List (List Ptr)) (i : Nat) (prev : List Ptr), freshFrom f rnd h i prev ls →
    ∀ p ∈ ls.flatten, ∃ n, deref h p = .ok n ∧
      (n = freshInput f ∨ ∃ c pre, n = freshLater f rnd c pre) := by
  intro ls
  induction ls with
  | nil => intro i prev _ p hp; simp at hp
  | cons l ls ih =>
    intro i prev hfr p hp
    rw [List.flatten_cons] at hp
    rcases List.mem_append.mp hp with hl | hrest
    · obtain ⟨n, hn, hfresh⟩ := hfr.1 p hl
      refine ⟨n, hn, ?_⟩
      unfold isFresh at hfresh
      by_cases hi : i = 0
      · left; simpa [hi] using hfresh
      · right
        rw [if_neg hi] at hfresh
        obtain ⟨c, hc⟩ := hfresh
        exact ⟨c, prev, hc⟩
    · exact ih (i + 1) l hfr.2 p hrest

theorem live_iff {h : Heap α} {p : Ptr} :
    (∃ n, deref h p = .ok n) ↔ ∃ a, p = some a ∧ a < h.length := by
  constructor
  · rintro ⟨n, hn⟩
    obtain ⟨a, hp, ha⟩ := deref_ok_iff.mp hn
    exact ⟨a, hp, (List.getElem?_eq_some.mp ha).1⟩
  · rintro ⟨a, rfl, ha⟩
    exact deref_of_lt ha

theorem live_of_length {h h1 : Heap α} (hlen : h1.length = h.length) {p : Ptr} :
    (∃ n, deref h1 p = .ok n) ↔ ∃ n, deref h p = .ok n := by
  rw [live_iff, live_iff, hlen]

theorem length_of_map {β : Type} (f : Neuron α → β) {h h1 : Heap α}
    (hm : h1.map f = h.map f) : h1.length = h.length := by
  have e := congrArg List.length hm
  simpa using e

theorem forNeurons_live {g : Neuron α → Neuron α} : ∀ (l : List Ptr) (h h1 : Heap α),
    forNeurons g l h = .ok h1 → ∀ p ∈ l, ∃ n, deref h p = .ok n := by
  intro l
  induction l with
  | nil => intro h h1 _ p hp; exact absurd hp (List.not_mem_nil p)
  | cons q qs ih =>
    intro h h1 hr p hp
    simp only [forNeurons] at hr
    cases hn : deref h q with
    | error e => rw [hn] at hr; cases hr
    | ok n =>
      rw [hn] at hr
      rcases List.mem_cons.mp hp with rfl | hmem
      · exact ⟨n, hn⟩
      · have hlive := ih _ _ hr p hmem
        have hlen : (store h q (g n)).length = h.length := by
          cases q with
          | none => rfl
          | some a => simp [store]
        exact (live_of_length hlen).mp hlive

theorem forLayers_live {g : Neuron α → Neuron α} : ∀ (ls : List (List Ptr)) (h h1 : Heap α),
    forLayers g ls h = .ok h1 → ∀ p ∈ ls.flatten, ∃ n, deref h p = .ok n := by
  intro ls
  induction ls with
  | nil => intro h h1 _ p hp; simp at hp
  | cons l ls ih =>
    intro h h1 hr p hp
    simp only [forLayers] at hr
    cases hl : forNeurons g l h with
    | error e => rw [hl] at hr; cases hr
    | ok h2 =>
      rw [hl] at hr
      rw [List.flatten_cons] at hp
      rcases List.mem_append.mp hp with hpl | hrest
      · exact forNeurons_live l h h2 hl p hpl
      · have hlive := ih _ _ hr p hrest
        have hlen : h2.length = h.length :=
          length_of_map (fun _ => ()) (forNeurons_map (fun _ => ()) (g := g) (fun _ => rfl) l h h2 hl)
        exact (live_of_length hlen).mp hlive

/-! ### What `Save` reads -/

theorem sameRecord_records {h h1 : Heap α} : ∀ (l l1 : List Ptr),
    List.Forall₂ (sameRecord h h1) l l1 →
    ∃ rs, List.Forall₂ (recordAt h) l rs ∧ List.Forall₂ (recordAt h1) l1 rs := by
  intro l l1 hall
  induction hall with
  | nil => exact ⟨[], List.Forall₂.nil, List.Forall₂.nil⟩
  | @cons p p1 ps ps1 hpp _ ih =>
    obtain ⟨rs, hrs, hrs1⟩ := ih
    cases p with
    | none =>
      cases p1 with
      | none => exact ⟨none :: rs, List.Forall₂.cons rfl hrs, List.Forall₂.cons rfl hrs1⟩
      | some b => exact absurd hpp (by simp [sameRecord])
    | some a =>
      cases p1 with
      | none => exact absurd hpp (by simp [sameRecord])
      | some b =>
        obtain ⟨n, n1, hn, hn1, hB, hW, hD, hL, hM, hA⟩ := hpp
        refine ⟨some n.toRecord :: rs, List.Forall₂.cons ?_ hrs, List.Forall₂.cons ?_ hrs1⟩
        · exact ⟨a, n, rfl, deref_ok_iff.mpr ⟨a, rfl, hn⟩, rfl⟩
        · refine ⟨b, n1, rfl, deref_ok_iff.mpr ⟨b, rfl, hn1⟩, ?_⟩
          simp [Neuron.toRecord, hB, hW, hD, hL, hM, hA]

theorem sameRecord_file {h h1 : Heap α} : ∀ (ls ls1 : List (List Ptr)),
    List.Forall₂ (List.Forall₂ (sameRecord h h1)) ls ls1 →
    ∃ file : NetRecord α, List.Forall₂ (List.Forall₂ (recordAt h)) ls file ∧
      List.Forall₂ (List.Forall₂ (recordAt h1)) ls1 file := by
  intro ls ls1 hall
  induction hall with
  | nil => exact ⟨[], List.Forall₂.nil, List.Forall₂.nil⟩
  | @cons l l1 ls ls1 hl _ ih =>
    obtain ⟨file, hf, hf1⟩ := ih
    obtain ⟨rs, hrs, hrs1⟩ := sameRecord_records l l1 hl
    exact ⟨rs :: file, List.Forall₂.cons hrs hf, List.Forall₂.cons hrs1 hf1⟩

/-! ### Views of the heap that the forward and backward passes keep -/

theorem Stable_shape : Stable (Neuron.shape (α := α)) :=
  { setIn := fun _ _ => rfl, setOut := fun _ _ => rfl, setError := fun _ _ => rfl,
    setDeltaW := fun n k x => by simp [Neuron.shape],
    setWeights := fun n k x => by simp [Neuron.shape] }

theorem Stable_rigid : Stable (Neuron.rigid (α := α)) :=
  { setIn := fun _ _ => rfl, setOut := fun _ _ => rfl, setError := fun _ _ => rfl,
    setDeltaW := fun n k x => by simp [Neuron.rigid],
    setWeights := fun n k x => by simp [Neuron.rigid] }

theorem updateError_map {β : Type} {f : Neuron α → β} (hf : Stable f) {p : Ptr} {k : Nat}
    {h h1 : Heap α} (hr : updateError p k h = .ok h1) : h1.map f = h.map f := by
  unfold updateError at hr
  simp only [bind, Except.bind, pure, Except.pure] at hr
  cases hn : deref h p with
  | error e => simp [hn] at hr
  | ok n =>
    simp only [hn] at hr
    cases hq : index n.Inputs k with
    | error e => simp [hq] at hr
    | ok q =>
      simp only [hq] at hr
      cases hm : deref h q with
      | error e => simp [hm] at hr
      | ok m =>
        simp only [hm] at hr
        cases hfa : activation n with
        | error e => simp [hfa] at hr
        | ok fa =>
          simp only [hfa] at hr
          cases hw : index n.Weights k with
          | error e => simp [hw] at hr
          | ok w =>
            simp only [hw, Except.ok.injEq] at hr
            rw [← hr]
            exact map_store f hm (hf.setError _ _)

theorem updateDeltaW_map {β : Type} {f : Neuron α → β} (hf : Stable f) {p : Ptr} {k : Nat}
    {h h1 : Heap α} (hr : updateDeltaW p k h = .ok h1) : h1.map f = h.map f := by
  unfold updateDeltaW at hr
  simp only [bind, Except.bind, pure, Except.pure] at hr
  cases hn : deref h p with
  | error e => simp [hn] at hr
  | ok n =>
    simp only [hn] at hr
    cases hq : index n.Inputs k with
    | error e => simp [hq] at hr
    | ok q =>
      simp only [hq] at hr
      cases hm : deref h q with
      | error e => simp [hm] at hr
      | ok m =>
        simp only [hm] at hr
        cases hd : index n.DeltaW k with
        | error e => simp [hd] at hr
        | ok d =>
          simp only [hd, Except.ok.injEq] at hr
          rw [← hr]
          exact map_store f hn (hf.setDeltaW _ _ _)

theorem updateWeight_map {β : Type} {f : Neuron α → β} (hf : Stable f) {p : Ptr} {k : Nat}
    {h h1 : Heap α} (hr : updateWeight p k h = .ok h1) : h1.map f = h.map f := by
  unfold updateWeight at hr
  simp only [bind, Except.bind, pure, Except.pure] at hr
  cases hn : deref h p with
  | error e => simp [hn] at hr
  | ok n =>
    simp only [hn] at hr
    cases hw : index n.Weights k with
    | error e => simp [hw] at hr
    | ok w =>
      simp only [hw] at hr
      cases hd : index n.DeltaW k with
      | error e => simp [hd] at hr
      | ok d =>
        simp only [hd, Except.ok.injEq] at hr
        rw [← hr]
        exact map_store f hn (hf.setWeights _ _ _)

theorem updateSynapse_map {β : Type} {f : Neuron α → β} (hf : Stable f) {p : Ptr} {k : Nat}
    {h h1 : Heap α} (hr : updateSynapse p k h = .ok h1) : h1.map f = h.map f := by
  unfold updateSynapse at hr
  simp only [bind, Except.bind] at hr
  cases h1e : updateError p k h with
  | error e => simp [h1e] at hr
  | ok ha =>
    simp only [h1e] at hr
    cases h2e : updateDeltaW p k ha with
    | error e => simp [h2e] at hr
    | ok hb =>
      simp only [h2e] at hr
      rw [updateWeight_map hf hr, updateDeltaW_map hf h2e, updateError_map hf h1e]

theorem update_map {β : Type} {f : Neuron α → β} (hf : Stable f) {p : Ptr} {h h1 : Heap α}
    (hr : update p h = .ok h1) : h1.map f = h.map f := by
  unfold update at hr
  cases hn : deref h p with
  | error e => simp [hn] at hr
  | ok n =>
    simp only [hn] at hr
    exact forRange_preserves (fun s => s.map f = h.map f)
      (fun k s s1 hb hP => (updateSynapse_map hf hb).trans hP) _ _ _ _ hr rfl

theorem propagateLoop_map {β : Type} {f : Neuron α → β} (hf : Stable f) :
    ∀ (l : List Ptr) (h h1 : Heap α), propagateLoop l h = .ok h1 → h1.map f = h.map f := by
  intro l
  induction l with
  | nil =>
    intro h h1 hr
    simp only [propagateLoop, Except.ok.injEq] at hr
    rw [hr]
  | cons p ps ih =>
    intro h h1 hr
    simp only [propagateLoop] at hr
    cases hu : update p h with
    | error e => rw [hu] at hr; cases hr
    | ok h2 =>
      rw [hu] at hr
      rw [ih _ _ hr, update_map hf hu]

theorem propagateErrors_map {β : Type} {f : Neuron α → β} (hf : Stable f) {net : NNet}
    {i : Nat} {h h1 : Heap α} (hr : net.propagateErrors i h = .ok h1) :
    h1.map f = h.map f := by
  unfold NNet.propagateErrors at hr
  simp only [bind, Except.bind] at hr
  cases hl : index net.Layers i with
  | error e => simp [hl] at hr
  | ok layer =>
    simp only [hl] at hr
    exact propagateLoop_map hf _ _ _ hr

theorem computeOutputLoop_map {β : Type} {f : Neuron α → β} (hf : Stable f)
    {label : List α} : ∀ (l : List Ptr) (j : Nat) (acc : α) (h : Heap α) (r : Heap α × α),
    computeOutputLoop label j l acc h = .ok r → r.1.map f = h.map f := by
  intro l
  induction l with
  | nil =>
    intro j acc h r hr
    simp only [computeOutputLoop, Except.ok.injEq] at hr
    rw [← hr]
  | cons p ps ih =>
    intro j acc h r hr
    simp only [computeOutputLoop, bind, Except.bind] at hr
    cases hy : index label j with
    | error e => simp [hy] at hr
    | ok y =>
      simp only [hy] at hr
      cases hn : deref h p with
      | error e => simp [hn] at hr
      | ok n =>
        simp only [hn] at hr
        cases hfa : activation n with
        | error e => simp [hfa] at hr
        | ok fa =>
          simp only [hfa] at hr
          cases hu : update p (store h p { n with Error := fa.Prime n.In * (y - n.Out) }) with
          | error e => simp [hu] at hr
          | ok h2 =>
            simp only [hu] at hr
            rw [ih _ _ _ _ hr, update_map hf hu]
            exact map_store f hn (hf.setError _ _)

theorem computeOutputLayer_map {β : Type} {f : Neuron α → β} (hf : Stable f) {net : NNet}
    {label : List α} {h : Heap α} {r : Heap α × α}
    (hr : net.computeOutputLayer label h = .ok r) : r.1.map f = h.map f := by
  unfold NNet.computeOutputLayer at hr
  simp only [bind, Except.bind] at hr
  cases hl : index net.Layers (net.Layers.length - 1) with
  | error e => simp [hl] at hr
  | ok layer =>
    simp only [hl] at hr
    exact computeOutputLoop_map hf _ _ _ _ _ hr

theorem feedForwardSynapse_map {β : Type} {f : Neuron α → β} (hf : Stable f) {p : Ptr}
    {k : Nat} {h h1 : Heap α} (hr : feedForwardSynapse p k h = .ok h1) :
    h1.map f = h.map f := by
  unfold feedForwardSynapse at hr
  simp only [bind, Except.bind, pure, Except.pure] at hr
  cases hn : deref h p with
  | error e => simp [hn] at hr
  | ok n =>
    simp only [hn] at hr
    cases hw : index n.Weights k with
    | error e => simp [hw] at hr
    | ok w =>
      simp only [hw] at hr
      cases hq : index n.Inputs k with
      | error e => simp [hq] at hr
      | ok q =>
        simp only [hq] at hr
        cases hm : deref h q with
        | error e => simp [hm] at hr
        | ok m =>
          simp only [hm, Except.ok.injEq] at hr
          rw [← hr]
          exact map_store f hn (hf.setIn _ _)

theorem finishNeuron_map {β : Type} {f : Neuron α → β} (hf : Stable f) {p : Ptr}
    {h0 h2 h1 : Heap α} (hm2 : h2.map f = h0.map f)
    (hr2 : (deref h2 p >>= fun n2 => activation n2 >>= fun fa =>
      pure (store h2 p { n2 with Out := fa.Activate n2.In })) = Except.ok h1) :
    h1.map f = h0.map f := by
  simp only [bind, Except.bind, pure, Except.pure] at hr2
  cases hn2 : deref h2 p with
  | error e => simp [hn2] at hr2
  | ok n2 =>
    simp only [hn2] at hr2
    cases hfa : activation n2 with
    | error e => simp [hfa] at hr2
    | ok fa =>
      simp only [hfa, Except.ok.injEq] at hr2
      rw [← hr2]
      exact (map_store f hn2 (hf.setOut _ _)).trans hm2

theorem feedForwardNeuron_map {β : Type} {f : Neuron α → β} (hf : Stable f)
    {input : List α} {i j : Nat} {p : Ptr} {h h1 : Heap α}
    (hr : feedForwardNeuron input i j p h = .ok h1) : h1.map f = h.map f := by
  unfold feedForwardNeuron at hr
  simp only [bind, Except.bind, pure, Except.pure] at hr
  cases hn : deref h p with
  | error e => simp [hn] at hr
  | ok n =>
    simp only [hn] at hr
    have hs1 : (store h p { n with In := -n.Bias }).map f = h.map f :=
      map_store f hn (hf.setIn _ _)
    by_cases hi : 0 < i
    · simp only [if_pos hi] at hr
      cases hloop : forRange (feedForwardSynapse p) 0 n.Weights.length
          (store h p { n with In := -n.Bias }) with
      | error e => simp [hloop] at hr
      | ok h2 =>
        simp only [hloop] at hr
        have hm2 : h2.map f = h.map f :=
          forRange_preserves (fun s => s.map f = h.map f)
            (fun k s s1 hb hP => (feedForwardSynapse_map hf hb).trans hP) _ _ _ _ hloop hs1
        exact finishNeuron_map hf hm2
          (by simpa only [bind, Except.bind, pure, Except.pure] using hr)
    · simp only [if_neg hi] at hr
      cases hn1 : deref (store h p { n with In := -n.Bias }) p with
      | error e => simp [hn1] at hr
      | ok n1 =>
        simp only [hn1] at hr
        cases hw : index n1.Weights 0 with
        | error e => simp [hw] at hr
        | ok w =>
          simp only [hw] at hr
          cases hx : index input j with
          | error e => simp [hx] at hr
          | ok x =>
            simp only [hx] at hr
            exact finishNeuron_map hf ((map_store f hn1 (hf.setIn _ (n1.In + w * x))).trans hs1)
              (by simpa only [bind, Except.bind, pure, Except.pure] using hr)

theorem feedForwardLayer_map {β : Type} {f : Neuron α → β} (hf : Stable f)
    {input : List α} {i : Nat} : ∀ (l : List Ptr) (j : Nat) (h h1 : Heap α),
    feedForwardLayer input i j l h = .ok h1 → h1.map f = h.map f := by
  intro l
  induction l with
  | nil =>
    intro j h h1 hr
    simp only [feedForwardLayer, Except.ok.injEq] at hr
    rw [hr]
  | cons p ps ih =>
    intro j h h1 hr
    simp only [feedForwardLayer] at hr
    cases hu : feedForwardNeuron input i j p h with
    | error e => rw [hu] at hr; cases hr
    | ok h2 =>
      rw [hu] at hr
      rw [ih _ _ _ hr, feedForwardNeuron_map hf hu]

theorem feedForwardFrom_map {β : Type} {f : Neuron α → β} (hf : Stable f)
    {input : List α} : ∀ (ls : List (List Ptr)) (i : Nat) (h h1 : Heap α),
    feedForwardFrom input i ls h = .ok h1 → h1.map f = h.map f := by
  intro ls
  induction ls with
  | nil =>
    intro i h h1 hr
    simp only [feedForwardFrom, Except.ok.injEq] at hr
    rw [hr]
  | cons l ls ih =>
    intro i h h1 hr
    simp only [feedForwardFrom] at hr
    cases hu : feedForwardLayer input i 0 l h with
    | error e => rw [hu] at hr; cases hr
    | ok h2 =>
      rw [hu] at hr
      rw [ih _ _ _ hr, feedForwardLayer_map hf _ _ _ _ hu]

theorem feedForward_map {β : Type} {f : Neuron α → β} (hf : Stable f) {net : NNet}
    {input : List α} {h h1 : Heap α} (hr : net.feedForward input h = .ok h1) :
    h1.map f = h.map f :=
  feedForwardFrom_map hf _ _ _ _ hr

theorem ComputeOutput_map {β : Type} {f : Neuron α → β} (hf : Stable f) {net : NNet}
    {input : List α} {h : Heap α} {r : Heap α × Except SizeError (List α)}
    (hr : net.ComputeOutput input h = .ok r) : r.1.map f = h.map f := by
  unfold NNet.ComputeOutput at hr
  simp only [bind, Except.bind, pure, Except.pure] at hr
  cases hl0 : index net.Layers 0 with
  | error e => simp [hl0] at hr
  | ok l0 =>
    simp only [hl0] at hr
    by_cases hlen : l0.length ≠ input.length
    · simp only [if_pos hlen, Except.ok.injEq] at hr
      rw [← hr]
    · simp only [if_neg hlen] at hr
      cases hff : net.feedForward input h with
      | error e => simp [hff] at hr
      | ok h2 =>
        simp only [hff] at hr
        cases hlast : index net.Layers (net.Layers.length - 1) with
        | error e => simp [hlast] at hr
        | ok last =>
          simp only [hlast] at hr
          cases hc : copyOut h2 last with
          | error e => simp [hc] at hr
          | ok ret =>
            simp only [hc, Except.ok.injEq] at hr
            rw [← hr]
            exact feedForward_map hf hff

/-! ### The shape invariant -/

theorem shaped_congr {h h1 : Heap α} (hm : h1.map Neuron.shape = h.map Neuron.shape)
    (prev : List Ptr) (p : Ptr) : shaped h1 prev p = shaped h prev p := by
  rcases deref_map_congr Neuron.shape hm p with ⟨n, n1, hn, hn1, hf⟩ | ⟨e, he, he1⟩
  · have hW : n1.Weights.length = n.Weights.length := congrArg (fun x => x.1) hf
    have hD : n1.DeltaW.length = n.DeltaW.length := congrArg (fun x => x.2.1) hf
    have hI : n1.Inputs.length = n.Inputs.length := congrArg (fun x => x.2.2) hf
    simp [shaped, hn, hn1, hW, hD, hI]
  · simp [shaped, he, he1]

theorem shapedFrom_congr {h h1 : Heap α} (hm : h1.map Neuron.shape = h.map Neuron.shape) :
    ∀ (ls : List (List Ptr)) (prev : List Ptr), shapedFrom h1 prev ls = shapedFrom h prev ls := by
  intro ls
  induction ls with
  | nil => intro prev; rfl
  | cons l ls ih =>
    intro prev
    have hfun : shaped h1 prev = shaped h prev := funext (shaped_congr hm prev)
    simp only [shapedFrom, ih l, hfun]

theorem Shape_congr {h h1 : Heap α} (hm : h1.map Neuron.shape = h.map Neuron.shape)
    {net : NNet} (hs : Shape h net) : Shape h1 net := by
  unfold Shape at hs ⊢
  cases hL : net.Layers with
  | nil => rfl
  | cons l0 ls =>
    rw [hL] at hs
    simp only [shapeOK] at hs ⊢
    rw [shapedFrom_congr hm]
    exact hs

theorem freshFrom_shapedFrom (f : ActivationFunc α) (rnd : Nat → α) (h : Heap α) :
    ∀ (ls : List (List Ptr)) (i : Nat) (prev : List Ptr), i ≠ 0 →
    freshFrom f rnd h i prev ls → shapedFrom h prev ls = true := by
  intro ls
  induction ls with
  | nil => intro i prev _ _; rfl
  | cons l ls ih =>
    intro i prev hi hfr
    simp only [shapedFrom, Bool.and_eq_true, List.all_eq_true]
    refine ⟨?_, ih (i + 1) l (Nat.succ_ne_zero i) hfr.2⟩
    intro p hp
    obtain ⟨n, hn, hfresh⟩ := hfr.1 p hp
    unfold isFresh at hfresh
    rw [if_neg hi] at hfresh
    obtain ⟨c, rfl⟩ := hfresh
    simp [shaped, hn, freshLater, drawWeights]

theorem NewNNet_Shape (layers : List Int) (f : ActivationFunc α) (rnd : Nat → α) (h0 : Heap α)
    (hpos : ∀ size ∈ layers, 0 ≤ size) :
    ∃ h net, NewNNet layers (some f) rnd h0 = .ok (h, net) ∧ Shape h net := by
  obtain ⟨x, net, hrun, _, hfr⟩ := NewNNet_ok layers f rnd h0 hpos
  refine ⟨h0 ++ x, net, hrun, ?_⟩
  unfold Shape
  cases hL : net.Layers with
  | nil => rfl
  | cons l0 ls =>
    rw [hL] at hfr
    exact freshFrom_shapedFrom f rnd _ ls 1 l0 Nat.one_ne_zero hfr.2

/-! ### One round of `update` -/

theorem bumpedBy_Out (f : ActivationFunc α) (e w : α) (m : Neuron α) :
    (bumpedBy f e w m).Out = m.Out := rfl

theorem updateSynapse_step {p q : Ptr} {s : Nat} {h : Heap α} {n m : Neuron α}
    {f : ActivationFunc α} (hn : deref h p = .ok n) (hf : n.Activation = some f)
    (hsI : s < n.Inputs.length) (hsW : s < n.Weights.length) (hsD : s < n.DeltaW.length)
    (hq : n.Inputs[s] = q) (hqp : q ≠ p) (hm : deref h q = .ok m) :
    updateSynapse p s h =
      .ok (store (store h q (bumpedBy f n.Error n.Weights[s] m)) p
        { n with DeltaW := n.DeltaW.set s (n.Error * m.Out + n.Momentum * n.DeltaW[s]), Weights := n.Weights.set s (n.Weights[s] + (n.Error * m.Out + n.Momentum * n.DeltaW[s])) }) := by
  have hpq : p ≠ q := fun e => hqp e.symm
  have hIdx : index n.Inputs s = .ok q := by rw [index_ok_of_lt hsI, hq]
  have hact : activation n = .ok f := by simp [activation, hf]
  have h1 : updateError p s h = .ok (store h q (bumpedBy f n.Error n.Weights[s] m)) := by
    simp [updateError, bind, Except.bind, pure, Except.pure, hn, hIdx, hm, hact,
      index_ok_of_lt hsW, bumpedBy]
  have hn1 : deref (store h q (bumpedBy f n.Error n.Weights[s] m)) p = .ok n := by
    rw [deref_store_ne _ hpq]; exact hn
  have hm1 : deref (store h q (bumpedBy f n.Error n.Weights[s] m)) q =
      .ok (bumpedBy f n.Error n.Weights[s] m) := deref_store_self hm
  have h2 : updateDeltaW p s (store h q (bumpedBy f n.Error n.Weights[s] m)) =
      .ok (store (store h q (bumpedBy f n.Error n.Weights[s] m)) p
        { n with DeltaW := n.DeltaW.set s (n.Error * m.Out + n.Momentum * n.DeltaW[s]) }) := by
    simp [updateDeltaW, bind, Except.bind, pure, Except.pure, hn1, hIdx, hm1,
      index_ok_of_lt hsD, bumpedBy_Out]
  have hn2 : deref (store (store h q (bumpedBy f n.Error n.Weights[s] m)) p
      { n with DeltaW := n.DeltaW.set s (n.Error * m.Out + n.Momentum * n.DeltaW[s]) }) p =
      .ok { n with DeltaW := n.DeltaW.set s (n.Error * m.Out + n.Momentum * n.DeltaW[s]) } :=
    deref_store_self hn1
  have hsD2 : s < (n.DeltaW.set s (n.Error * m.Out + n.Momentum * n.DeltaW[s])).length := by
    simpa using hsD
  have h3 : updateWeight p s (store (store h q (bumpedBy f n.Error n.Weights[s] m)) p
      { n with DeltaW := n.DeltaW.set s (n.Error * m.Out + n.Momentum * n.DeltaW[s]) }) =
      .ok (store (store h q (bumpedBy f n.Error n.Weights[s] m)) p
        { n with DeltaW := n.DeltaW.set s (n.Error * m.Out + n.Momentum * n.DeltaW[s]), Weights := n.Weights.set s (n.Weights[s] + (n.Error * m.Out + n.Momentum * n.DeltaW[s])) }) := by
    simp [updateWeight, bind, Except.bind, pure, Except.pure, hn2, index_ok_of_lt hsW,
      index_ok_of_lt hsD2, store_store]
  simp only [updateSynapse, bind, Except.bind, h1, h2, h3]

theorem take_set_succ {β : Type} : ∀ (l : List β) (s : Nat) (x : β), s < l.length →
    (l.set s x).take (s + 1) = l.take s ++ [x] := by
  intro l
  induction l with
  | nil => intro s x hs; simp at hs
  | cons a l ih =>
    intro s x hs
    cases s with
    | zero => simp
    | succ s =>
      have hs1 : s < l.length := by simpa using hs
      simp [ih s x hs1]

theorem deref_heap_ext {h1 h2 : Heap α} (he : ∀ p, deref h1 p = deref h2 p) : h1 = h2 := by
  apply List.ext_getElem?
  intro a
  have hp := he (some a)
  cases hc1 : h1[a]? with
  | none =>
    cases hc2 : h2[a]? with
    | none => rfl
    | some n2 => simp [deref, hc1, hc2] at hp
  | some n1 =>
    cases hc2 : h2[a]? with
    | none => simp [deref, hc1, hc2] at hp
    | some n2 =>
      simp only [deref, hc1, hc2, Except.ok.injEq] at hp
      rw [hp]

/-! ### The loop of `update` -/

/-- The rounds `k >= s` of `update` on the neuron at `p`, whose predecessors
from `s` on are live, pairwise distinct and other than `p`. -/
theorem forRange_update {p : Ptr} {f : ActivationFunc α} : ∀ (c s : Nat) (h : Heap α)
    (n : Neuron α), deref h p = .ok n → n.Activation = some f →
    n.Inputs.length = n.Weights.length → n.DeltaW.length = n.Weights.length →
    s + c = n.Weights.length →
    (∀ q ∈ n.Inputs.drop s, q ≠ p ∧ ∃ m, deref h q = .ok m) → (n.Inputs.drop s).Nodup →
    ∃ h1, forRange (updateSynapse p) s c h = .ok h1 ∧
      deref h1 p = .ok { n with DeltaW := deltaFrom h n s, Weights := weightsFrom h n s } ∧
      (∀ i q w m, s ≤ i → n.Inputs[i]? = some q → n.Weights[i]? = some w →
        deref h q = .ok m → deref h1 q = .ok (bumpedBy f n.Error w m)) ∧
      (∀ c1, c1 ≠ p → c1 ∉ n.Inputs.drop s → deref h1 c1 = deref h c1) := by
  intro c
  induction c with
  | zero =>
    intro s h n hn _ hI hD hs _ _
    have hsW : n.Weights.length ≤ s := by omega
    have hsI : n.Inputs.length ≤ s := by omega
    have hsD : n.DeltaW.length ≤ s := by omega
    refine ⟨h, rfl, ?_, ?_, fun _ _ _ => rfl⟩
    · rw [hn]
      simp [deltaFrom, weightsFrom, List.drop_eq_nil_of_le hsW, List.drop_eq_nil_of_le hsI,
        List.take_of_length_le hsW, List.take_of_length_le hsD]
    · intro i q w m hi hq _ _
      have : n.Inputs[i]? = none := List.getElem?_eq_none (by omega)
      rw [this] at hq
      cases hq
  | succ c ih =>
    intro s h n hn hf hI hD hs hin hnd
    have hsW : s < n.Weights.length := by omega
    have hsI : s < n.Inputs.length := by omega
    have hsD : s < n.DeltaW.length := by omega
    have hdropI : n.Inputs.drop s = n.Inputs[s] :: n.Inputs.drop (s + 1) :=
      List.drop_eq_getElem_cons hsI
    obtain ⟨hqp, m, hm⟩ := hin n.Inputs[s] (by rw [hdropI]; exact List.mem_cons_self _ _)
    rw [hdropI] at hnd
    obtain ⟨hqnot, hnd1⟩ := List.nodup_cons.mp hnd
    have hstep := updateSynapse_step hn hf hsI hsW hsD rfl hqp hm
    obtain ⟨n3, hn3⟩ : ∃ n3 : Neuron α, n3 = { n with DeltaW := n.DeltaW.set s (n.Error * m.Out + n.Momentum * n.DeltaW[s]), Weights := n.Weights.set s (n.Weights[s] + (n.Error * m.Out + n.Momentum * n.DeltaW[s])) } := ⟨_, rfl⟩
    rw [← hn3] at hstep
    obtain ⟨h3, hh3⟩ : ∃ h3 : Heap α,
        h3 = store (store h n.Inputs[s] (bumpedBy f n.Error n.Weights[s] m)) p n3 := ⟨_, rfl⟩
    rw [← hh3] at hstep
    have hpq : p ≠ n.Inputs[s] := fun e => hqp e.symm
    have hd3p : deref h3 p = .ok n3 := by
      rw [hh3]
      exact deref_store_self (by rw [deref_store_ne _ hpq]; exact hn)
    have hd3q : deref h3 n.Inputs[s] = .ok (bumpedBy f n.Error n.Weights[s] m) := by
      rw [hh3, deref_store_ne _ hqp]
      exact deref_store_self hm
    have hd3o : ∀ c1, c1 ≠ p → c1 ≠ n.Inputs[s] → deref h3 c1 = deref h c1 := by
      intro c1 h1 h2
      rw [hh3, deref_store_ne _ h1, deref_store_ne _ h2]
    have hout3 : ∀ c1, outAt h3 c1 = outAt h c1 :=
      fun c1 => outAt_of_map_out (updateSynapse_out hstep) c1
    have hmo : outAt h n.Inputs[s] = m.Out := by simp [outAt, hm]
    have e3I : n3.Inputs = n.Inputs := by rw [hn3]
    have e3E : n3.Error = n.Error := by rw [hn3]
    have e3M : n3.Momentum = n.Momentum := by rw [hn3]
    have e3D : n3.DeltaW = n.DeltaW.set s (n.Error * m.Out + n.Momentum * n.DeltaW[s]) := by
      rw [hn3]
    have e3W : n3.Weights =
        n.Weights.set s (n.Weights[s] + (n.Error * m.Out + n.Momentum * n.DeltaW[s])) := by
      rw [hn3]
    have hin3 : ∀ q ∈ n3.Inputs.drop (s + 1), q ≠ p ∧ ∃ m1, deref h3 q = .ok m1 := by
      intro q hq
      rw [e3I] at hq
      obtain ⟨hne, m1, hm1⟩ := hin q (by rw [hdropI]; exact List.mem_cons_of_mem _ hq)
      have hqs : q ≠ n.Inputs[s] := fun e => hqnot (e ▸ hq)
      exact ⟨hne, m1, by rw [hd3o q hne hqs]; exact hm1⟩
    obtain ⟨h1, hrun, hp1, hbump, hframe⟩ := ih (s + 1) h3 n3 hd3p (by rw [hn3]; exact hf)
      (by rw [e3I, e3W, List.length_set]; exact hI)
      (by rw [e3D, e3W, List.length_set, List.length_set]; exact hD)
      (by rw [e3W, List.length_set]; omega) hin3 (by rw [e3I]; exact hnd1)
    refine ⟨h1, by simp only [forRange, hstep, hrun], ?_, ?_, ?_⟩
    · rw [hp1]
      have hfun : (fun (q : Ptr) (d : α) => n3.Error * outAt h3 q + n3.Momentum * d) =
          (fun q d => n.Error * outAt h q + n.Momentum * d) := by
        funext q d
        rw [e3E, e3M, hout3]
      have hD1 : deltaFrom h3 n3 (s + 1) = deltaFrom h n s := by
        simp only [deltaFrom, hfun, e3I, e3D]
        rw [take_set_succ _ _ _ hsD, List.drop_set_of_lt _ _ (Nat.lt_succ_self s), hdropI,
          List.drop_eq_getElem_cons hsD, List.zipWith_cons_cons, hmo, List.append_assoc]
        rfl
      have hW1 : weightsFrom h3 n3 (s + 1) = weightsFrom h n s := by
        simp only [weightsFrom, hfun, e3I, e3D, e3W]
        rw [take_set_succ _ _ _ hsW, List.drop_set_of_lt _ _ (Nat.lt_succ_self s),
          List.drop_set_of_lt _ _ (Nat.lt_succ_self s), hdropI,
          List.drop_eq_getElem_cons hsD, List.drop_eq_getElem_cons hsW,
          List.zipWith_cons_cons, List.zipWith_cons_cons, hmo, List.append_assoc]
        rfl
      rw [hD1, hW1, hn3]
    · intro i q w m1 hi hq hw hm1
      by_cases his : i = s
      · subst his
        have hqe : q = n.Inputs[i] := by
          rw [List.getElem?_eq_getElem hsI] at hq
          injection hq with hq
          exact hq.symm
        have hwe : w = n.Weights[i] := by
          rw [List.getElem?_eq_getElem hsW] at hw
          injection hw with hw
          exact hw.symm
        subst hqe hwe
        rw [hm] at hm1
        injection hm1 with hm1
        subst hm1
        rw [hframe _ hqp (by rw [e3I]; exact hqnot)]
        exact hd3q
      · have hsi : s + 1 ≤ i := by omega
        have hqmem : q ∈ n.Inputs.drop (s + 1) := by
          have hlt : i < n.Inputs.length := (List.getElem?_eq_some.mp hq).1
          have hqv : n.Inputs[i] = q := (List.getElem?_eq_some.mp hq).2
          rw [← hqv]
          have : (n.Inputs.drop (s + 1))[i - (s + 1)]? = some n.Inputs[i] := by
            rw [List.getElem?_drop]
            have : s + 1 + (i - (s + 1)) = i := by omega
            rw [this, List.getElem?_eq_getElem hlt]
          exact List.getElem?_mem this
        obtain ⟨hne, _⟩ := hin q (by rw [hdropI]; exact List.mem_cons_of_mem _ hqmem)
        have hqs : q ≠ n.Inputs[s] := fun e => hqnot (e ▸ hqmem)
        have hb := hbump i q w m1 hsi (by rw [e3I]; exact hq)
          (by rw [e3W, List.getElem?_set_ne (Ne.symm his)]; exact hw)
          (by rw [hd3o q hne hqs]; exact hm1)
        rw [hb, e3E]
    · intro c1 hc1 hnot
      rw [hdropI] at hnot
      have hc1s : c1 ≠ n.Inputs[s] := fun e => hnot (e ▸ List.mem_cons_self _ _)
      have hc1d : c1 ∉ n3.Inputs.drop (s + 1) := by
        rw [e3I]
        exact fun hm1 => hnot (List.mem_cons_of_mem _ hm1)
      rw [hframe c1 hc1 hc1d, hd3o c1 hc1 hc1s]

/-! ### The postcondition of `update` -/

theorem update_post {p : Ptr} {f : ActivationFunc α} {h : Heap α} {n : Neuron α}
    (hn : deref h p = .ok n) (hf : n.Activation = some f)
    (hI : n.Inputs.length = n.Weights.length) (hD : n.DeltaW.length = n.Weights.length)
    (hin : ∀ q ∈ n.Inputs, q ≠ p ∧ ∃ m, deref h q = .ok m) (hnd : n.Inputs.Nodup) :
    ∃ h1, update p h = .ok h1 ∧ deref h1 p = .ok (updatedNeuron h n) ∧
      (∀ (i : Nat) q w m, n.Inputs[i]? = some q → n.Weights[i]? = some w → deref h q = .ok m →
        deref h1 q = .ok (bumpedBy f n.Error w m)) ∧
      (∀ c1, c1 ≠ p → c1 ∉ n.Inputs → deref h1 c1 = deref h c1) := by
  obtain ⟨h1, hrun, hp1, hbump, hframe⟩ := forRange_update (p := p) (f := f) n.Weights.length 0
    h n hn hf hI hD (by simp) (by simpa using hin) (by simpa using hnd)
  refine ⟨h1, by simp only [update, hn, hrun], hp1, ?_, ?_⟩
  · intro i q w m hq hw hm
    exact hbump i q w m (Nat.zero_le i) hq hw hm
  · intro c1 hc1 hnot
    exact hframe c1 hc1 (by simpa using hnot)

theorem updatedNeuron_getElem (h : Heap α) (n : Neuron α) {k : Nat} {q : Ptr} {m : Neuron α}
    {w d : α} (hq : n.Inputs[k]? = some q) (hm : deref h q = .ok m)
    (hw : n.Weights[k]? = some w) (hd : n.DeltaW[k]? = some d) :
    (updatedNeuron h n).DeltaW[k]? = some (n.Error * m.Out + n.Momentum * d) ∧
      (updatedNeuron h n).Weights[k]? = some (w + (n.Error * m.Out + n.Momentum * d)) := by
  have ho : outAt h q = m.Out := by simp [outAt, hm]
  simp [updatedNeuron, deltaFrom, weightsFrom, List.getElem?_zipWith, hq, hw, hd, ho]

theorem updatedNeuron_lengths (h : Heap α) (n : Neuron α)
    (hI : n.Inputs.length = n.Weights.length) (hD : n.DeltaW.length = n.Weights.length) :
    (updatedNeuron h n).DeltaW.length = n.DeltaW.length ∧
      (updatedNeuron h n).Weights.length = n.Weights.length := by
  simp [updatedNeuron, deltaFrom, weightsFrom, hI, hD]

/-! ### Layers ready for a backward step -/

theorem linkedFrom_index (h : Heap α) : ∀ (ls : List (List Ptr)) (pre : List Ptr) (k : Nat)
    (prev l : List Ptr), linkedFrom h pre ls = true → (pre :: ls)[k]? = some prev →
    (pre :: ls)[k + 1]? = some l → ∀ p ∈ l, linked h prev p = true := by
  intro ls
  induction ls with
  | nil => intro pre k prev l _ _ hk1; simp at hk1
  | cons l1 ls ih =>
    intro pre k prev l hli hk hk1
    simp only [linkedFrom, Bool.and_eq_true, List.all_eq_true] at hli
    cases k with
    | zero =>
      simp only [List.getElem?_cons_zero, Option.some.injEq] at hk
      simp only [List.getElem?_cons_succ, List.getElem?_cons_zero, Option.some.injEq] at hk1
      subst hk hk1
      exact hli.1
    | succ k =>
      rw [List.getElem?_cons_succ] at hk hk1
      exact ih l1 k prev l hli.2 hk hk1

theorem shapedFrom_index (h : Heap α) : ∀ (ls : List (List Ptr)) (pre : List Ptr) (k : Nat)
    (prev l : List Ptr), shapedFrom h pre ls = true → (pre :: ls)[k]? = some prev →
    (pre :: ls)[k + 1]? = some l → ∀ p ∈ l, shaped h prev p = true := by
  intro ls
  induction ls with
  | nil => intro pre k prev l _ _ hk1; simp at hk1
  | cons l1 ls ih =>
    intro pre k prev l hli hk hk1
    simp only [shapedFrom, Bool.and_eq_true, List.all_eq_true] at hli
    cases k with
    | zero =>
      simp only [List.getElem?_cons_zero, Option.some.injEq] at hk
      simp only [List.getElem?_cons_succ, List.getElem?_cons_zero, Option.some.injEq] at hk1
      subst hk hk1
      exact hli.1
    | succ k =>
      rw [List.getElem?_cons_succ] at hk hk1
      exact ih l1 k prev l hli.2 hk hk1

theorem shaped_ok {h : Heap α} {prev : List Ptr} {p : Ptr} {n : Neuron α}
    (hs : shaped h prev p = true) (hd : deref h p = .ok n) :
    n.Weights.length = prev.length ∧ n.DeltaW.length = prev.length ∧
      n.Inputs.length = prev.length := by
  simpa [shaped, hd, and_assoc] using hs

theorem LayerReady_of_WellFormed {h : Heap α} {net : NNet} (hwf : WellFormed h net)
    (hs : Shape h net) {i : Nat} {prev l : List Ptr} (hi : net.Layers[i]? = some prev)
    (hi1 : net.Layers[i + 1]? = some l) : LayerReady h prev l := by
  obtain ⟨hnd, hatt, hlink⟩ := hwf
  obtain ⟨hndl, hdisj⟩ := List.nodup_flatten.mp hnd
  have hprev : prev ∈ net.Layers := List.getElem?_mem hi
  have hl : l ∈ net.Layers := List.getElem?_mem hi1
  have hall : ∀ p ∈ net.Layers.flatten, attached h p = true := List.all_eq_true.mp hatt
  obtain ⟨hilt, hieq⟩ := List.getElem?_eq_some.mp hi
  obtain ⟨hi1lt, hi1eq⟩ := List.getElem?_eq_some.mp hi1
  have hd : List.Disjoint prev l := by
    have := List.pairwise_iff_getElem.mp hdisj i (i + 1) hilt hi1lt (Nat.lt_succ_self i)
    rwa [hieq, hi1eq] at this
  refine ⟨hndl prev hprev, hndl l hl, fun p hp hpp => hd hpp hp, ?_, ?_⟩
  · intro q hq
    obtain ⟨m, f, hm, _⟩ := attached_ok (hall q (List.mem_flatten.mpr ⟨prev, hprev, hq⟩))
    exact ⟨m, hm⟩
  · intro p hp
    obtain ⟨n, f, hn, hf⟩ := attached_ok (hall p (List.mem_flatten.mpr ⟨l, hl, hp⟩))
    cases hL : net.Layers with
    | nil => rw [hL] at hi; simp at hi
    | cons l0 ls =>
      rw [hL] at hi hi1
      have hlf : linkedFrom h l0 ls = true := by
        rw [hL] at hlink
        simp only [layersLinked, Bool.and_eq_true] at hlink
        exact hlink.2
      have hsf : shapedFrom h l0 ls = true := by
        unfold Shape at hs
        rw [hL] at hs
        exact hs
      obtain ⟨hI, hW⟩ := linked_ok (linkedFrom_index h ls l0 i prev l hlf hi hi1 p hp) hn
      obtain ⟨_, hD, _⟩ := shaped_ok (shapedFrom_index h ls l0 i prev l hsf hi hi1 p hp) hn
      exact ⟨n, hn, by simp [hf], hI, hW, hD⟩

theorem rigid_fields {n n1 : Neuron α} (hr : n1.rigid = n.rigid) :
    n1.Activation = n.Activation ∧ n1.Inputs = n.Inputs ∧
      n1.Weights.length = n.Weights.length ∧ n1.DeltaW.length = n.DeltaW.length ∧
      n1.Bias = n.Bias ∧ n1.Momentum = n.Momentum ∧ n1.LearningRate = n.LearningRate ∧
      n1.ActivationName = n.ActivationName := by
  have hW : (n1.rigid.Weights).length = (n.rigid.Weights).length := by rw [hr]
  have hD : (n1.rigid.DeltaW).length = (n.rigid.DeltaW).length := by rw [hr]
  simp only [Neuron.rigid, List.length_replicate] at hW hD
  have e1 : n1.rigid.Activation = n.rigid.Activation := by rw [hr]
  have e2 : n1.rigid.Inputs = n.rigid.Inputs := by rw [hr]
  have e3 : n1.rigid.Bias = n.rigid.Bias := by rw [hr]
  have e4 : n1.rigid.Momentum = n.rigid.Momentum := by rw [hr]
  have e5 : n1.rigid.LearningRate = n.rigid.LearningRate := by rw [hr]
  have e6 : n1.rigid.ActivationName = n.rigid.ActivationName := by rw [hr]
  exact ⟨e1, e2, hW, hD, e3, e4, e5, e6⟩

theorem LayerReady_congr {h h1 : Heap α} (hm : h1.map Neuron.rigid = h.map Neuron.rigid)
    {prev l : List Ptr} (hr : LayerReady h prev l) : LayerReady h1 prev l := by
  obtain ⟨h1n, h2n, hd, hlive, hl⟩ := hr
  refine ⟨h1n, h2n, hd, ?_, ?_⟩
  · intro q hq
    obtain ⟨m, hm1⟩ := hlive q hq
    rcases deref_map_congr Neuron.rigid hm q with ⟨n, n1, hn, hn1, _⟩ | ⟨e, he, _⟩
    · exact ⟨n1, hn1⟩
    · rw [hm1] at he; cases he
  · intro p hp
    obtain ⟨n, hn, hA, hI, hW, hD⟩ := hl p hp
    rcases deref_map_congr Neuron.rigid hm p with ⟨n0, n1, hn0, hn1, hf⟩ | ⟨e, he, _⟩
    · rw [hn] at hn0
      cases hn0
      obtain ⟨e1, e2, e3, e4, _⟩ := rigid_fields hf
      exact ⟨n1, hn1, by rw [e1]; exact hA, by rw [e2]; exact hI, by rw [e3]; exact hW,
        by rw [e4]; exact hD⟩
    · rw [hn] at he; cases he

theorem updatedNeuron_of_map_out {h h1 : Heap α} (hm : h1.map Neuron.Out = h.map Neuron.Out)
    (n : Neuron α) : updatedNeuron h1 n = updatedNeuron h n := by
  have ho : outAt h1 = outAt h := funext (outAt_of_map_out hm)
  simp only [updatedNeuron, deltaFrom, weightsFrom, ho]

theorem update_ready {h : Heap α} {prev l : List Ptr} {p : Ptr} {n : Neuron α}
    {f : ActivationFunc α} (hr : LayerReady h prev l) (hp : p ∈ l) (hn : deref h p = .ok n)
    (hf : n.Activation = some f) :
    ∃ h1, update p h = .ok h1 ∧ deref h1 p = .ok (updatedNeuron h n) ∧
      (∀ (k : Nat) q w m, prev[k]? = some q → n.Weights[k]? = some w → deref h q = .ok m →
        deref h1 q = .ok (bumpedBy f n.Error w m)) ∧
      (∀ c, c ≠ p → c ∉ prev → deref h1 c = deref h c) := by
  obtain ⟨h1n, _, hd, hlive, hl⟩ := hr
  obtain ⟨n0, hn0, _, hI, hW, hD⟩ := hl p hp
  rw [hn] at hn0
  cases hn0
  have hin : ∀ q ∈ n.Inputs, q ≠ p ∧ ∃ m, deref h q = .ok m := by
    intro q hq
    rw [hI] at hq
    exact ⟨fun e => hd p hp (e ▸ hq), hlive q hq⟩
  obtain ⟨h1, hrun, hp1, hb, hfr⟩ := update_post hn hf (by rw [hI, hW]) (by rw [hD, hW]) hin
    (by rw [hI]; exact h1n)
  refine ⟨h1, hrun, hp1, ?_, ?_⟩
  · intro k q w m hq hw hm
    exact hb k q w m (by rw [hI]; exact hq) hw hm
  · intro c hc hnot
    exact hfr c hc (by rw [hI]; exact hnot)

/-! ### `computeOutputLayer` on a ready output layer -/

theorem computeOutputLoop_ready {label : List α} {prev l : List Ptr} :
    ∀ (ps : List Ptr) (j : Nat) (acc : α) (h : Heap α), LayerReady h prev l →
    (∀ p ∈ ps, p ∈ l) → ps.Nodup → j + ps.length ≤ label.length →
    ∃ r, computeOutputLoop label j ps acc h = .ok r ∧
      (∀ (i : Nat) p n f y, ps[i]? = some p → deref h p = .ok n → n.Activation = some f →
        label[j + i]? = some y →
        deref r.1 p = .ok (updatedNeuron h { n with Error := f.Prime n.In * (y - n.Out) })) ∧
      (∀ c, c ∉ ps → c ∉ prev → deref r.1 c = deref h c) := by
  intro ps
  induction ps with
  | nil =>
    intro j acc h _ _ _ _
    refine ⟨(h, acc), rfl, ?_, fun c _ _ => rfl⟩
    intro i p n f y hi
    simp at hi
  | cons p ps ih =>
    intro j acc h hr hsub hnd hlen
    have hpl : p ∈ l := hsub p (List.mem_cons_self p ps)
    obtain ⟨hpn, hpsnd⟩ := List.nodup_cons.mp hnd
    have hpprev : p ∉ prev := hr.2.2.1 p hpl
    obtain ⟨n, hn, hA, -⟩ := hr.2.2.2.2 p hpl
    obtain ⟨f, hf⟩ := Option.isSome_iff_exists.mp hA
    have hj : j < label.length := by simp only [List.length_cons] at hlen; omega
    obtain ⟨n1, hn1e⟩ : ∃ n1 : Neuron α, n1 = { n with Error := f.Prime n.In * (label[j] - n.Out) } := ⟨_, rfl⟩
    have hd1 : deref (store h p n1) p = .ok n1 := deref_store_self hn
    have hrig1 : (store h p n1).map Neuron.rigid = h.map Neuron.rigid :=
      map_store Neuron.rigid hn (by rw [hn1e]; rfl)
    have hout1 : (store h p n1).map Neuron.Out = h.map Neuron.Out :=
      map_store Neuron.Out hn (by rw [hn1e])
    have hr1 : LayerReady (store h p n1) prev l := LayerReady_congr hrig1 hr
    have hf1 : n1.Activation = some f := by rw [hn1e]; exact hf
    obtain ⟨h2, hup, hp2, -, hfr2⟩ := update_ready hr1 hpl hd1 hf1
    have hr2 : LayerReady h2 prev l := LayerReady_congr (update_map Stable_rigid hup) hr1
    have hout2 : h2.map Neuron.Out = h.map Neuron.Out := (update_out hup).trans hout1
    obtain ⟨r, hrun, hpost, hframe⟩ := ih (j + 1)
      (acc + (label[j] - n.Out) * (label[j] - n.Out) / 2) h2 hr2
      (fun c hc => hsub c (List.mem_cons_of_mem p hc)) hpsnd
      (by simp only [List.length_cons] at hlen; omega)
    refine ⟨r, ?_, ?_, ?_⟩
    · have hact : activation n = .ok f := by simp only [activation, hf]
      simp only [computeOutputLoop, bind, Except.bind, index_ok_of_lt hj, hn, hact]
      rw [← hn1e]
      simp only [hup]
      exact hrun
    · intro i c m g y hi hm hg hy
      cases i with
      | zero =>
        simp only [List.getElem?_cons_zero, Option.some.injEq] at hi
        subst hi
        rw [hn] at hm
        cases hm
        rw [hf] at hg
        cases hg
        have hy1 : label[j] = y := by
          have := List.getElem?_eq_getElem hj
          rw [Nat.add_zero] at hy
          rw [this] at hy
          exact Option.some.inj hy
        rw [hframe p hpn hpprev, hp2, updatedNeuron_of_map_out hout1, hn1e, hy1]
      | succ i =>
        simp only [List.getElem?_cons_succ] at hi
        have hcps : c ∈ ps := List.getElem?_mem hi
        have hcp : c ≠ p := fun e => hpn (e ▸ hcps)
        have hcprev : c ∉ prev := hr.2.2.1 c (hsub c (List.mem_cons_of_mem p hcps))
        have hm2 : deref h2 c = .ok m := by
          rw [hfr2 c hcp hcprev, deref_store_ne n1 hcp]; exact hm
        have hy2 : label[j + 1 + i]? = some y := by
          rw [← hy]; congr 1; omega
        rw [hpost i c m g y hi hm2 hg hy2, updatedNeuron_of_map_out hout2]
    · intro c hc hcprev
      have hcp : c ≠ p := fun e => hc (e ▸ List.mem_cons_self p ps)
      have hcps : c ∉ ps := fun e => hc (List.mem_cons_of_mem p e)
      rw [hframe c hcps hcprev, hfr2 c hcp hcprev, deref_store_ne n1 hcp]

/-! ### `propagateErrors` on a ready layer -/

theorem backSum_congr {h h1 : Heap α} {ps : List Ptr} (k : Nat)
    (he : ∀ p ∈ ps, deref h1 p = deref h p) : backSum h1 ps k = backSum h ps k := by
  unfold backSum
  congr 1
  apply List.map_congr_left
  intro p hp
  simp only [errorAt, weightAt, he p hp]

theorem propagateLoop_ready {prev l : List Ptr} {f : ActivationFunc α} :
    ∀ (ps : List Ptr) (h : Heap α), LayerReady h prev l → (∀ p ∈ ps, p ∈ l) → ps.Nodup →
    (∀ p ∈ ps, ∀ n, deref h p = .ok n → n.Activation = some f) →
    ∃ h1, propagateLoop ps h = .ok h1 ∧
      (∀ (k : Nat) q m, prev[k]? = some q → deref h q = .ok m →
        deref h1 q = .ok { m with Error := m.Error + f.Prime m.In * backSum h ps k }) ∧
      (∀ p n, p ∈ ps → deref h p = .ok n → deref h1 p = .ok (updatedNeuron h n)) ∧
      (∀ c, c ∉ ps → c ∉ prev → deref h1 c = deref h c) := by
  intro ps
  induction ps with
  | nil =>
    intro h _ _ _ _
    refine ⟨h, rfl, ?_, ?_, fun c _ _ => rfl⟩
    · intro k q m _ hm
      rw [hm]
      simp [backSum]
    · intro p n hp
      simp at hp
  | cons p ps ih =>
    intro h hr hsub hnd hact
    have hpl : p ∈ l := hsub p (List.mem_cons_self p ps)
    obtain ⟨hpn, hpsnd⟩ := List.nodup_cons.mp hnd
    have hpprev : p ∉ prev := hr.2.2.1 p hpl
    obtain ⟨n, hn, -, -, hW, -⟩ := hr.2.2.2.2 p hpl
    have hf : n.Activation = some f := hact p (List.mem_cons_self p ps) n hn
    obtain ⟨h1, hup, hp1, hb1, hfr1⟩ := update_ready hr hpl hn hf
    have hr1 : LayerReady h1 prev l := LayerReady_congr (update_map Stable_rigid hup) hr
    have hout1 : h1.map Neuron.Out = h.map Neuron.Out := update_out hup
    have hsame : ∀ c ∈ ps, deref h1 c = deref h c := by
      intro c hc
      exact hfr1 c (fun e => hpn (e ▸ hc)) (hr.2.2.1 c (hsub c (List.mem_cons_of_mem p hc)))
    obtain ⟨h2, hrun, hprev2, hown2, hframe2⟩ := ih h1 hr1
      (fun c hc => hsub c (List.mem_cons_of_mem p hc)) hpsnd
      (fun c hc m hm => hact c (List.mem_cons_of_mem p hc) m (by rw [← hsame c hc]; exact hm))
    refine ⟨h2, by simp only [propagateLoop, hup]; exact hrun, ?_, ?_, ?_⟩
    · intro k q m hq hm
      have hk : k < n.Weights.length := by
        rw [hW]; exact (List.getElem?_eq_some.mp hq).1
      have hw : n.Weights[k]? = some n.Weights[k] := List.getElem?_eq_getElem hk
      rw [hprev2 k q _ hq (hb1 k q _ m hq hw hm), backSum_congr k hsame]
      have hsum : backSum h (p :: ps) k = n.Error * n.Weights[k] + backSum h ps k := by
        simp [backSum, errorAt, weightAt, hn, List.getD_eq_getElem?_getD, hw]
      rw [hsum]
      simp only [bumpedBy]
      congr 2
      ring
    · intro c m hc hm
      rcases List.mem_cons.mp hc with rfl | hcps
      · rw [hn] at hm
        cases hm
        rw [hframe2 c hpn hpprev, hp1]
      · have hm1 : deref h1 c = .ok m := by rw [hsame c hcps]; exact hm
        rw [hown2 c m hcps hm1, updatedNeuron_of_map_out hout1]
    · intro c hc hcprev
      have hcp : c ≠ p := fun e => hc (e ▸ List.mem_cons_self p ps)
      have hcps : c ∉ ps := fun e => hc (List.mem_cons_of_mem p e)
      rw [hframe2 c hcps hcprev, hfr1 c hcp hcprev]

theorem getElem?_of_index {β : Type} {xs : List β} {k : Nat} {x : β}
    (hi : index xs k = .ok x) : xs[k]? = some x := by
  unfold index at hi
  cases hk : xs[k]? with
  | none => rw [hk] at hi; cases hi
  | some y => rw [hk] at hi; cases hi; rfl

theorem index_of_getElem? {β : Type} {xs : List β} {k : Nat} {x : β}
    (hi : xs[k]? = some x) : index xs k = .ok x := by
  simp only [index, hi]

theorem last_two {β : Type} (d : β) : ∀ (ls : List β), 2 ≤ ls.length →
    ∃ a, ls[ls.length - 2]? = some a ∧ ls[ls.length - 2 + 1]? = some (ls.getLastD d) ∧
      index ls (ls.length - 1) = .ok (ls.getLastD d) := by
  intro ls h2
  cases ls with
  | nil => simp at h2
  | cons l0 ls1 =>
    have hlast := index_last ls1 l0
    have hlt : (l0 :: ls1).length - 2 < (l0 :: ls1).length := by
      simp only [List.length_cons] at h2 ⊢; omega
    have he : (l0 :: ls1).length - 2 + 1 = (l0 :: ls1).length - 1 := by
      simp only [List.length_cons] at h2 ⊢; omega
    refine ⟨_, List.getElem?_eq_getElem hlt, ?_, ?_⟩
    · rw [he, getLastD_cons]; exact getElem?_of_index hlast
    · rw [getLastD_cons]; exact hlast

theorem computeOutputLayer_of_ready {net : NNet} {label : List α} {h : Heap α}
    {prev : List Ptr} (hr : LayerReady h prev (net.Layers.getLastD []))
    (hidx : index net.Layers (net.Layers.length - 1) = .ok (net.Layers.getLastD []))
    (hlen : (net.Layers.getLastD []).length ≤ label.length) :
    ∃ r, net.computeOutputLayer label h = .ok r ∧
      (∀ (i : Nat) p n f y, (net.Layers.getLastD [])[i]? = some p → deref h p = .ok n →
        n.Activation = some f → label[i]? = some y →
        deref r.1 p = .ok (updatedNeuron h { n with Error := f.Prime n.In * (y - n.Out) })) ∧
      (∀ c, c ∉ net.Layers.getLastD [] → c ∉ prev → deref r.1 c = deref h c) := by
  obtain ⟨r, hrun, hpost, hframe⟩ := computeOutputLoop_ready
    (net.Layers.getLastD []) 0 0 h hr (fun p hp => hp) hr.2.1 (by simpa using hlen)
  refine ⟨r, ?_, ?_, hframe⟩
  · simp only [NNet.computeOutputLayer, bind, Except.bind, hidx]
    exact hrun
  · intro i p n f y hi hn hf hy
    exact hpost i p n f y hi hn hf (by rw [Nat.zero_add]; exact hy)

theorem computeOutputLayer_ready {net : NNet} {label : List α} {h : Heap α}
    (hwf : WellFormed h net) (hs : Shape h net) (h2 : 2 ≤ net.Layers.length)
    (hlen : (net.Layers.getLastD []).length ≤ label.length) :
    ∃ prev r, LayerReady h prev (net.Layers.getLastD []) ∧
      index net.Layers (net.Layers.length - 1) = .ok (net.Layers.getLastD []) ∧
      net.computeOutputLayer label h = .ok r ∧
      (∀ (i : Nat) p n f y, (net.Layers.getLastD [])[i]? = some p → deref h p = .ok n →
        n.Activation = some f → label[i]? = some y →
        deref r.1 p = .ok (updatedNeuron h { n with Error := f.Prime n.In * (y - n.Out) })) ∧
      (∀ c, c ∉ net.Layers.getLastD [] → c ∉ prev → deref r.1 c = deref h c) := by
  obtain ⟨prev, hp, hl, hidx⟩ := last_two ([] : List Ptr) net.Layers h2
  have hr : LayerReady h prev (net.Layers.getLastD []) := LayerReady_of_WellFormed hwf hs hp hl
  obtain ⟨r, hrun, hpost, hframe⟩ := computeOutputLayer_of_ready hr hidx hlen
  exact ⟨prev, r, hr, hidx, hrun, hpost, hframe⟩

/-! ### Two updates in the same layer -/

theorem update_pair {h : Heap α} {prev l : List Ptr} {a b : Ptr} {na nb : Neuron α}
    {fa fb : ActivationFunc α} (hr : LayerReady h prev l) (ha : a ∈ l) (hb : b ∈ l)
    (hab : a ≠ b) (hna : deref h a = .ok na) (hnb : deref h b = .ok nb)
    (hfa : na.Activation = some fa) (hfb : nb.Activation = some fb) :
    ∃ h1 h2, update a h = .ok h1 ∧ update b h1 = .ok h2 ∧
      deref h2 a = .ok (updatedNeuron h na) ∧ deref h2 b = .ok (updatedNeuron h nb) ∧
      (∀ (k : Nat) q wa wb m, prev[k]? = some q → na.Weights[k]? = some wa →
        nb.Weights[k]? = some wb → deref h q = .ok m →
        deref h2 q = .ok (bumpedBy fb nb.Error wb (bumpedBy fa na.Error wa m))) ∧
      (∀ c, c ≠ a → c ≠ b → c ∉ prev → deref h2 c = deref h c) := by
  have haprev : a ∉ prev := hr.2.2.1 a ha
  have hbprev : b ∉ prev := hr.2.2.1 b hb
  obtain ⟨h1, hup1, hp1, hb1, hfr1⟩ := update_ready hr ha hna hfa
  have hr1 : LayerReady h1 prev l := LayerReady_congr (update_map Stable_rigid hup1) hr
  have hnb1 : deref h1 b = .ok nb := by rw [hfr1 b (Ne.symm hab) hbprev]; exact hnb
  obtain ⟨h2, hup2, hp2, hb2, hfr2⟩ := update_ready hr1 hb hnb1 hfb
  refine ⟨h1, h2, hup1, hup2, ?_, ?_, ?_, ?_⟩
  · rw [hfr2 a hab haprev, hp1]
  · rw [hp2, updatedNeuron_of_map_out (update_out hup1)]
  · intro k q wa wb m hq hwa hwb hm
    exact hb2 k q wb _ hq hwb (hb1 k q wa m hq hwa hm)
  · intro c hca hcb hcprev
    rw [hfr2 c hcb hcprev, hfr1 c hca hcprev]

theorem bumpedBy_comm (fa fb : ActivationFunc α) (ea wa eb wb : α) (m : Neuron α) :
    bumpedBy fb eb wb (bumpedBy fa ea wa m) = bumpedBy fa ea wa (bumpedBy fb eb wb m) := by
  simp only [bumpedBy]
  congr 1
  ring

theorem update_swap {h : Heap α} {prev l : List Ptr} {a b : Ptr} (hr : LayerReady h prev l)
    (ha : a ∈ l) (hb : b ∈ l) (hab : a ≠ b) :
    ∃ h2, (update a h >>= update b) = .ok h2 ∧ (update b h >>= update a) = .ok h2 := by
  obtain ⟨na, hna, hAa, -, hWa, -⟩ := hr.2.2.2.2 a ha
  obtain ⟨nb, hnb, hAb, -, hWb, -⟩ := hr.2.2.2.2 b hb
  obtain ⟨fa, hfa⟩ := Option.isSome_iff_exists.mp hAa
  obtain ⟨fb, hfb⟩ := Option.isSome_iff_exists.mp hAb
  obtain ⟨h1, h2, hup1, hup2, h2a, h2b, h2p, h2f⟩ := update_pair hr ha hb hab hna hnb hfa hfb
  obtain ⟨g1, g2, gup1, gup2, g2b, g2a, g2p, g2f⟩ :=
    update_pair hr hb ha (Ne.symm hab) hnb hna hfb hfa
  have heq : h2 = g2 := by
    apply deref_heap_ext
    intro c
    by_cases hca : c = a
    · rw [hca, h2a, g2a]
    · by_cases hcb : c = b
      · rw [hcb, h2b, g2b]
      · by_cases hcp : c ∈ prev
        · obtain ⟨k, hk⟩ := List.mem_iff_getElem?.mp hcp
          obtain ⟨m, hm⟩ := hr.2.2.2.1 c hcp
          have hklt : k < prev.length := (List.getElem?_eq_some.mp hk).1
          have hwa : na.Weights[k]? = some na.Weights[k] :=
            List.getElem?_eq_getElem (by rw [hWa]; exact hklt)
          have hwb : nb.Weights[k]? = some nb.Weights[k] :=
            List.getElem?_eq_getElem (by rw [hWb]; exact hklt)
          rw [h2p k c _ _ m hk hwa hwb hm, g2p k c _ _ m hk hwb hwa hm, bumpedBy_comm]
        · rw [h2f c hca hcb hcp, g2f c hcb hca hcp]
  refine ⟨h2, ?_, ?_⟩
  · simp only [bind, Except.bind, hup1, hup2]
  · simp only [bind, Except.bind, gup1, gup2, heq]

/-! ### Blanking the learning rates commutes with every operation -/

theorem bind_map_comm {γ γ1 δ δ1 : Type} (φ : γ → γ1) (ψ : δ → δ1) {x : Except Panic γ}
    {x1 : Except Panic γ1} {f : γ → Except Panic δ} {f1 : γ1 → Except Panic δ1}
    (hx : x1 = Except.map φ x) (hf : ∀ a, f1 (φ a) = Except.map ψ (f a)) :
    (x1 >>= f1) = Except.map ψ (x >>= f) := by
  subst hx
  cases x with
  | error e => rfl
  | ok a => exact hf a

theorem bind_same {γ δ δ1 : Type} (ψ : δ → δ1) {x : Except Panic γ}
    {f : γ → Except Panic δ} {f1 : γ → Except Panic δ1}
    (hf : ∀ a, f1 a = Except.map ψ (f a)) : (x >>= f1) = Except.map ψ (x >>= f) := by
  cases x with
  | error e => rfl
  | ok a => exact hf a

theorem deref_erase (h : Heap α) (p : Ptr) :
    deref (eraseLR h) p = Except.map Neuron.noLR (deref h p) := by
  cases p with
  | none => rfl
  | some a =>
    simp only [deref, eraseLR, List.getElem?_map]
    cases h[a]? with
    | none => rfl
    | some n => rfl

theorem store_erase (h : Heap α) (p : Ptr) (n : Neuron α) :
    store (eraseLR h) p n.noLR = eraseLR (store h p n) := by
  cases p with
  | none => rfl
  | some a => simp only [store, eraseLR, List.map_set]

theorem store_erase_eq {h : Heap α} {p : Ptr} {n n1 : Neuron α} (hn : n1 = n.noLR) :
    store (eraseLR h) p n1 = eraseLR (store h p n) := by
  rw [hn]; exact store_erase h p n

theorem ok_store_erase {h : Heap α} {p : Ptr} {n n1 : Neuron α} (hn : n1 = n.noLR) :
    (Except.ok (store (eraseLR h) p n1) : Except Panic (Heap α)) =
      Except.map eraseLR (.ok (store h p n)) :=
  congrArg Except.ok (store_erase_eq hn)

theorem updateError_erase (p : Ptr) (k : Nat) (h : Heap α) :
    updateError p k (eraseLR h) = Except.map eraseLR (updateError p k h) := by
  unfold updateError
  refine bind_map_comm Neuron.noLR eraseLR (deref_erase h p) (fun n => ?_)
  refine bind_same eraseLR (fun q => ?_)
  refine bind_map_comm Neuron.noLR eraseLR (deref_erase h q) (fun m => ?_)
  refine bind_same eraseLR (fun f => ?_)
  refine bind_same eraseLR (fun w => ?_)
  exact ok_store_erase rfl

theorem updateDeltaW_erase (p : Ptr) (k : Nat) (h : Heap α) :
    updateDeltaW p k (eraseLR h) = Except.map eraseLR (updateDeltaW p k h) := by
  unfold updateDeltaW
  refine bind_map_comm Neuron.noLR eraseLR (deref_erase h p) (fun n => ?_)
  refine bind_same eraseLR (fun q => ?_)
  refine bind_map_comm Neuron.noLR eraseLR (deref_erase h q) (fun m => ?_)
  refine bind_same eraseLR (fun d => ?_)
  exact ok_store_erase rfl

theorem updateWeight_erase (p : Ptr) (k : Nat) (h : Heap α) :
    updateWeight p k (eraseLR h) = Except.map eraseLR (updateWeight p k h) := by
  unfold updateWeight
  refine bind_map_comm Neuron.noLR eraseLR (deref_erase h p) (fun n => ?_)
  refine bind_same eraseLR (fun w => ?_)
  refine bind_same eraseLR (fun d => ?_)
  exact ok_store_erase rfl

theorem updateSynapse_erase (p : Ptr) (k : Nat) (h : Heap α) :
    updateSynapse p k (eraseLR h) = Except.map eraseLR (updateSynapse p k h) := by
  unfold updateSynapse
  refine bind_map_comm eraseLR eraseLR (updateError_erase p k h) (fun h1 => ?_)
  refine bind_map_comm eraseLR eraseLR (updateDeltaW_erase p k h1) (fun h2 => ?_)
  exact updateWeight_erase p k h2

theorem forRange_erase {body : Nat → Heap α → Except Panic (Heap α)}
    (hb : ∀ k s, body k (eraseLR s) = Except.map eraseLR (body k s)) :
    ∀ (c k : Nat) (s : Heap α),
    forRange body k c (eraseLR s) = Except.map eraseLR (forRange body k c s) := by
  intro c
  induction c with
  | zero => intro k s; rfl
  | succ c ih =>
    intro k s
    simp only [forRange, hb]
    cases body k s with
    | error e => rfl
    | ok s1 => exact ih (k + 1) s1

theorem update_erase (p : Ptr) (h : Heap α) :
    update p (eraseLR h) = Except.map eraseLR (update p h) := by
  unfold update
  rw [deref_erase]
  cases deref h p with
  | error e => rfl
  | ok n => exact forRange_erase (updateSynapse_erase p) n.Weights.length 0 h

theorem feedForwardSynapse_erase (p : Ptr) (k : Nat) (h : Heap α) :
    feedForwardSynapse p k (eraseLR h) = Except.map eraseLR (feedForwardSynapse p k h) := by
  unfold feedForwardSynapse
  refine bind_map_comm Neuron.noLR eraseLR (deref_erase h p) (fun n => ?_)
  refine bind_same eraseLR (fun w => ?_)
  refine bind_same eraseLR (fun q => ?_)
  refine bind_map_comm Neuron.noLR eraseLR (deref_erase h q) (fun m => ?_)
  exact ok_store_erase rfl

theorem finishNeuron_erase (p : Ptr) (h2 : Heap α) :
    (deref (eraseLR h2) p >>= fun n2 => activation n2 >>= fun fa =>
      pure (store (eraseLR h2) p { n2 with Out := fa.Activate n2.In })) =
    Except.map eraseLR (deref h2 p >>= fun n2 => activation n2 >>= fun fa =>
      pure (store h2 p { n2 with Out := fa.Activate n2.In })) := by
  refine bind_map_comm Neuron.noLR eraseLR (deref_erase h2 p) (fun n2 => ?_)
  refine bind_same eraseLR (fun f => ?_)
  exact ok_store_erase rfl

theorem feedForwardNeuron_erase (input : List α) (i j : Nat) (p : Ptr) (h : Heap α) :
    feedForwardNeuron input i j p (eraseLR h) =
      Except.map eraseLR (feedForwardNeuron input i j p h) := by
  unfold feedForwardNeuron
  refine bind_map_comm Neuron.noLR eraseLR (deref_erase h p) (fun n => ?_)
  have hs : store (eraseLR h) p { n.noLR with In := -n.noLR.Bias } =
      eraseLR (store h p { n with In := -n.Bias }) := store_erase_eq rfl
  by_cases hi : 0 < i
  · simp only [hi, if_true]
    refine bind_map_comm (eraseLR (α := α)) (eraseLR (α := α)) ?_ (finishNeuron_erase p)
    rw [hs]
    exact forRange_erase (feedForwardSynapse_erase p) n.Weights.length 0 _
  · simp only [hi, if_false]
    rw [hs]
    refine bind_map_comm Neuron.noLR eraseLR (deref_erase _ p) (fun n1 => ?_)
    refine bind_same eraseLR (fun w => ?_)
    refine bind_same eraseLR (fun x => ?_)
    refine bind_map_comm (eraseLR (α := α)) (eraseLR (α := α)) ?_ (finishNeuron_erase p)
    exact ok_store_erase rfl

theorem feedForwardLayer_erase (input : List α) (i : Nat) : ∀ (l : List Ptr) (j : Nat)
    (h : Heap α), feedForwardLayer input i j l (eraseLR h) =
      Except.map eraseLR (feedForwardLayer input i j l h) := by
  intro l
  induction l with
  | nil => intro j h; rfl
  | cons p ps ih =>
    intro j h
    simp only [feedForwardLayer, feedForwardNeuron_erase]
    cases feedForwardNeuron input i j p h with
    | error e => rfl
    | ok h1 => exact ih (j + 1) h1

theorem feedForwardFrom_erase (input : List α) : ∀ (ls : List (List Ptr)) (i : Nat)
    (h : Heap α), feedForwardFrom input i ls (eraseLR h) =
      Except.map eraseLR (feedForwardFrom input i ls h) := by
  intro ls
  induction ls with
  | nil => intro i h; rfl
  | cons l ls ih =>
    intro i h
    simp only [feedForwardFrom, feedForwardLayer_erase]
    cases feedForwardLayer input i 0 l h with
    | error e => rfl
    | ok h1 => exact ih (i + 1) h1

theorem copyOut_erase (h : Heap α) : ∀ (l : List Ptr), copyOut (eraseLR h) l = copyOut h l := by
  intro l
  induction l with
  | nil => rfl
  | cons p ps ih =>
    simp only [copyOut, deref_erase, ih]
    cases deref h p with
    | error e => rfl
    | ok n => rfl

theorem ComputeOutput_erase (net : NNet) (input : List α) (h : Heap α) :
    net.ComputeOutput input (eraseLR h) =
      Except.map (fun r => (eraseLR r.1, r.2)) (net.ComputeOutput input h) := by
  unfold NNet.ComputeOutput
  refine bind_same _ (fun l0 => ?_)
  by_cases hl : l0.length ≠ input.length
  · rw [if_pos hl, if_pos hl]; rfl
  · rw [if_neg hl, if_neg hl]
    refine bind_map_comm eraseLR _ (feedForwardFrom_erase input net.Layers 0 h) (fun h1 => ?_)
    refine bind_same _ (fun last => ?_)
    rw [copyOut_erase]
    refine bind_same _ (fun ret => ?_)
    rfl

theorem forNeurons_erase {g : Neuron α → Neuron α} (hg : ∀ n, g n.noLR = (g n).noLR) :
    ∀ (l : List Ptr) (h : Heap α),
    forNeurons g l (eraseLR h) = Except.map eraseLR (forNeurons g l h) := by
  intro l
  induction l with
  | nil => intro h; rfl
  | cons p ps ih =>
    intro h
    simp only [forNeurons, deref_erase]
    cases deref h p with
    | error e => rfl
    | ok n =>
      simp only [Except.map, hg, store_erase]
      exact ih _

theorem forLayers_erase {g : Neuron α → Neuron α} (hg : ∀ n, g n.noLR = (g n).noLR) :
    ∀ (ls : List (List Ptr)) (h : Heap α),
    forLayers g ls (eraseLR h) = Except.map eraseLR (forLayers g ls h) := by
  intro ls
  induction ls with
  | nil => intro h; rfl
  | cons l ls ih =>
    intro h
    simp only [forLayers, forNeurons_erase hg]
    cases forNeurons g l h with
    | error e => rfl
    | ok h1 => exact ih h1

theorem zeroErrors_erase (net : NNet) (h : Heap α) :
    net.zeroErrors (eraseLR h) = Except.map eraseLR (net.zeroErrors h) :=
  forLayers_erase (g := fun n : Neuron α => { n with Error := 0 }) (fun _ => rfl) net.Layers h

theorem computeOutputLoop_erase (label : List α) : ∀ (l : List Ptr) (j : Nat) (acc : α)
    (h : Heap α), computeOutputLoop label j l acc (eraseLR h) =
      Except.map (fun r => (eraseLR r.1, r.2)) (computeOutputLoop label j l acc h) := by
  intro l
  induction l with
  | nil => intro j acc h; rfl
  | cons p ps ih =>
    intro j acc h
    simp only [computeOutputLoop]
    refine bind_same _ (fun y => ?_)
    refine bind_map_comm Neuron.noLR _ (deref_erase h p) (fun n => ?_)
    refine bind_same _ (fun f => ?_)
    have hs : store (eraseLR h) p { n.noLR with Error := f.Prime n.noLR.In * (y - n.noLR.Out) } =
        eraseLR (store h p { n with Error := f.Prime n.In * (y - n.Out) }) := store_erase_eq rfl
    simp only [hs]
    refine bind_map_comm (eraseLR (α := α)) _ (update_erase p _) (fun h2 => ?_)
    exact ih (j + 1) _ h2

theorem computeOutputLayer_erase (net : NNet) (label : List α) (h : Heap α) :
    net.computeOutputLayer label (eraseLR h) =
      Except.map (fun r => (eraseLR r.1, r.2)) (net.computeOutputLayer label h) := by
  unfold NNet.computeOutputLayer
  refine bind_same _ (fun layer => ?_)
  exact computeOutputLoop_erase label layer 0 0 h

theorem propagateLoop_erase : ∀ (l : List Ptr) (h : Heap α),
    propagateLoop l (eraseLR h) = Except.map eraseLR (propagateLoop l h) := by
  intro l
  induction l with
  | nil => intro h; rfl
  | cons p ps ih =>
    intro h
    simp only [propagateLoop, update_erase]
    cases update p h with
    | error e => rfl
    | ok h1 => exact ih h1

theorem propagateErrors_erase (net : NNet) (i : Nat) (h : Heap α) :
    net.propagateErrors i (eraseLR h) = Except.map eraseLR (net.propagateErrors i h) := by
  unfold NNet.propagateErrors
  refine bind_same _ (fun layer => ?_)
  exact propagateLoop_erase layer h

theorem backwardLoop_erase (net : NNet) (label : List α) : ∀ (c : Nat) (acc : α) (h : Heap α),
    backwardLoop net label c acc (eraseLR h) =
      Except.map (fun r => (eraseLR r.1, r.2)) (backwardLoop net label c acc h) := by
  intro c
  induction c with
  | zero => intro acc h; rfl
  | succ i ih =>
    intro acc h
    simp only [backwardLoop]
    by_cases hi : i = net.Layers.length - 1
    · rw [if_pos hi, if_pos hi]
      refine bind_map_comm (fun r : Heap α × α => (eraseLR r.1, r.2)) _
        (computeOutputLayer_erase net label h) (fun r1 => ?_)
      refine bind_map_comm (fun r : Heap α × α => (eraseLR r.1, r.2)) _
        (computeOutputLayer_erase net label r1.1) (fun r2 => ?_)
      exact ih _ r2.1
    · rw [if_neg hi, if_neg hi]
      refine bind_map_comm (eraseLR (α := α)) _ (propagateErrors_erase net i h) (fun h1 => ?_)
      exact ih _ h1

theorem trainExample_erase (net : NNet) (d : Dataset α) (acc : α) (h : Heap α) :
    trainExample net d acc (eraseLR h) =
      Except.map (fun r => (eraseLR r.1, r.2)) (trainExample net d acc h) := by
  unfold trainExample
  refine bind_map_comm (eraseLR (α := α)) _ (feedForwardFrom_erase d.Data net.Layers 0 h)
    (fun h1 => ?_)
  refine bind_map_comm (eraseLR (α := α)) _ (zeroErrors_erase net h1) (fun h2 => ?_)
  exact backwardLoop_erase net d.Label _ acc h2

theorem trainLoop_erase (net : NNet) : ∀ (ds : List (Dataset α)) (acc : α) (h : Heap α),
    trainLoop net ds acc (eraseLR h) =
      Except.map (fun r => (eraseLR r.1, r.2)) (trainLoop net ds acc h) := by
  intro ds
  induction ds with
  | nil => intro acc h; rfl
  | cons d ds ih =>
    intro acc h
    simp only [trainLoop, trainExample_erase]
    cases trainExample net d acc h with
    | error e => rfl
    | ok r => exact ih r.2 r.1

theorem trainIteration_erase (net : NNet) (dataset : List (Dataset α)) (h : Heap α) :
    net.trainIteration dataset (eraseLR h) =
      Except.map (fun r => (eraseLR r.1, r.2)) (net.trainIteration dataset h) := by
  simp only [NNet.trainIteration, trainLoop_erase]
  cases trainLoop net dataset 0 h with
  | error e => rfl
  | ok r => rfl

/-! ### The learning rates stay as they are -/

theorem Stable_LearningRate : Stable (Neuron.LearningRate (α := α)) :=
  { setIn := fun _ _ => rfl, setOut := fun _ _ => rfl, setError := fun _ _ => rfl,
    setDeltaW := fun _ _ _ => rfl, setWeights := fun _ _ _ => rfl }

theorem backwardLoop_map {β : Type} {f : Neuron α → β} (hf : Stable f) {net : NNet}
    {label : List α} : ∀ (c : Nat) (acc : α) (h : Heap α) (r : Heap α × α),
    backwardLoop net label c acc h = .ok r → r.1.map f = h.map f := by
  intro c
  induction c with
  | zero =>
    intro acc h r hr
    simp only [backwardLoop, Except.ok.injEq] at hr
    rw [← hr]
  | succ i ih =>
    intro acc h r hr
    simp only [backwardLoop] at hr
    by_cases hi : i = net.Layers.length - 1
    · rw [if_pos hi] at hr
      simp only [bind, Except.bind] at hr
      cases h1 : net.computeOutputLayer label h with
      | error e => simp [h1] at hr
      | ok r1 =>
        simp only [h1] at hr
        cases h2 : net.computeOutputLayer label r1.1 with
        | error e => simp [h2] at hr
        | ok r2 =>
          simp only [h2] at hr
          exact (ih _ _ _ hr).trans ((computeOutputLayer_map hf h2).trans
            (computeOutputLayer_map hf h1))
    · rw [if_neg hi] at hr
      simp only [bind, Except.bind] at hr
      cases h1 : net.propagateErrors i h with
      | error e => simp [h1] at hr
      | ok s =>
        simp only [h1] at hr
        exact (ih _ _ _ hr).trans (propagateErrors_map hf h1)

theorem trainExample_map {β : Type} {f : Neuron α → β} (hf : Stable f) {net : NNet}
    {d : Dataset α} {acc : α} {h : Heap α} {r : Heap α × α}
    (hr : trainExample net d acc h = .ok r) : r.1.map f = h.map f := by
  unfold trainExample at hr
  simp only [bind, Except.bind] at hr
  cases h1 : net.feedForward d.Data h with
  | error e => simp [h1] at hr
  | ok s1 =>
    simp only [h1] at hr
    cases h2 : net.zeroErrors s1 with
    | error e => simp [h2] at hr
    | ok s2 =>
      simp only [h2] at hr
      exact (backwardLoop_map hf _ _ _ _ hr).trans
        ((forLayers_map f (fun n => hf.setError n 0) _ _ _ h2).trans (feedForward_map hf h1))

theorem trainLoop_map {β : Type} {f : Neuron α → β} (hf : Stable f) {net : NNet} :
    ∀ (ds : List (Dataset α)) (acc : α) (h : Heap α) (r : Heap α × α),
    trainLoop net ds acc h = .ok r → r.1.map f = h.map f := by
  intro ds
  induction ds with
  | nil =>
    intro acc h r hr
    simp only [trainLoop, Except.ok.injEq] at hr
    rw [← hr]
  | cons d ds ih =>
    intro acc h r hr
    simp only [trainLoop] at hr
    cases h1 : trainExample net d acc h with
    | error e => simp [h1] at hr
    | ok r1 =>
      simp only [h1] at hr
      exact (ih _ _ _ hr).trans (trainExample_map hf h1)

theorem trainIteration_map {β : Type} {f : Neuron α → β} (hf : Stable f) {net : NNet}
    {dataset : List (Dataset α)} {h : Heap α} {r : Heap α × α × Option SizeError}
    (hr : net.trainIteration dataset h = .ok r) : r.1.map f = h.map f := by
  unfold NNet.trainIteration at hr
  cases h1 : trainLoop net dataset 0 h with
  | error e => simp [h1] at hr
  | ok r1 =>
    simp only [h1, Except.ok.injEq] at hr
    rw [← hr]
    exact trainLoop_map hf _ _ _ _ h1

/-! ### Runs from heaps that differ in the learning rates only -/

theorem sameOutcome_of_erase {β : Type} {f : Heap α → Except Panic (Heap α × β)}
    (hop : ∀ h, f (eraseLR h) = Except.map (fun r => (eraseLR r.1, r.2)) (f h))
    {h g : Heap α} (hsame : eraseLR h = eraseLR g) : sameOutcome (f h) (f g) := by
  have e : Except.map (fun r : Heap α × β => (eraseLR r.1, r.2)) (f h) =
      Except.map (fun r : Heap α × β => (eraseLR r.1, r.2)) (f g) := by
    rw [← hop h, ← hop g, hsame]
  cases hx : f h with
  | error e1 =>
    cases hy : f g with
    | error e2 =>
      rw [hx, hy] at e
      simp only [Except.map, Except.error.injEq] at e
      exact e
    | ok b => rw [hx, hy] at e; simp [Except.map] at e
  | ok a =>
    cases hy : f g with
    | error e2 => rw [hx, hy] at e; simp [Except.map] at e
    | ok b =>
      rw [hx, hy] at e
      simp only [Except.map, Except.ok.injEq, Prod.mk.injEq] at e
      exact ⟨e.2, e.1⟩

theorem withUnit_erase {op : Heap α → Except Panic (Heap α)}
    (hop : ∀ h, op (eraseLR h) = Except.map eraseLR (op h)) (h : Heap α) :
    withUnit (op (eraseLR h)) = Except.map (fun r => (eraseLR r.1, r.2)) (withUnit (op h)) := by
  rw [hop]
  cases op h with
  | error e => rfl
  | ok s => rfl

theorem keepsLR_of_map {β : Type} {h : Heap α} {x : Except Panic (Heap α × β)}
    (hx : ∀ r, x = .ok r → r.1.map Neuron.LearningRate = h.map Neuron.LearningRate) :
    keepsLR h x := by
  cases x with
  | error e => trivial
  | ok r => exact hx r rfl

theorem keepsLR_withUnit {h : Heap α} {x : Except Panic (Heap α)}
    (hx : ∀ s, x = .ok s → s.map Neuron.LearningRate = h.map Neuron.LearningRate) :
    keepsLR h (withUnit x) := by
  cases x with
  | error e => trivial
  | ok s => exact hx s rfl

/-! ## The claims -/

/-- C1: persistence round trip.  For a well-formed network with the
activation function `f` attached to every neuron and an input vector `v` of
the size of the input layer: `Save` writes a document, `NNetLoad` of that
document (into any heap) returns a network, `SetActivation(f)` on it
succeeds, and `ComputeOutput(v)` on the result returns exactly the vector
that `ComputeOutput(v)` returns on the original network. -/
theorem save_load_same_output (net : NNet) (h h0 : Heap α) (f : ActivationFunc α)
    (v : List α) (l0 : List Ptr) (ls : List (List Ptr)) (hwf : WellFormed h net)
    (hact : ∀ p ∈ net.Layers.flatten, ∃ n, deref h p = .ok n ∧ n.Activation = some f)
    (hnet : net.Layers = l0 :: ls) (hlen : v.length = l0.length) :
    ∃ file h1 net1 h2 out ha hb, net.Save h = .ok file ∧
      NNetLoad file h0 = .ok (h1, net1) ∧
      net1.SetActivation (some f) h1 = .ok h2 ∧
      net.ComputeOutput v h = .ok (ha, .ok out) ∧
      net1.ComputeOutput v h2 = .ok (hb, .ok out) := by
  obtain ⟨file, h1, net1, h2, hsave, hload, hset, hwf2, hpar⟩ :=
    roundtrip_core net h h0 f hwf hact
  obtain ⟨ha, hrun, _, _⟩ := ComputeOutput_ok hwf hnet hlen
  cases hL1 : net1.Layers with
  | nil =>
    simp [NNet.params, hL1, hnet] at hpar
  | cons k0 ks =>
    have hk0 : k0.length = l0.length := by
      have hm := congrArg (fun (x : List (List (Param α))) => (x.map List.length).head?) hpar
      simpa [NNet.params, hL1, hnet] using hm
    obtain ⟨hb, hrun2, _, _⟩ := ComputeOutput_ok hwf2 hL1 (hlen.trans hk0.symm)
    rw [hpar] at hrun2
    exact ⟨file, h1, net1, h2, _, ha, hb, hsave, hload, hset, hrun, hrun2⟩

/-- C1, instantiated on the 1-2 network, loaded into the heap it lives in. -/
theorem save_load_same_output_witness :
    ∃ file h1 net1 h2 out ha hb, exNet.Save exHeap = .ok file ∧
      NNetLoad file exHeap = .ok (h1, net1) ∧
      net1.SetActivation (some linearAct) h1 = .ok h2 ∧
      exNet.ComputeOutput [2] exHeap = .ok (ha, .ok out) ∧
      net1.ComputeOutput [2] h2 = .ok (hb, .ok out) :=
  save_load_same_output exNet exHeap exHeap linearAct [2] [some 0] [[some 1, some 2]]
    (by decide)
    (by
      intro p hp
      simp only [exNet, List.flatten_cons, List.flatten_nil, List.append_nil,
        List.cons_append, List.nil_append, List.mem_cons, List.mem_singleton,
        List.not_mem_nil, or_false] at hp
      rcases hp with rfl | rfl | rfl
      · exact ⟨_, rfl, rfl⟩
      · exact ⟨_, rfl, rfl⟩
      · exact ⟨_, rfl, rfl⟩)
    rfl rfl

/-- C2: on a well-formed network with at least one layer and an input vector
of the size of the input layer, `ComputeOutput` returns no error and the
vector of the layer-by-layer recurrence, whose length is the size of the
output layer. -/
theorem ComputeOutput_recurrence (net : NNet) (input : List α) (h : Heap α)
    (l0 : List Ptr) (ls : List (List Ptr)) (hwf : WellFormed h net)
    (hnet : net.Layers = l0 :: ls) (hlen : input.length = l0.length) :
    (∃ h1, net.ComputeOutput input h = .ok (h1, .ok (forwardSpec input (net.params h)))) ∧
      (forwardSpec input (net.params h)).length = (ls.getLastD l0).length := by
  obtain ⟨h1, hrun, _, _⟩ := ComputeOutput_ok hwf hnet hlen
  refine ⟨⟨h1, hrun⟩, ?_⟩
  simp only [NNet.params, hnet, List.map_cons]
  rw [forwardSpec_length _ (by simpa using hlen)]
  have hlast : ∀ (ls : List (List Ptr)) (l : List Ptr),
      ((ls.map (fun l => l.map (paramAt h))).getLastD (l.map (paramAt h))).length =
        (ls.getLastD l).length := by
    intro ls
    induction ls with
    | nil => intro l; simp
    | cons x xs ih => intro l; rw [List.map_cons, getLastD_cons, getLastD_cons]; exact ih x
  exact hlast ls l0

/-- C2, instantiated on the 1-2 network with input `[2]`. -/
theorem ComputeOutput_recurrence_witness :
    (∃ h1, exNet.ComputeOutput [2] exHeap =
        .ok (h1, .ok (forwardSpec [2] (exNet.params exHeap)))) ∧
      (forwardSpec [2] (exNet.params exHeap)).length =
        ([[some 1, some 2]].getLastD [some 0]).length :=
  ComputeOutput_recurrence exNet [2] exHeap [some 0] [[some 1, some 2]] (by decide) rfl rfl

/-- C3: for a network with at least one layer and an input vector whose length
differs from the size of layer 0, `ComputeOutput` returns an error and no
output vector, and the heap (hence every field of every neuron) is unchanged. -/
theorem ComputeOutput_size_mismatch (net : NNet) (input : List α) (h : Heap α)
    (l0 : List Ptr) (rest : List (List Ptr)) (hnet : net.Layers = l0 :: rest)
    (hlen : input.length ≠ l0.length) :
    net.ComputeOutput input h = .ok (h, .error ⟨l0.length, input.length⟩) := by
  have hne : ¬ l0.length = input.length := fun e => hlen e.symm
  simp [NNet.ComputeOutput, index, hnet, hne, bind, Except.bind, pure, Except.pure]

/-- C3, instantiated on the 1-2 network with an input of length 2. -/
theorem ComputeOutput_size_mismatch_witness :
    exNet.ComputeOutput [2, 3] exHeap = .ok (exHeap, .error ⟨1, 2⟩) :=
  ComputeOutput_size_mismatch exNet [2, 3] exHeap [some 0] [[some 1, some 2]] rfl (by decide)

/-- C4: the network `NewNNet` builds from the layer sizes 1, 8, 1 of the test,
trained on a dataset of one record of the right sizes, does not return nil:
`Train` panics with an index out of range.  (The backward loop of
`trainIteration` runs down to layer 0 and calls `update` on the input
neurons, which have one weight and no `Inputs`.) -/
theorem newAndTrain_181_panics :
    panicOf (newAndTrain [1, 8, 1] (some (Sigmoid expQ)) (fun _ => 1 / 2)
      [{ Data := [1 / 2], Label := [1] }] exCallback 200 0) = some .indexOutOfRange := by
  decide!

/-- C5: if the first `n >= 1` epochs complete, returning `losses`, and the
callback answers `true` to the first `n - 1` of them and `false` to the
`n`-th, then `Train`, given fuel for `n` rounds or more, returns nil with the
heap left by exactly those `n` epochs, having invoked the callback exactly
`n` times, each time after an epoch and on the loss that epoch returned. -/
theorem Train_stops_at_first_false {σ : Type} (net : NNet) (dataset : List (Dataset α))
    (cb : σ → α → Bool × σ) (n : Nat) (s : σ) (h hn : Heap α) (losses : List α) (fuel : Nat)
    (hn1 : 1 ≤ n) (hfuel : n ≤ fuel)
    (hep : runEpochs net dataset n h = .ok (hn, losses))
    (hcb : (cbAnswers cb s losses).1 = List.replicate (n - 1) true ++ [false]) :
    net.Train dataset cb fuel s [] h =
        .ok (some { heap := hn, cbState := (cbAnswers cb s losses).2,
                    calls := losses.zip (List.replicate (n - 1) true ++ [false]),
                    err := none }) ∧
      losses.length = n := by
  obtain ⟨m, rfl⟩ : ∃ m, n = m + 1 := ⟨n - 1, by omega⟩
  refine ⟨?_, ?_⟩
  · have hrun := Train_run net dataset cb m s h hn losses fuel [] hfuel hep
      (by simpa using hcb)
    simpa using hrun
  · have hlen := congrArg List.length hcb
    have hcl : ∀ (xs : List α) (t : σ), (cbAnswers cb t xs).1.length = xs.length := by
      intro xs
      induction xs with
      | nil => intro t; rfl
      | cons x xs ihx => intro t; simp [cbAnswers, ihx]
    rw [hcl] at hlen
    simpa using hlen

/-- C5, instantiated on the network of sizes 0 and 1 with a callback that
stops at its second invocation. -/
theorem Train_stops_at_first_false_witness :
    exNet0.Train exData0 exCallback 5 0 [] exHeap0 =
        .ok (some { heap := (okValue ([], []) (runEpochs exNet0 exData0 2 exHeap0)).1,
                    cbState := (cbAnswers exCallback 0
                      (okValue ([], []) (runEpochs exNet0 exData0 2 exHeap0)).2).2,
                    calls := (okValue ([], []) (runEpochs exNet0 exData0 2 exHeap0)).2.zip
                      (List.replicate (2 - 1) true ++ [false]),
                    err := none }) ∧
      (okValue ([], []) (runEpochs exNet0 exData0 2 exHeap0)).2.length = 2 :=
  Train_stops_at_first_false exNet0 exData0 exCallback 2 0 exHeap0 _ _ 5 (by decide) (by decide)
    rfl rfl

/-- C6: when an epoch on a non-empty dataset completes, `trainIteration`
returns nil and the mean loss: `1 / len(dataset)` times the sum over the
examples `d`, in dataset order and each counted once, of the sum over the
output neurons `j` of `(Label_d[j] - Out_d[j])^2 / 2`, where `Out_d` is read
from the heap right after the forward pass on example `d`. -/
theorem trainIteration_mean_loss (net : NNet) (dataset : List (Dataset α)) (h h1 : Heap α)
    (loss : α) (err : Option SizeError) (_hne : dataset ≠ [])
    (hr : net.trainIteration dataset h = .ok (h1, loss, err)) :
    ∃ hs, forwardHeaps net dataset h = .ok hs ∧ hs.length = dataset.length ∧
      loss = meanLoss net dataset hs ∧ err = none := by
  obtain ⟨q, hq, hreq⟩ := trainIteration_ok hr
  obtain ⟨hs, hfh, hlen, hloss⟩ := trainLoop_loss _ _ _ _ hq
  simp only [Prod.mk.injEq] at hreq
  obtain ⟨_, rfl, rfl⟩ := hreq
  refine ⟨hs, hfh, hlen, ?_, rfl⟩
  rw [hloss, meanLoss, zero_add, div_eq_mul_inv, one_div, mul_comm]

/-- C6, instantiated on one epoch of the network of sizes 0 and 1. -/
theorem trainIteration_mean_loss_witness :
    ∃ hs, forwardHeaps exNet0 exData0 exHeap0 = .ok hs ∧ hs.length = exData0.length ∧
      (okValue ([], 0, none) (exNet0.trainIteration exData0 exHeap0)).2.1 =
        meanLoss exNet0 exData0 hs ∧
      (okValue ([], 0, none) (exNet0.trainIteration exData0 exHeap0)).2.2 = none :=
  trainIteration_mean_loss exNet0 exData0 exHeap0 _ _ _ (List.cons_ne_nil _ _) rfl

/-- C7: for every list of non-negative layer sizes `[n0,...,nk]`, `NewNNet`
returns a network with exactly `k+1` layers, layer `i` having exactly `n_i`
neurons; every neuron of the input layer has `Weights` exactly `[1.0]` and an
empty `Inputs`; every neuron of a layer `i > 0` has
`len(Weights) = len(DeltaW) = len(Inputs) = n_(i-1)`, its `Inputs` being the
neurons of layer `i-1` in order. -/
theorem NewNNet_shape (layers : List Int) (f : ActivationFunc α) (rnd : Nat → α) (h0 : Heap α)
    (hpos : ∀ size ∈ layers, 0 ≤ size) :
    ∃ h net, NewNNet layers (some f) rnd h0 = .ok (h, net) ∧
      net.Layers.map List.length = layers.map Int.toNat ∧
      (∀ l0, net.Layers[0]? = some l0 → ∀ p ∈ l0, ∃ n, deref h p = .ok n ∧
        n.Weights = [1] ∧ n.Inputs = []) ∧
      (∀ i prev l, net.Layers[i]? = some prev → net.Layers[i + 1]? = some l →
        ∀ p ∈ l, ∃ n, deref h p = .ok n ∧ n.Weights.length = prev.length ∧
          n.DeltaW.length = prev.length ∧ n.Inputs.length = prev.length ∧ n.Inputs = prev) := by
  obtain ⟨x, net, hrun, hlen, hfr⟩ := NewNNet_ok layers f rnd h0 hpos
  refine ⟨h0 ++ x, net, hrun, hlen, ?_, ?_⟩
  · intro l0 hl0 p hp
    cases hL : net.Layers with
    | nil => rw [hL] at hl0; simp at hl0
    | cons l ls =>
      rw [hL] at hl0 hfr
      simp only [List.getElem?_cons_zero, Option.some.injEq] at hl0
      subst hl0
      obtain ⟨n, hn, hfresh⟩ := hfr.1 p hp
      simp only [isFresh, if_true] at hfresh
      exact ⟨n, hn, by rw [hfresh]; rfl, by rw [hfresh]; rfl⟩
  · intro i prev l hi hi1 p hp
    obtain ⟨n, hn, c, hc⟩ := freshFrom_index f rnd _ _ _ _ i prev l hfr hi hi1 p hp
    refine ⟨n, hn, ?_, ?_, ?_, ?_⟩ <;> rw [hc] <;> simp [freshLater, drawWeights]

/-- C7, instantiated on the layer sizes 1, 8, 1 of the test. -/
theorem NewNNet_shape_witness :
    ∃ h net, NewNNet [1, 8, 1] (some linearAct) (fun _ => 1 / 2) [] = .ok (h, net) ∧
      net.Layers.map List.length = [1, 8, 1].map Int.toNat ∧
      (∀ l0, net.Layers[0]? = some l0 → ∀ p ∈ l0, ∃ n, deref h p = .ok n ∧
        n.Weights = [1] ∧ n.Inputs = []) ∧
      (∀ i prev l, net.Layers[i]? = some prev → net.Layers[i + 1]? = some l →
        ∀ p ∈ l, ∃ n, deref h p = .ok n ∧ n.Weights.length = prev.length ∧
          n.DeltaW.length = prev.length ∧ n.Inputs.length = prev.length ∧ n.Inputs = prev) :=
  NewNNet_shape [1, 8, 1] linearAct (fun _ => 1 / 2) [] (by decide)

/-- C8, as stated, fails: a document whose second layer holds `null` for a
neuron is deserialized without error, and the relinking loop of `NNetLoad`
then panics on the nil pointer. -/
theorem NNetLoad_null_neuron_panics :
    panicOf (NNetLoad exFileNull ([] : Heap ℚ)) = some .nilDereference := by
  decide!

/-- C8, amended: for every deserialized network in which no entry of a layer
`i > 0` is null, `NNetLoad` returns a network in which every neuron of a
layer `i > 0` has as `Inputs` exactly the neurons of layer `i - 1`, in
order (so of the same length), and whose serialized fields are the
deserialized values: saving the loaded network gives back the document. -/
theorem NNetLoad_relinks (file : NetRecord α) (h0 : Heap α)
    (hsome : ∀ rs ∈ file.tail, ∀ r ∈ rs, r.isSome = true) :
    ∃ h1 net, NNetLoad file h0 = .ok (h1, net) ∧
      net.Layers.map List.length = file.map List.length ∧
      (∀ i prev l, net.Layers[i]? = some prev → net.Layers[i + 1]? = some l →
        ∀ p ∈ l, ∃ n, deref h1 p = .ok n ∧ n.Inputs = prev ∧
          n.Inputs.length = prev.length) ∧
      net.Save h1 = .ok file := by
  obtain ⟨h1, hrun, hmap, hlink⟩ := NNetLoad_ok file h0 hsome
  have hrec := NNetLoad_records file h0 h1 hmap
  refine ⟨h1, _, hrun, ?_, ?_, marshal_of_records _ _ hrec⟩
  · have hlen : ∀ (ls : List (List Ptr)) (f : NetRecord α),
        List.Forall₂ (List.Forall₂ (recordAt h1)) ls f →
        ls.map List.length = f.map List.length := by
      intro ls f hall
      induction hall with
      | nil => rfl
      | cons hl _ ih => simp only [List.map_cons, ih, hl.length_eq]
    exact hlen _ _ hrec
  · intro i prev l hi hi1 p hp
    cases hL : (unmarshal file h0).2 with
    | nil => simp [hL] at hi
    | cons k0 ks =>
      rw [hL] at hlink
      simp only [hL] at hi hi1
      obtain ⟨n, hn, hin⟩ := linkedInputs_index h1 ks k0 i prev l hlink hi hi1 p hp
      exact ⟨n, hn, hin, by rw [hin]⟩

/-- C8, amended, instantiated on a document of two layers of one neuron. -/
theorem NNetLoad_relinks_witness :
    ∃ h1 net, NNetLoad exFile ([] : Heap ℚ) = .ok (h1, net) ∧
      net.Layers.map List.length = exFile.map List.length ∧
      (∀ i prev l, net.Layers[i]? = some prev → net.Layers[i + 1]? = some l →
        ∀ p ∈ l, ∃ n, deref h1 p = .ok n ∧ n.Inputs = prev ∧
          n.Inputs.length = prev.length) ∧
      net.Save h1 = .ok exFile :=
  NNetLoad_relinks exFile [] (by decide)

/-- C9: forward evaluation is deterministic and repeatable.  On a well-formed
network and an input of matching length, `ComputeOutput` called twice in a
row returns the same vector `out` both times; and any other well-formed
network with the same parameters (layer by layer and neuron by neuron the
same `Bias`, `Weights` and `Activate`), whatever its `In`, `Out`, `Error`
and `DeltaW` are, returns that same vector for the same input. -/
theorem ComputeOutput_deterministic (net net1 : NNet) (input : List α) (h h1 : Heap α)
    (l0 : List Ptr) (ls : List (List Ptr)) (hwf : WellFormed h net)
    (hwf1 : WellFormed h1 net1) (hnet : net.Layers = l0 :: ls)
    (hlen : input.length = l0.length) (hpar : net1.params h1 = net.params h) :
    ∃ out ha hb hc, net.ComputeOutput input h = .ok (ha, .ok out) ∧
      net.ComputeOutput input ha = .ok (hb, .ok out) ∧
      net1.ComputeOutput input h1 = .ok (hc, .ok out) := by
  obtain ⟨ha, hrun, hfro, _⟩ := ComputeOutput_ok hwf hnet hlen
  obtain ⟨hb, hrun2, _, _⟩ := ComputeOutput_ok (WellFormed_congr hfro hwf) hnet hlen
  rw [params_congr hfro] at hrun2
  cases hL1 : net1.Layers with
  | nil =>
    simp [NNet.params, hL1, hnet] at hpar
  | cons k0 ks =>
    have hk0 : k0.length = l0.length := by
      have hmap := congrArg (fun (x : List (List (Param α))) => (x.map List.length).head?) hpar
      simpa [NNet.params, hL1, hnet] using hmap
    obtain ⟨hc, hrun3, _, _⟩ := ComputeOutput_ok hwf1 hL1 (hlen.trans hk0.symm)
    rw [hpar] at hrun3
    exact ⟨_, ha, hb, hc, hrun, hrun2, hrun3⟩

/-- C9, instantiated on the 1-2 network, fresh and with other values of
`In`, `Out`, `Error` and `DeltaW`. -/
theorem ComputeOutput_deterministic_witness :
    ∃ out ha hb hc, exNet.ComputeOutput [2] exHeap = .ok (ha, .ok out) ∧
      exNet.ComputeOutput [2] ha = .ok (hb, .ok out) ∧
      exNet.ComputeOutput [2] exHeapUsed = .ok (hc, .ok out) :=
  ComputeOutput_deterministic exNet exNet [2] exHeap exHeapUsed [some 0] [[some 1, some 2]]
    (by decide) (by decide) rfl rfl rfl

/-- C10: over the reals, with `math.Exp` the exponential, `Sigmoid.Activate x`
is `1 / (1 + e^(-x))`, `Sigmoid.Prime x` is `Activate x * (1 - Activate x)`,
and that value is the derivative of `Activate` at `x`. -/
theorem Sigmoid_Prime_is_derivative (x : ℝ) :
    Sigmoid.Activate Real.exp x = 1 / (1 + Real.exp (-x)) ∧
      Sigmoid.Prime Real.exp x =
        Sigmoid.Activate Real.exp x * (1 - Sigmoid.Activate Real.exp x) ∧
      HasDerivAt (Sigmoid.Activate Real.exp) (Sigmoid.Prime Real.exp x) x := by
  refine ⟨rfl, rfl, ?_⟩
  have hpos : (1 + Real.exp (-x)) ≠ 0 := ne_of_gt (by positivity)
  have h1 : HasDerivAt (fun y : ℝ => Real.exp (-y)) (Real.exp (-x) * (-1)) x :=
    (hasDerivAt_neg x).exp
  have h2 : HasDerivAt (fun y : ℝ => 1 + Real.exp (-y)) (Real.exp (-x) * (-1)) x :=
    h1.const_add 1
  have h3 := h2.inv hpos
  have hfun : Sigmoid.Activate Real.exp = fun y : ℝ => (1 + Real.exp (-y))⁻¹ := by
    funext y
    simp [Sigmoid.Activate]
  have hval : Sigmoid.Prime Real.exp x =
      -(Real.exp (-x) * (-1)) / (1 + Real.exp (-x)) ^ 2 := by
    simp only [Sigmoid.Prime, Sigmoid.Activate]
    field_simp
    ring
  rw [hfun, hval]
  exact h3

/-- C11: the shape invariant (every neuron of a layer `i > 0` has
`len(Weights) = len(DeltaW) = len(Inputs) = ` size of layer `i - 1`) holds for
every network returned by `NewNNet`, and every one of `feedForward`,
`ComputeOutput`, `zeroErrors`, `update` (on any neuron), `computeOutputLayer`,
`propagateErrors` and `SetActivation`, run in a heap where it holds, leaves a
heap where it holds.  None of them writes `net.Layers`: the number of layers
and the size of every layer are those of the network they are given. -/
theorem Shape_kept (net : NNet) (h : Heap α) (hs : Shape h net) :
    (∀ input h1, net.feedForward input h = .ok h1 → Shape h1 net) ∧
      (∀ input r, net.ComputeOutput input h = .ok r → Shape r.1 net) ∧
      (∀ h1, net.zeroErrors h = .ok h1 → Shape h1 net) ∧
      (∀ p h1, update p h = .ok h1 → Shape h1 net) ∧
      (∀ label r, net.computeOutputLayer label h = .ok r → Shape r.1 net) ∧
      (∀ i h1, net.propagateErrors i h = .ok h1 → Shape h1 net) ∧
      (∀ fn h1, net.SetActivation fn h = .ok h1 → Shape h1 net) ∧
      (∀ (layers : List Int) (f : ActivationFunc α) (rnd : Nat → α) (h0 : Heap α),
        (∀ size ∈ layers, 0 ≤ size) →
        ∃ h1 net1, NewNNet layers (some f) rnd h0 = .ok (h1, net1) ∧ Shape h1 net1) := by
  refine ⟨?_, ?_, ?_, ?_, ?_, ?_, ?_, ?_⟩
  · intro input h1 hr
    exact Shape_congr (feedForward_map Stable_shape hr) hs
  · intro input r hr
    exact Shape_congr (ComputeOutput_map Stable_shape hr) hs
  · intro h1 hr
    exact Shape_congr (forLayers_map Neuron.shape (g := fun n : Neuron α => { n with Error := 0 })
      (fun _ => rfl) _ _ _ hr) hs
  · intro p h1 hr
    exact Shape_congr (update_map Stable_shape hr) hs
  · intro label r hr
    exact Shape_congr (computeOutputLayer_map Stable_shape hr) hs
  · intro i h1 hr
    exact Shape_congr (propagateErrors_map Stable_shape hr) hs
  · intro fn h1 hr
    exact Shape_congr (forLayers_map Neuron.shape
      (g := fun n : Neuron α => { n with Activation := fn }) (fun _ => rfl) _ _ _ hr) hs
  · intro layers f rnd h0 hpos
    exact NewNNet_Shape layers f rnd h0 hpos

/-- C11, instantiated on the 1-2 network. -/
theorem Shape_kept_witness :
    (∀ input h1, exNet.feedForward input exHeap = .ok h1 → Shape h1 exNet) ∧
      (∀ input r, exNet.ComputeOutput input exHeap = .ok r → Shape r.1 exNet) ∧
      (∀ h1, exNet.zeroErrors exHeap = .ok h1 → Shape h1 exNet) ∧
      (∀ p h1, update p exHeap = .ok h1 → Shape h1 exNet) ∧
      (∀ label r, exNet.computeOutputLayer label exHeap = .ok r → Shape r.1 exNet) ∧
      (∀ i h1, exNet.propagateErrors i exHeap = .ok h1 → Shape h1 exNet) ∧
      (∀ fn h1, exNet.SetActivation fn exHeap = .ok h1 → Shape h1 exNet) ∧
      (∀ (layers : List Int) (f : ActivationFunc ℚ) (rnd : Nat → ℚ) (h0 : Heap ℚ),
        (∀ size ∈ layers, 0 ≤ size) →
        ∃ h1 net1, NewNNet layers (some f) rnd h0 = .ok (h1, net1) ∧ Shape h1 net1) :=
  Shape_kept exNet exHeap (by decide)

/-- C12: two networks with the same layer sizes whose entries agree, position
by position, on `Bias`, `Weights`, `DeltaW`, `LearningRate`, `Momentum` and
`ActivationName` (or are both nil) are saved to the same document, whatever
their `In`, `Out`, `Error`, `Inputs` and `Activation` are. -/
theorem Save_reads_persisted_fields (net net1 : NNet) (h h1 : Heap α)
    (hsame : List.Forall₂ (List.Forall₂ (sameRecord h h1)) net.Layers net1.Layers) :
    ∃ file, net.Save h = .ok file ∧ net1.Save h1 = .ok file := by
  obtain ⟨file, hf, hf1⟩ := sameRecord_file _ _ hsame
  exact ⟨file, marshal_of_records _ _ hf, marshal_of_records _ _ hf1⟩

/-- C12, instantiated on the 1-2 network and a copy of it in other cells with
other transient fields, links and activation functions. -/
theorem Save_reads_persisted_fields_witness :
    ∃ file, exNet.Save exHeap = .ok file ∧ exNetOther.Save exHeapOther = .ok file :=
  Save_reads_persisted_fields exNet exNetOther exHeap exHeapOther
    (List.Forall₂.cons
      (List.Forall₂.cons ⟨_, _, rfl, rfl, rfl, rfl, rfl, rfl, rfl, rfl⟩ List.Forall₂.nil)
      (List.Forall₂.cons
        (List.Forall₂.cons ⟨_, _, rfl, rfl, rfl, rfl, rfl, rfl, rfl, rfl⟩
          (List.Forall₂.cons ⟨_, _, rfl, rfl, rfl, rfl, rfl, rfl, rfl, rfl⟩ List.Forall₂.nil))
        List.Forall₂.nil))

/-- C13: for every two distinct neurons `a` and `b` of the same layer `i + 1`
of a well-formed network, running `a.update()` then `b.update()` and running
`b.update()` then `a.update()` from the same state both run to the end and
leave every neuron of layer `i` the same (its `Error` included), leave `a`
and `b` the same (their `Weights` and `DeltaW` included), and in fact leave
the same state, over an arbitrary field. -/
theorem update_order_irrelevant (net : NNet) (h : Heap α) (i : Nat) (prev l : List Ptr)
    (a b : Ptr) (hwf : WellFormed h net) (hs : Shape h net) (hi : net.Layers[i]? = some prev)
    (hi1 : net.Layers[i + 1]? = some l) (ha : a ∈ l) (hb : b ∈ l) (hab : a ≠ b) :
    ∃ sab sba, (update a h >>= update b) = .ok sab ∧ (update b h >>= update a) = .ok sba ∧
      (∀ q ∈ prev, errorAt sab q = errorAt sba q) ∧
      deref sab a = deref sba a ∧ deref sab b = deref sba b ∧ sab = sba := by
  obtain ⟨h2, h1, h3⟩ := update_swap (LayerReady_of_WellFormed hwf hs hi hi1) ha hb hab
  exact ⟨h2, h2, h1, h3, fun _ _ => rfl, rfl, rfl, rfl⟩

/-- C13, instantiated on the two output neurons of the 1-2 network. -/
theorem update_order_irrelevant_witness :
    ∃ sab sba, (update (some 1) exHeapBack >>= update (some 2)) = .ok sab ∧
      (update (some 2) exHeapBack >>= update (some 1)) = .ok sba ∧
      (∀ q ∈ [some 0], errorAt sab q = errorAt sba q) ∧
      deref sab (some 1) = deref sba (some 1) ∧ deref sab (some 2) = deref sba (some 2) ∧
      sab = sba :=
  update_order_irrelevant exNet exHeapBack 0 [some 0] [some 1, some 2] (some 1) (some 2)
    (by decide) (by decide) rfl rfl (by decide) (by decide) (by decide)

/-- C14: when every entry of every layer is a live neuron, `SetActivation(f)`
runs to the end; and whenever it has run, every neuron of every layer has
`Activation = f`, while every other field of every neuron of the heap is as
before (the heap maps to the same list once `Activation` is blanked).  The
method returns nothing but the heap: `net.Layers` is not written. -/
theorem SetActivation_frame (net : NNet) (fn : Option (ActivationFunc α)) (h : Heap α) :
    ((∀ p ∈ net.Layers.flatten, ∃ n, deref h p = .ok n) →
        ∃ h1, net.SetActivation fn h = .ok h1) ∧
      ∀ h1, net.SetActivation fn h = .ok h1 →
        (∀ p ∈ net.Layers.flatten, ∃ n, deref h1 p = .ok n ∧ n.Activation = fn) ∧
          h1.map Neuron.detached = h.map Neuron.detached := by
  refine ⟨?_, ?_⟩
  · intro hv
    obtain ⟨h1, hrun, _, _⟩ :=
      forLayers_ok (fun n : Neuron α => { n with Activation := fn }) (fun _ => rfl)
        net.Layers h hv
    exact ⟨h1, hrun⟩
  · intro h1 hrun
    have hv := forLayers_live net.Layers h h1 hrun
    obtain ⟨h2, hrun2, hin, _⟩ :=
      forLayers_ok (fun n : Neuron α => { n with Activation := fn }) (fun _ => rfl)
        net.Layers h hv
    have he : h2 = h1 := by
      have e : Except.ok h2 = Except.ok h1 := hrun2.symm.trans hrun
      injection e
    subst he
    refine ⟨?_, ?_⟩
    · intro p hp
      obtain ⟨n, hn⟩ := hv p hp
      exact ⟨_, hin p n hp hn, rfl⟩
    · exact forLayers_map Neuron.detached (g := fun n : Neuron α => { n with Activation := fn })
        (fun _ => rfl) _ _ _ hrun

/-- C15: every neuron of a network returned by `NewNNet` has all its `DeltaW`
entries equal to 0, `Momentum` 0.9, the `Bias` 1.0 that `NewNNet` gives to
every neuron, and the supplied activation function attached. -/
theorem NewNNet_initial_values (layers : List Int) (f : ActivationFunc α) (rnd : Nat → α)
    (h0 : Heap α) (hpos : ∀ size ∈ layers, 0 ≤ size) :
    ∃ h net, NewNNet layers (some f) rnd h0 = .ok (h, net) ∧
      ∀ p ∈ net.Layers.flatten, ∃ n, deref h p = .ok n ∧ (∀ d ∈ n.DeltaW, d = 0) ∧
        n.Momentum = 0.9 ∧ n.Bias = 1 ∧ n.Activation = some f := by
  obtain ⟨x, net, hrun, _, hfr⟩ := NewNNet_ok layers f rnd h0 hpos
  refine ⟨h0 ++ x, net, hrun, ?_⟩
  intro p hp
  obtain ⟨n, hn, hcase⟩ := freshFrom_all f rnd _ _ _ _ hfr p hp
  refine ⟨n, hn, ?_⟩
  rcases hcase with rfl | ⟨c, pre, rfl⟩
  · refine ⟨?_, rfl, rfl, rfl⟩
    intro d hd
    simpa [freshInput] using hd
  · refine ⟨?_, rfl, rfl, rfl⟩
    intro d hd
    exact (List.mem_replicate.mp hd).2

/-- C15, instantiated on the layer sizes 1, 8, 1 of the test. -/
theorem NewNNet_initial_values_witness :
    ∃ h net, NewNNet [1, 8, 1] (some linearAct) (fun _ => 1 / 2) [] = .ok (h, net) ∧
      ∀ p ∈ net.Layers.flatten, ∃ n, deref h p = .ok n ∧ (∀ d ∈ n.DeltaW, d = 0) ∧
        n.Momentum = 0.9 ∧ n.Bias = 1 ∧ n.Activation = some linearAct :=
  NewNNet_initial_values [1, 8, 1] linearAct (fun _ => 1 / 2) [] (by decide)

/-- C16, as stated, fails: a neuron that is its own (single) predecessor has
`len(Weights) = len(DeltaW) = len(Inputs)` and pairwise distinct predecessors,
`update` runs to the end on it, and its own `Error` is changed. -/
theorem update_self_loop_changes_Error :
    exHeapLoop.map (fun n => decide (n.Weights.length = n.DeltaW.length ∧
        n.DeltaW.length = n.Inputs.length ∧ n.Inputs.Nodup)) = [true] ∧
      panicOf (update (some 0) exHeapLoop) = none ∧
      exHeapLoop.map Neuron.Error = [1] ∧
      (okValue [] (update (some 0) exHeapLoop)).map Neuron.Error = [2] := by
  decide!

/-- C16, amended: for a neuron `n` with an activation function `f` attached,
`len(Weights) = len(DeltaW) = len(Inputs)` and pairwise distinct live
predecessors none of which is `n` itself, `n.update()` runs to the end, and
after it each predecessor `k` has its `Error` increased by
`f.Prime(predecessor_k.In) * n.Error * w_k` (`w_k` the weight `k` before the
call) and its other fields unchanged; `n.DeltaW[k]` is
`n.Error * predecessor_k.Out + n.Momentum * (DeltaW[k] before the call)` and
`n.Weights[k]` is `w_k + (new DeltaW[k])`; the other fields of `n` and every
other neuron are unchanged. -/
theorem update_postcondition (p : Ptr) (f : ActivationFunc α) (h : Heap α) (n : Neuron α)
    (hn : deref h p = .ok n) (hf : n.Activation = some f)
    (hI : n.Inputs.length = n.Weights.length) (hD : n.DeltaW.length = n.Weights.length)
    (hin : ∀ q ∈ n.Inputs, q ≠ p ∧ ∃ m, deref h q = .ok m) (hnd : n.Inputs.Nodup) :
    ∃ h1 n1, update p h = .ok h1 ∧ deref h1 p = .ok n1 ∧
      n1 = { n with DeltaW := n1.DeltaW, Weights := n1.Weights } ∧
      n1.DeltaW.length = n.DeltaW.length ∧ n1.Weights.length = n.Weights.length ∧
      (∀ (k : Nat) q m w d, n.Inputs[k]? = some q → deref h q = .ok m → n.Weights[k]? = some w →
        n.DeltaW[k]? = some d →
        deref h1 q = .ok { m with Error := m.Error + f.Prime m.In * n.Error * w } ∧
          n1.DeltaW[k]? = some (n.Error * m.Out + n.Momentum * d) ∧
          n1.Weights[k]? = some (w + (n.Error * m.Out + n.Momentum * d))) ∧
      (∀ c, c ≠ p → c ∉ n.Inputs → deref h1 c = deref h c) := by
  obtain ⟨h1, hrun, hp1, hbump, hframe⟩ := update_post hn hf hI hD hin hnd
  obtain ⟨hlD, hlW⟩ := updatedNeuron_lengths h n hI hD
  refine ⟨h1, updatedNeuron h n, hrun, hp1, rfl, hlD, hlW, ?_, hframe⟩
  intro k q m w d hq hm hw hd
  obtain ⟨e1, e2⟩ := updatedNeuron_getElem h n hq hm hw hd
  exact ⟨hbump k q w m hq hw hm, e1, e2⟩

/-- C16, amended, instantiated on neuron 1 of the 1-2 network in a state where
every term counts: its `Error` is 1, its weight `1/2`, its `DeltaW` `1/5`,
and its predecessor has `In` 3, `Out` 4 and `Error` 5.  The update moves the
predecessor's `Error` from 5 to `11/2`, the neuron's `DeltaW` to `209/50` and
its weight to `117/25`, and leaves neuron 2 alone. -/
theorem update_postcondition_witness :
    (∃ h1 n1, update (some 1) exHeapUsed = .ok h1 ∧ deref h1 (some 1) = .ok n1 ∧
      n1 = { (okValue (freshInput linearAct) (deref exHeapUsed (some 1))) with DeltaW := n1.DeltaW, Weights := n1.Weights } ∧
      n1.DeltaW.length = (okValue (freshInput linearAct) (deref exHeapUsed (some 1))).DeltaW.length ∧
      n1.Weights.length = (okValue (freshInput linearAct) (deref exHeapUsed (some 1))).Weights.length ∧
      (∀ (k : Nat) q m w d, (okValue (freshInput linearAct) (deref exHeapUsed (some 1))).Inputs[k]? = some q →
        deref exHeapUsed q = .ok m →
        (okValue (freshInput linearAct) (deref exHeapUsed (some 1))).Weights[k]? = some w →
        (okValue (freshInput linearAct) (deref exHeapUsed (some 1))).DeltaW[k]? = some d →
        deref h1 q = .ok { m with Error := m.Error + linearAct.Prime m.In * (okValue (freshInput linearAct) (deref exHeapUsed (some 1))).Error * w } ∧
          n1.DeltaW[k]? = some ((okValue (freshInput linearAct) (deref exHeapUsed (some 1))).Error * m.Out + (okValue (freshInput linearAct) (deref exHeapUsed (some 1))).Momentum * d) ∧
          n1.Weights[k]? = some (w + ((okValue (freshInput linearAct) (deref exHeapUsed (some 1))).Error * m.Out + (okValue (freshInput linearAct) (deref exHeapUsed (some 1))).Momentum * d))) ∧
      (∀ c, c ≠ some 1 → c ∉ (okValue (freshInput linearAct) (deref exHeapUsed (some 1))).Inputs →
        deref h1 c = deref exHeapUsed c)) ∧
      exHeapUsed.map (fun n => (n.Error, n.Weights, n.DeltaW)) =
        [(5, [1], [7]), (1, [1 / 2], [1 / 5]), (6, [1 / 3], [2])] ∧
      (okValue [] (update (some 1) exHeapUsed)).map (fun n => (n.Error, n.Weights, n.DeltaW)) =
        [(11 / 2, [1], [7]), (1, [117 / 25], [209 / 50]), (6, [1 / 3], [2])] :=
  ⟨update_postcondition (some 1) linearAct exHeapUsed _ rfl rfl rfl rfl
    (by
      intro q hq
      have hq0 : q = some 0 := by simpa [okValue, deref, exHeapUsed] using hq
      subst hq0
      exact ⟨by decide, _, rfl⟩)
    (by decide), by decide!, by decide!⟩

/-- C17: for every well-formed network (distinct live neurons with an
activation function attached, every neuron of a later layer with the previous
layer as its predecessors and one weight and one delta-weight per predecessor)
with at least two layers and every label vector whose length equals the
output layer's size, `computeOutputLayer(label)` runs to the end, sets the
`Error` of each output neuron `j` to `Prime(In_j) * (label[j] - Out_j)`,
leaves `In_j` and `Out_j` unchanged, and returns the sum over `j` of
`(label[j] - Out_j)^2 / 2`. -/
theorem computeOutputLayer_sets_errors (net : NNet) (label : List α) (h : Heap α)
    (hwf : WellFormed h net) (hs : Shape h net) (h2 : 2 ≤ net.Layers.length)
    (hlen : label.length = (net.Layers.getLastD []).length) :
    ∃ h1 loss, net.computeOutputLayer label h = .ok (h1, loss) ∧
      loss = exampleLoss label (net.outputOuts h) ∧
      ∀ (j : Nat) p n f y, (net.Layers.getLastD [])[j]? = some p → deref h p = .ok n →
        n.Activation = some f → label[j]? = some y →
        ∃ n1, deref h1 p = .ok n1 ∧ n1.Error = f.Prime n.In * (y - n.Out) ∧
          n1.In = n.In ∧ n1.Out = n.Out := by
  obtain ⟨prev, r, -, -, hrun, hpost, -⟩ :=
    computeOutputLayer_ready hwf hs h2 (le_of_eq hlen.symm)
  refine ⟨r.1, r.2, hrun, (computeOutputLayer_loss hrun).2, ?_⟩
  intro j p n f y hj hn hf hy
  exact ⟨_, hpost j p n f y hj hn hf hy, rfl, rfl, rfl⟩

/-- C17, instantiated on the 1-2 network after a forward pass, with the label
`[1, 1]`. -/
theorem computeOutputLayer_sets_errors_witness :
    ∃ h1 loss, exNet.computeOutputLayer [1, 1] exHeapUsed = .ok (h1, loss) ∧
      loss = exampleLoss [1, 1] (exNet.outputOuts exHeapUsed) ∧
      ∀ (j : Nat) p n f y, (exNet.Layers.getLastD [])[j]? = some p →
        deref exHeapUsed p = .ok n → n.Activation = some f → ([1, 1] : List ℚ)[j]? = some y →
        ∃ n1, deref h1 p = .ok n1 ∧ n1.Error = f.Prime n.In * (y - n.Out) ∧
          n1.In = n.In ∧ n1.Out = n.Out :=
  computeOutputLayer_sets_errors exNet [1, 1] exHeapUsed (by decide) (by decide) (by decide) rfl

/-- C18, as stated, fails: on the well-formed 1-2 network, after the forward
pass on `[2]` and `zeroErrors`, one `computeOutputLayer([1, 1])` leaves the
output neurons with `Weights` `[2]`, `[2]` and `DeltaW` `[3/2]`, `[5/3]`, and
two in a row leave them with `Weights` `[97/20]`, `[31/6]` and `DeltaW`
`[57/20]`, `[19/6]`. -/
theorem computeOutputLayer_twice_differs :
    WellFormed exHeapForward exNet ∧ Shape exHeapForward exNet ∧
      panicOf (exNet.feedForward [2] exHeap) = none ∧
      panicOf (exNet.zeroErrors (okValue [] (exNet.feedForward [2] exHeap))) = none ∧
      panicOf (exNet.computeOutputLayer [1, 1] exHeapForward) = none ∧
      panicOf (exNet.computeOutputLayer [1, 1] exHeapOnce) = none ∧
      (exHeapOnce.drop 1).map (fun n => (n.Weights, n.DeltaW)) =
        [([2], [3 / 2]), ([2], [5 / 3])] ∧
      (exHeapTwice.drop 1).map (fun n => (n.Weights, n.DeltaW)) =
        [([97 / 20], [57 / 20]), ([31 / 6], [19 / 6])] := by
  decide!

/-- C18, amended: for every well-formed network with at least two layers and
every label vector of matching length, `computeOutputLayer(label)` can be run
twice in a row, and the second run leaves every output neuron with the
`Error`, `In` and `Out` the first run left and applies one more update step
to its weights: `DeltaW[k]` becomes `Error * predecessor_k.Out + Momentum *
(DeltaW[k] after the first run)` and `Weights[k]` becomes `(Weights[k] after
the first run) + (new DeltaW[k])`. -/
theorem computeOutputLayer_twice (net : NNet) (label : List α) (h : Heap α)
    (hwf : WellFormed h net) (hs : Shape h net) (h2 : 2 ≤ net.Layers.length)
    (hlen : label.length = (net.Layers.getLastD []).length) :
    ∃ h1 e1 h2 e2, net.computeOutputLayer label h = .ok (h1, e1) ∧
      net.computeOutputLayer label h1 = .ok (h2, e2) ∧
      ∀ (j : Nat) p n1, (net.Layers.getLastD [])[j]? = some p → deref h1 p = .ok n1 →
        ∃ n2, deref h2 p = .ok n2 ∧ n2.Error = n1.Error ∧ n2.In = n1.In ∧ n2.Out = n1.Out ∧
          n2.DeltaW.length = n1.DeltaW.length ∧ n2.Weights.length = n1.Weights.length ∧
          ∀ (k : Nat) q m w d, n1.Inputs[k]? = some q → deref h1 q = .ok m →
            n1.Weights[k]? = some w → n1.DeltaW[k]? = some d →
            n2.DeltaW[k]? = some (n1.Error * m.Out + n1.Momentum * d) ∧
              n2.Weights[k]? = some (w + (n1.Error * m.Out + n1.Momentum * d)) := by
  obtain ⟨prev, r1, hr, hidx, hrun1, hpost1, -⟩ :=
    computeOutputLayer_ready hwf hs h2 (le_of_eq hlen.symm)
  have hr1 : LayerReady r1.1 prev (net.Layers.getLastD []) :=
    LayerReady_congr (computeOutputLayer_map Stable_rigid hrun1) hr
  obtain ⟨r2, hrun2, hpost2, -⟩ :=
    computeOutputLayer_of_ready hr1 hidx (le_of_eq hlen.symm)
  refine ⟨r1.1, r1.2, r2.1, r2.2, hrun1, hrun2, ?_⟩
  intro j p n1 hj hn1
  obtain ⟨n, hn, hA, -⟩ := hr.2.2.2.2 p (List.getElem?_mem hj)
  obtain ⟨f, hf⟩ := Option.isSome_iff_exists.mp hA
  have hjl : j < label.length := by rw [hlen]; exact (List.getElem?_eq_some.mp hj).1
  have hy : label[j]? = some label[j] := List.getElem?_eq_getElem hjl
  have h1p := hpost1 j p n f _ hj hn hf hy
  rw [hn1] at h1p
  have hn1e := Except.ok.inj h1p
  obtain ⟨n0, hn0, -, hI, hW, hD⟩ := hr1.2.2.2.2 p (List.getElem?_mem hj)
  rw [hn1] at hn0
  obtain rfl : n1 = n0 := Except.ok.inj hn0
  have h2p := hpost2 j p n1 f _ hj hn1 (by rw [hn1e]; exact hf) hy
  have hsame : ({ n1 with Error := f.Prime n1.In * (label[j] - n1.Out) } : Neuron α) = n1 := by
    rw [hn1e]; rfl
  rw [hsame] at h2p
  obtain ⟨hlD, hlW⟩ := updatedNeuron_lengths r1.1 n1 (by rw [hI, hW]) (by rw [hD, hW])
  refine ⟨_, h2p, rfl, rfl, rfl, hlD, hlW, ?_⟩
  intro k q m w d hq hm hw hd
  exact updatedNeuron_getElem r1.1 n1 hq hm hw hd

/-- C18, amended, instantiated on the 1-2 network after the forward pass on
`[2]` and `zeroErrors`, with the label `[1, 1]`. -/
theorem computeOutputLayer_twice_witness :
    ∃ h1 e1 h2 e2, exNet.computeOutputLayer [1, 1] exHeapForward = .ok (h1, e1) ∧
      exNet.computeOutputLayer [1, 1] h1 = .ok (h2, e2) ∧
      ∀ (j : Nat) p n1, (exNet.Layers.getLastD [])[j]? = some p → deref h1 p = .ok n1 →
        ∃ n2, deref h2 p = .ok n2 ∧ n2.Error = n1.Error ∧ n2.In = n1.In ∧ n2.Out = n1.Out ∧
          n2.DeltaW.length = n1.DeltaW.length ∧ n2.Weights.length = n1.Weights.length ∧
          ∀ (k : Nat) q m w d, n1.Inputs[k]? = some q → deref h1 q = .ok m →
            n1.Weights[k]? = some w → n1.DeltaW[k]? = some d →
            n2.DeltaW[k]? = some (n1.Error * m.Out + n1.Momentum * d) ∧
              n2.Weights[k]? = some (w + (n1.Error * m.Out + n1.Momentum * d)) :=
  computeOutputLayer_twice exNet [1, 1] exHeapForward (by decide!) (by decide!) (by decide) rfl

/-- C19: for every well-formed network and every layer `i + 1` whose neurons
have the activation function `f` attached, if every neuron of layer `i` has
`Error` 0 then `propagateErrors(i + 1)`, which runs `update` once on every
neuron of layer `i + 1` in index order, runs to the end and leaves each neuron
`k` of layer `i` with its `In` and with
`Error = f.Prime(In_k) * (sum over the neurons j of layer i + 1 of Error_j * w_jk)`,
`Error_j` and `w_jk` being read before the loop; and they are the values when
the update of `j` runs, for the updates of the neurons before `j` leave `j`
as it was. -/
theorem propagateErrors_backprop_sum (net : NNet) (h : Heap α) (i : Nat) (prev l : List Ptr)
    (f : ActivationFunc α) (hwf : WellFormed h net) (hs : Shape h net)
    (hi : net.Layers[i]? = some prev) (hi1 : net.Layers[i + 1]? = some l)
    (hact : ∀ p ∈ l, ∀ n, deref h p = .ok n → n.Activation = some f)
    (hzero : ∀ q ∈ prev, ∀ m, deref h q = .ok m → m.Error = 0) :
    ∃ h1, net.propagateErrors (i + 1) h = .ok h1 ∧
      (∀ (k : Nat) q m, prev[k]? = some q → deref h q = .ok m →
        ∃ m1, deref h1 q = .ok m1 ∧ m1.In = m.In ∧
          m1.Error = f.Prime m.In * backSum h l k) ∧
      (∀ (j : Nat) p, l[j]? = some p →
        ∃ s, propagateLoop (l.take j) h = .ok s ∧ deref s p = deref h p) := by
  have hr : LayerReady h prev l := LayerReady_of_WellFormed hwf hs hi hi1
  obtain ⟨h1, hrun, hprev, -, -⟩ := propagateLoop_ready (f := f) l h hr (fun p hp => hp)
    hr.2.1 hact
  refine ⟨h1, ?_, ?_, ?_⟩
  · simp only [NNet.propagateErrors, bind, Except.bind, index_of_getElem? hi1]
    exact hrun
  · intro k q m hq hm
    refine ⟨_, hprev k q m hq hm, rfl, ?_⟩
    simp [hzero q (List.getElem?_mem hq) m hm]
  · intro j p hj
    have hsub : ∀ c ∈ l.take j, c ∈ l := fun c hc => List.mem_of_mem_take hc
    have hnd : (l.take j).Nodup := List.Nodup.sublist (List.take_sublist j l) hr.2.1
    obtain ⟨s, hs1, -, -, hframe⟩ := propagateLoop_ready (f := f) (l.take j) h hr hsub hnd
      (fun c hc => hact c (hsub c hc))
    refine ⟨s, hs1, hframe p ?_ (hr.2.2.1 p (List.getElem?_mem hj))⟩
    intro hmem
    obtain ⟨k, hk⟩ := List.mem_iff_getElem?.mp hmem
    obtain ⟨hklt, hkeq⟩ := List.getElem?_eq_some.mp hk
    have hkj : k < j := by
      have := List.length_take_le j l
      simp only [List.length_take] at hklt
      omega
    obtain ⟨hjlt, hjeq⟩ := List.getElem?_eq_some.mp hj
    have hkl : l[k] = p := by
      rw [← hkeq]; simp [List.getElem_take]
    have := (List.Nodup.getElem_inj_iff hr.2.1 (i := k) (j := j)).mp (by rw [hkl, hjeq])
    omega

/-- C19, instantiated on the 1-2 network with the errors 2 and 3 on the
output neurons. -/
theorem propagateErrors_backprop_sum_witness :
    ∃ h1, exNet.propagateErrors (0 + 1) exHeapBack = .ok h1 ∧
      (∀ (k : Nat) q m, [some 0][k]? = some q → deref exHeapBack q = .ok m →
        ∃ m1, deref h1 q = .ok m1 ∧ m1.In = m.In ∧
          m1.Error = linearAct.Prime m.In * backSum exHeapBack [some 1, some 2] k) ∧
      (∀ (j : Nat) p, [some 1, some 2][j]? = some p →
        ∃ s, propagateLoop ([some 1, some 2].take j) exHeapBack = .ok s ∧
          deref s p = deref exHeapBack p) :=
  propagateErrors_backprop_sum exNet exHeapBack 0 [some 0] [some 1, some 2] linearAct
    (by decide) (by decide) rfl rfl
    (by
      intro p hp n hn
      simp only [List.mem_cons, List.mem_singleton, List.not_mem_nil, or_false] at hp
      rcases hp with rfl | rfl
      · cases hn; rfl
      · cases hn; rfl)
    (by
      intro q hq m hm
      simp only [List.mem_singleton] at hq
      subst hq
      cases hm
      rfl)

/-- C20: for every network and every two heaps that agree on every field of
every neuron but `LearningRate`, `update` on the same neuron,
`computeOutputLayer` on the same label, `trainIteration` on the same dataset
and `ComputeOutput` on the same input end alike from the two heaps: both
panic, with the same panic, or both return, with the same returned values and
with heaps that again agree on every field but `LearningRate`; and a run
that returns leaves every `LearningRate` as it was. -/
theorem LearningRate_never_read (net : NNet) (h g : Heap α) (hsame : eraseLR h = eraseLR g)
    (p : Ptr) (label input : List α) (dataset : List (Dataset α)) :
    (sameOutcome (withUnit (update p h)) (withUnit (update p g)) ∧
      keepsLR h (withUnit (update p h)) ∧ keepsLR g (withUnit (update p g))) ∧
    (sameOutcome (net.computeOutputLayer label h) (net.computeOutputLayer label g) ∧
      keepsLR h (net.computeOutputLayer label h) ∧
      keepsLR g (net.computeOutputLayer label g)) ∧
    (sameOutcome (net.trainIteration dataset h) (net.trainIteration dataset g) ∧
      keepsLR h (net.trainIteration dataset h) ∧ keepsLR g (net.trainIteration dataset g)) ∧
    (sameOutcome (net.ComputeOutput input h) (net.ComputeOutput input g) ∧
      keepsLR h (net.ComputeOutput input h) ∧ keepsLR g (net.ComputeOutput input g)) := by
  refine ⟨⟨?_, ?_, ?_⟩, ⟨?_, ?_, ?_⟩, ⟨?_, ?_, ?_⟩, ⟨?_, ?_, ?_⟩⟩
  · exact sameOutcome_of_erase (f := fun s => withUnit (update p s))
      (withUnit_erase (update_erase p)) hsame
  · exact keepsLR_withUnit (fun s hs => update_map Stable_LearningRate hs)
  · exact keepsLR_withUnit (fun s hs => update_map Stable_LearningRate hs)
  · exact sameOutcome_of_erase (computeOutputLayer_erase net label) hsame
  · exact keepsLR_of_map (fun r hr => computeOutputLayer_map Stable_LearningRate hr)
  · exact keepsLR_of_map (fun r hr => computeOutputLayer_map Stable_LearningRate hr)
  · exact sameOutcome_of_erase (trainIteration_erase net dataset) hsame
  · exact keepsLR_of_map (fun r hr => trainIteration_map Stable_LearningRate hr)
  · exact keepsLR_of_map (fun r hr => trainIteration_map Stable_LearningRate hr)
  · exact sameOutcome_of_erase (ComputeOutput_erase net input) hsame
  · exact keepsLR_of_map (fun r hr => ComputeOutput_map Stable_LearningRate hr)
  · exact keepsLR_of_map (fun r hr => ComputeOutput_map Stable_LearningRate hr)

/-- C20, instantiated on the network of layer sizes 0 and 1 with the learning
rates 0 and 7. -/
theorem LearningRate_never_read_witness :
    (sameOutcome (withUnit (update (some 0) exHeap0)) (withUnit (update (some 0) exHeap0Rate)) ∧
      keepsLR exHeap0 (withUnit (update (some 0) exHeap0)) ∧
      keepsLR exHeap0Rate (withUnit (update (some 0) exHeap0Rate))) ∧
    (sameOutcome (exNet0.computeOutputLayer [1] exHeap0)
        (exNet0.computeOutputLayer [1] exHeap0Rate) ∧
      keepsLR exHeap0 (exNet0.computeOutputLayer [1] exHeap0) ∧
      keepsLR exHeap0Rate (exNet0.computeOutputLayer [1] exHeap0Rate)) ∧
    (sameOutcome (exNet0.trainIteration exData0 exHeap0)
        (exNet0.trainIteration exData0 exHeap0Rate) ∧
      keepsLR exHeap0 (exNet0.trainIteration exData0 exHeap0) ∧
      keepsLR exHeap0Rate (exNet0.trainIteration exData0 exHeap0Rate)) ∧
    (sameOutcome (exNet0.ComputeOutput [] exHeap0) (exNet0.ComputeOutput [] exHeap0Rate) ∧
      keepsLR exHeap0 (exNet0.ComputeOutput [] exHeap0) ∧
      keepsLR exHeap0Rate (exNet0.ComputeOutput [] exHeap0Rate)) :=
  LearningRate_never_read exNet0 exHeap0 exHeap0Rate rfl (some 0) [1] [] exData0

end Gannet
